import Mathlib

/-! Clustering core of cpptraj: `ClusterList.cpp`

A shallow embedding of the hierarchical-agglomerative clustering engine of
`src/ClusterList.cpp` together with the pairwise matrix, cluster node and
distance-provider interfaces it consumes.

Conventions of the embedding
* `double` values are rationals (`ℚ`); `DBL_MAX` is the largest finite
  double, as a rational constant. Comparisons and stores of doubles are exact.
  The arithmetic of `calcAvgDist` (`sumDist += Dist`, `N++`, `sumDist / N`)
  rounds to double, see `dadd` and `ddiv`; the other averages of the file are
  taken over the rationals.
* `int` frame numbers and cluster ids are natural numbers; the target cluster
  count and the sieve stride, which may be negative, are integers.
* `std::list` containers are lists; a list iterator is a position in the list,
  `end()` is the absence of a position.
* Printing (`mprintf`, `mprinterr`, progress bars, debug dumps) is dropped.
-/

namespace Cpptraj

/-- The constant `DBL_MAX` of `<cfloat>`: the largest finite double,
`(2^53 - 1) * 2^971`. -/
def DBL_MAX : ℚ := (2 ^ 53 - 1) * 2 ^ 971

/-- The linkage selector `ClusterList::LINKAGETYPE`. -/
inductive LINKAGETYPE where
  | SINGLELINK
  | AVERAGELINK
  | COMPLETELINK
deriving DecidableEq, Repr

/-! ## Double arithmetic

`calcAvgDist` accumulates and divides in `double`. The operations are modelled
on the rationals: a finite double is the rational it denotes, the result of an
operation is the exact result rounded to the nearest double (ties to even,
gradual underflow), and a result beyond `DBL_MAX` is the infinity, for which
the rational `DBL_INF = 2^1024` stands. Signed zeros are not told apart; a
result that is not a number in the code (the sum of opposite infinities, a
quotient of zeros or of infinities) is `0`, as `x / 0` is on the rationals. -/

/-- The power of two `2^e` for an integer exponent. -/
def pow2 (e : Int) : ℚ :=
  if 0 ≤ e then ((2 ^ e.toNat : Nat) : ℚ) else 1 / ((2 ^ (-e).toNat : Nat) : ℚ)

/-- The position of the leading bit of `n`, found by halving at most `fuel`
times: `⌊log₂ n⌋` when `1 ≤ n ≤ fuel`. -/
def ilog2 : Nat → Nat → Nat
  | 0, _ => 0
  | fuel + 1, n => if 2 ≤ n then ilog2 fuel (n / 2) + 1 else 0

/-- The binary exponent of a non-zero rational: the `e` with
`2^e ≤ |x| < 2^(e+1)`. -/
def binade (x : ℚ) : Int :=
  if pow2 ((ilog2 x.num.natAbs x.num.natAbs : Int) - (ilog2 x.den x.den : Int)) ≤ |x|
  then (ilog2 x.num.natAbs x.num.natAbs : Int) - (ilog2 x.den x.den : Int)
  else (ilog2 x.num.natAbs x.num.natAbs : Int) - (ilog2 x.den x.den : Int) - 1

/-- The spacing of the doubles around `x`: 53 significant bits from the
exponent of `x`, with the spacing `2^-1074` of the subnormal numbers below
`2^-1022`. -/
def ulp (x : ℚ) : ℚ := pow2 (max (binade x) (-1022) - 52)

/-- The integer nearest to `q`, the even one of the two when `q` is halfway. -/
def roundHalfEven (q : ℚ) : Int :=
  if q - ⌊q⌋ < 1 / 2 then ⌊q⌋
  else if 1 / 2 < q - ⌊q⌋ then ⌊q⌋ + 1
  else if ⌊q⌋ % 2 = 0 then ⌊q⌋ else ⌊q⌋ + 1

/-- The multiple of the spacing nearest to `x`: round to nearest, ties to
even, with an unbounded exponent. -/
def roundDouble (x : ℚ) : ℚ :=
  if x = 0 then 0 else (roundHalfEven (x / ulp x) : ℚ) * ulp x

/-- The rational that stands for the infinity of the doubles: the first power
of two beyond `DBL_MAX`. -/
def DBL_INF : ℚ := 2 ^ 1024

/-- The double that holds the exact result `x` of an operation: the nearest
double, an infinity when that is beyond `DBL_MAX`. -/
def toDouble (x : ℚ) : ℚ :=
  if DBL_MAX < roundDouble x then DBL_INF
  else if roundDouble x < -DBL_MAX then -DBL_INF
  else roundDouble x

/-- The sum `a + b` of two doubles: an infinite operand stays (opposite
infinities give `0`, see above), the sum of finite operands is rounded. -/
def dadd (a b : ℚ) : ℚ :=
  if a = DBL_INF ∨ a = -DBL_INF then (if b = -a then 0 else a)
  else if b = DBL_INF ∨ b = -DBL_INF then b
  else toDouble (a + b)

/-- The quotient `a / b` of two doubles: a zero divisor gives the infinity of
the sign of the dividend, an infinite dividend stays (with the sign of the
divisor), a finite dividend over an infinite divisor gives zero, and the
quotient of finite operands is rounded. -/
def ddiv (a b : ℚ) : ℚ :=
  if b = 0 then (if a = 0 then 0 else if 0 < a then DBL_INF else -DBL_INF)
  else if a = DBL_INF ∨ a = -DBL_INF then
    (if b = DBL_INF ∨ b = -DBL_INF then 0 else if 0 < b then a else -a)
  else if b = DBL_INF ∨ b = -DBL_INF then 0
  else toDouble (a / b)

/-! ## Pairwise matrix -/

/-- Modelled from the spec: the class `ClusterMatrix` (declared in
`ClusterMatrix.h`, not among the sources). Conceptually an `N×N` symmetric
matrix with zero diagonal of which only the upper triangle is stored, plus a
per-row "ignored" flag. `elements_ i j` is the stored entry for `i < j`. -/
structure ClusterMatrix where
  nrows_ : Nat
  elements_ : Nat → Nat → ℚ
  ignore_ : Nat → Bool

namespace ClusterMatrix

/-- Modelled from the spec: `ClusterMatrix::Setup(n)` allocates storage for
`n` items, all initially not ignored. -/
def Setup (n : Nat) : ClusterMatrix :=
  { nrows_ := n, elements_ := fun _ _ => 0, ignore_ := fun _ => false }

/-- Modelled from the spec: `ClusterMatrix::SetupIgnore()` sets up the ignore
array: no row is ignored. -/
def SetupIgnore (m : ClusterMatrix) : ClusterMatrix :=
  { m with ignore_ := fun _ => false }

/-- Modelled from the spec: `Nrows()` returns `n`. -/
def Nrows (m : ClusterMatrix) : Nat := m.nrows_

/-- Modelled from the spec: `GetElement(i,j)` reads the `i,j` distance; the
matrix is symmetric and the diagonal is implicitly `0`. -/
def GetElement (m : ClusterMatrix) (i j : Nat) : ℚ :=
  if i = j then 0 else if i < j then m.elements_ i j else m.elements_ j i

/-- Modelled from the spec: `SetElement(i,j,v)` writes the `i,j` distance
(`i ≠ j`); only the upper triangle is stored, so the write lands on the
entry of the unordered pair. -/
def SetElement (m : ClusterMatrix) (i j : Nat) (v : ℚ) : ClusterMatrix :=
  if i = j then m
  else
    { m with elements_ := fun a b =>
        if a = min i j ∧ b = max i j then v else m.elements_ a b }

/-- Modelled from the spec: `Ignore(i)` marks row `i` excluded from
subsequent minimum search. -/
def Ignore (m : ClusterMatrix) (i : Nat) : ClusterMatrix :=
  { m with ignore_ := fun k => if k = i then true else m.ignore_ k }

/-- Modelled from the spec: `IgnoringRow(i)` queries the flag. -/
def IgnoringRow (m : ClusterMatrix) (i : Nat) : Bool := m.ignore_ i

/-- All index pairs `(i,j)` with `i < j < n`, rows ascending and columns
ascending inside a row: the scan order of the upper triangle. -/
def scanPairs (n : Nat) : List (Nat × Nat) :=
  (List.range n).flatMap fun i =>
    ((List.range n).filter fun j => decide (i < j)).map fun j => (i, j)

/-- One step of the minimum scan: a pair with an ignored index is skipped,
otherwise the pair replaces the current best only when strictly smaller (the
first minimum encountered is kept). -/
def findMinStep (m : ClusterMatrix) (best : Option (Nat × Nat × ℚ))
    (p : Nat × Nat) : Option (Nat × Nat × ℚ) :=
  if m.IgnoringRow p.1 || m.IgnoringRow p.2 then best
  else
    match best with
    | none => some (p.1, p.2, m.GetElement p.1 p.2)
    | some (bi, bj, bv) =>
      if m.GetElement p.1 p.2 < bv then some (p.1, p.2, m.GetElement p.1 p.2)
      else some (bi, bj, bv)

/-- Modelled from the spec: `FindMin(&outI,&outJ)` scans all unordered pairs
with neither index ignored, in ascending order, and returns the minimum value
and its indices `(i, j, value)` with `i < j`, keeping the first minimum
encountered; with fewer than two non-ignored rows it reports failure
(`none`: no valid minimum). -/
def FindMin (m : ClusterMatrix) : Option (Nat × Nat × ℚ) :=
  (scanPairs m.nrows_).foldl (findMinStep m) none

end ClusterMatrix

/-! ## Distance provider and cluster node -/

/-- Modelled from the spec: the distance-provider interface `ClusterDist`
(declared in `ClusterDist.h`, not among the sources), over an abstract
centroid representation `Cent`. -/
structure ClusterDist (Cent : Type) where
  CalculateCentroid : List Nat → Cent
  FrameCentroidDist : Nat → Cent → ℚ
  CentroidDist : Cent → Cent → ℚ

/-- Modelled from the spec: the class `ClusterNode` (declared in
`ClusterNode.h`, not among the sources): the member frames, the cluster id,
the centroid representation and the bookkeeping statistics. -/
structure ClusterNode (Cent : Type) where
  frameList_ : List Nat
  num_ : Nat
  centroid_ : Cent
  avgClusterDist_ : ℚ
  eccentricity_ : ℚ
  centroidframe_ : Nat

namespace ClusterNode

variable {γ : Type}

/-- Modelled from the spec: the constructor of `ClusterNode` from a
distance-provider handle, a set of member indices and a cluster id. -/
def new (Cdist : ClusterDist γ) (frameListIn : List Nat) (numIn : Nat) :
    ClusterNode γ :=
  { frameList_ := frameListIn, num_ := numIn,
    centroid_ := Cdist.CalculateCentroid frameListIn,
    avgClusterDist_ := 0, eccentricity_ := 0, centroidframe_ := 0 }

/-- Accessor `Num()`. -/
def Num (c : ClusterNode γ) : Nat := c.num_

/-- Accessor `Nframes()`. -/
def Nframes (c : ClusterNode γ) : Nat := c.frameList_.length

/-- Accessor `Cent()`. -/
def Cent (c : ClusterNode γ) : γ := c.centroid_

/-- Modelled from the spec: `MergeFrames(other)`: the members become the
sorted union of both member sets; no duplicate is removed (the sets are
disjoint by invariant); the other bookkeeping is left as it is (stale). -/
def MergeFrames (c other : ClusterNode γ) : ClusterNode γ :=
  { c with frameList_ :=
      List.insertionSort (fun a b : Nat => a ≤ b) (c.frameList_ ++ other.frameList_) }

/-- Modelled from the spec: `AddFrameToCluster(frame)`: the frame joins the
ordered member list of the node. -/
def AddFrameToCluster (c : ClusterNode γ) (frame : Nat) : ClusterNode γ :=
  { c with frameList_ := List.orderedInsert (fun a b : Nat => a ≤ b) frame c.frameList_ }

/-- Modelled from the spec: `CalculateCentroid(distanceProvider)` asks the
provider for the centroid representation of the current members. -/
def CalculateCentroid (c : ClusterNode γ) (Cdist : ClusterDist γ) :
    ClusterNode γ :=
  { c with centroid_ := Cdist.CalculateCentroid c.frameList_ }

/-- Setter `SetAvgDist(avg)`. -/
def SetAvgDist (c : ClusterNode γ) (avg : ℚ) : ClusterNode γ :=
  { c with avgClusterDist_ := avg }

/-- Setter `SetNum(num)`. -/
def SetNum (c : ClusterNode γ) (numIn : Nat) : ClusterNode γ :=
  { c with num_ := numIn }

/-- The sum of the frame-level distances from member `frm1` to the other
members. -/
def centroidSum (fd : ClusterMatrix) (frames : List Nat) (frm1 : Nat) : ℚ :=
  frames.foldl (fun cdist frm2 =>
    if frm1 = frm2 then cdist else cdist + fd.GetElement frm1 frm2) 0

/-- The member with the smallest `centroidSum`, the first one among equals;
`none` for an empty member list. -/
def minSumFrame (fd : ClusterMatrix) (frames : List Nat) : Option (Nat × ℚ) :=
  frames.foldl (fun best frm1 =>
    match best with
    | none => some (frm1, centroidSum fd frames frm1)
    | some (bf, bv) =>
      if centroidSum fd frames frm1 < bv then some (frm1, centroidSum fd frames frm1)
      else some (bf, bv)) none

/-- Modelled from the spec: `FindCentroidFrame(pairwiseMatrix)`: among the
current members, selects the member minimizing the sum of distances to all
other members in the frame-level matrix; reports failure (`1`) if the set is
empty. -/
def FindCentroidFrame (c : ClusterNode γ) (fd : ClusterMatrix) : Int × ClusterNode γ :=
  match minSumFrame fd c.frameList_ with
  | none => (1, c)
  | some (frm, _) => (0, { c with centroidframe_ := frm })

/-- Modelled from the spec: `CalcAvgToCentroid(distanceProvider)`: the average
distance from each member to the centroid. -/
def CalcAvgToCentroid (c : ClusterNode γ) (Cdist : ClusterDist γ) : ℚ :=
  (c.frameList_.map fun f => Cdist.FrameCentroidDist f c.Cent).sum / (c.frameList_.length : ℚ)

/-- Modelled from the spec: the ordering of `ClusterNode` (its `operator<`):
nodes compare by descending member count, so `c` is sorted before `other` when
it has more members; this is the relation "`other` is not sorted before `c`"
that a stable sort maintains between neighbours. -/
def notAfter (c other : ClusterNode γ) : Prop := other.Nframes ≤ c.Nframes

instance (c other : ClusterNode γ) : Decidable (notAfter c other) :=
  inferInstanceAs (Decidable (other.Nframes ≤ c.Nframes))

end ClusterNode

/-! ## The cluster list -/

/-- The data members of `ClusterList`: the live clusters, the frame-level
matrix, the cluster-level matrix and the distance provider. -/
structure ClusterList (Cent : Type) where
  clusters_ : List (ClusterNode Cent)
  FrameDistances_ : ClusterMatrix
  ClusterDistances_ : ClusterMatrix
  Cdist_ : ClusterDist Cent

namespace ClusterList

variable {γ : Type}

/-- Accessor `Nclusters()`: the number of live clusters. -/
def Nclusters (cl : ClusterList γ) : Nat := cl.clusters_.length

/-- `ClusterList::AddCluster`: append a cluster made of the given frames; its
number is the current list size. -/
def AddCluster (cl : ClusterList γ) (framelistIn : List Nat) : ClusterList γ :=
  { cl with clusters_ :=
      cl.clusters_ ++ [ClusterNode.new cl.Cdist_ framelistIn cl.clusters_.length] }

/-- Inner double loop of `calcMinDist`: starting from `DBL_MAX`, keep the
smallest frame distance between a frame of `c1` and a frame of `c2`. -/
def minDistFrames (fd : ClusterMatrix) (c1 c2 : List Nat) : ℚ :=
  c1.foldl (fun min f1 =>
    c2.foldl (fun min f2 =>
      if fd.GetElement f1 f2 < min then fd.GetElement f1 f2 else min) min) DBL_MAX

/-- Inner double loop of `calcMaxDist`: starting from `-1.0`, keep the largest
frame distance between a frame of `c1` and a frame of `c2`. -/
def maxDistFrames (fd : ClusterMatrix) (c1 c2 : List Nat) : ℚ :=
  c1.foldl (fun max f1 =>
    c2.foldl (fun max f2 =>
      if fd.GetElement f1 f2 > max then fd.GetElement f1 f2 else max) max) (-1)

/-- Inner double loop of `calcAvgDist`: the pair `(sumDist, N)` of doubles
after the loops, `c1` in the outer loop; `sumDist += Dist` and `N++` are
additions of doubles. -/
def sumDistFrames (fd : ClusterMatrix) (c1 c2 : List Nat) : ℚ × ℚ :=
  c1.foldl (fun acc f1 =>
    c2.foldl (fun acc f2 => (dadd acc.1 (fd.GetElement f1 f2), dadd acc.2 1)) acc) (0, 0)

/-- The value `sumDist / N` that `calcAvgDist` stores: a division of
doubles. -/
def avgDistFrames (fd : ClusterMatrix) (c1 c2 : List Nat) : ℚ :=
  ddiv (sumDistFrames fd c1 c2).1 (sumDistFrames fd c1 c2).2

/-- `ClusterList::calcMinDist`: for every cluster at a position other than
`C1_it`, store the minimum frame distance between the cluster at `C1_it` and
that cluster in `ClusterDistances_`. -/
def calcMinDist (cl : ClusterList γ) (C1_it : Nat) : ClusterList γ :=
  match cl.clusters_.get? C1_it with
  | none => cl
  | some C1 =>
    { cl with ClusterDistances_ :=
        (cl.clusters_.enum.foldl (fun cd C2 =>
          if C2.fst = C1_it then cd
          else cd.SetElement C1.Num C2.snd.Num
                 (minDistFrames cl.FrameDistances_ C1.frameList_ C2.snd.frameList_))
          cl.ClusterDistances_) }

/-- `ClusterList::calcMaxDist`: as `calcMinDist`, with the maximum frame
distance. -/
def calcMaxDist (cl : ClusterList γ) (C1_it : Nat) : ClusterList γ :=
  match cl.clusters_.get? C1_it with
  | none => cl
  | some C1 =>
    { cl with ClusterDistances_ :=
        (cl.clusters_.enum.foldl (fun cd C2 =>
          if C2.fst = C1_it then cd
          else cd.SetElement C1.Num C2.snd.Num
                 (maxDistFrames cl.FrameDistances_ C1.frameList_ C2.snd.frameList_))
          cl.ClusterDistances_) }

/-- `ClusterList::calcAvgDist`: as `calcMinDist`, with the average frame
distance. -/
def calcAvgDist (cl : ClusterList γ) (C1_it : Nat) : ClusterList γ :=
  match cl.clusters_.get? C1_it with
  | none => cl
  | some C1 =>
    { cl with ClusterDistances_ :=
        (cl.clusters_.enum.foldl (fun cd C2 =>
          if C2.fst = C1_it then cd
          else cd.SetElement C1.Num C2.snd.Num
                 (avgDistFrames cl.FrameDistances_ C1.frameList_ C2.snd.frameList_))
          cl.ClusterDistances_) }

/-- `ClusterList::InitializeClusterDistances`: size the cluster matrix to the
number of clusters, clear the ignore array and fill in the distances of every
cluster under the linkage. -/
def InitializeClusterDistances (linkage : LINKAGETYPE) (cl : ClusterList γ) :
    ClusterList γ :=
  let cl0 : ClusterList γ :=
    { cl with ClusterDistances_ := (ClusterMatrix.Setup cl.clusters_.length).SetupIgnore }
  match linkage with
  | .AVERAGELINK =>
    (List.range cl0.clusters_.length).foldl (fun st C1_it => calcAvgDist st C1_it) cl0
  | .SINGLELINK =>
    (List.range cl0.clusters_.length).foldl (fun st C1_it => calcMinDist st C1_it) cl0
  | .COMPLETELINK =>
    (List.range cl0.clusters_.length).foldl (fun st C1_it => calcMaxDist st C1_it) cl0

/-- `ClusterList::Merge`: merge the cluster at position `c2` into the one at
position `c1` and erase position `c2`. -/
def Merge (cl : ClusterList γ) (c1 c2 : Nat) : ClusterList γ :=
  match cl.clusters_.get? c1, cl.clusters_.get? c2 with
  | some n1, some n2 =>
    { cl with clusters_ := (cl.clusters_.set c1 (n1.MergeFrames n2)).eraseIdx c2 }
  | _, _ => cl

/-- The search loop `for (; it != end(); ++it) if ((*it).Num() == num) break;`
over the clusters from position `pos` on; `none` is `end()`. -/
def findNumFrom : List (ClusterNode γ) → Nat → Nat → Option Nat
  | [], _, _ => none
  | c :: cs, pos, num => if c.Num = num then some pos else findNumFrom cs (pos + 1) num

/-- Position of the first cluster at or after position `start` whose number
is `num` (the two search loops of `MergeClosest`). -/
def findNum (clusters : List (ClusterNode γ)) (start num : Nat) : Option Nat :=
  findNumFrom (clusters.drop start) start num

/-- `ClusterList::MergeClosest`: find the two closest clusters and merge them.
Returns the return code and the state. A failed `FindMin` offers no pair to
merge: like the other failure paths it returns `1` with the state as it
was. -/
def MergeClosest (epsilon : ℚ) (linkage : LINKAGETYPE) (cl : ClusterList γ) :
    Int × ClusterList γ :=
  match cl.ClusterDistances_.FindMin with
  | none => (1, cl)
  | some (C1, C2, min) =>
    if min > epsilon then (1, cl)
    else
      match findNum cl.clusters_ 0 C1 with
      | none => (1, cl)
      | some C1_it =>
        match findNum cl.clusters_ C1_it C2 with
        | none => (1, cl)
        | some C2_it =>
          let merged := Merge cl C1_it C2_it
          let ignored : ClusterList γ :=
            { merged with ClusterDistances_ := merged.ClusterDistances_.Ignore C2 }
          let recalculated : ClusterList γ :=
            match linkage with
            | .AVERAGELINK => calcAvgDist ignored C1_it
            | .SINGLELINK => calcMinDist ignored C1_it
            | .COMPLETELINK => calcMaxDist ignored C1_it
          (0, recalculated)

/-- The `while (!clusteringComplete)` loop of `ClusterHierAgglo`, with a
bound on the number of iterations; `none` when the bound is exhausted before
the loop exits. -/
def mergeLoop (epsilon : ℚ) (targetN : Int) (linkage : LINKAGETYPE) :
    Nat → ClusterList γ → Option (ClusterList γ)
  | 0, _ => none
  | fuel + 1, cl =>
    match MergeClosest epsilon linkage cl with
    | (ret, cl1) =>
      if ret ≠ 0 then some cl1
      else if (cl1.Nclusters : Int) ≤ targetN then some cl1
      else if cl1.Nclusters = 1 then some cl1
      else mergeLoop epsilon targetN linkage fuel cl1

/-- The initial build of `ClusterHierAgglo`: one singleton cluster for every
non-ignored frame of the frame matrix, in frame order. -/
def buildInitial (cl : ClusterList γ) : ClusterList γ :=
  (List.range cl.FrameDistances_.Nrows).foldl (fun st frame =>
    if !st.FrameDistances_.IgnoringRow frame then st.AddCluster [frame] else st) cl

/-- `ClusterList::ClusterHierAgglo`: build the singleton clusters, initialise
the cluster distances and run the merge loop (at most `fuel` iterations);
returns the return code and the final state. -/
def ClusterHierAgglo (fuel : Nat) (epsilon : ℚ) (targetN : Int) (linkage : LINKAGETYPE)
    (cl : ClusterList γ) : Option (Int × ClusterList γ) :=
  (mergeLoop epsilon targetN linkage fuel
      (InitializeClusterDistances linkage (buildInitial cl))).map fun st => (0, st)

/-- The sieve loop of `CalcFrameDistances`: the pair `(tgtframe, matrix)`
after the body has run for `frame`. -/
def sieveStep (sieve : Int) (acc : Int × ClusterMatrix) (frame : Nat) : Int × ClusterMatrix :=
  if acc.1 = (frame : Int) then (acc.1 + sieve, acc.2)
  else (acc.1, acc.2.Ignore frame)

/-- The block `if (sieve > 1) { ... }` of `CalcFrameDistances` over a data set
of `size` frames. -/
def sieveIgnore (sieve : Int) (size : Nat) (m : ClusterMatrix) : ClusterMatrix :=
  if sieve > 1 then ((List.range size).foldl (sieveStep sieve) (0, m)).2 else m

/-- `ClusterList::CalcFrameDistances`. The collaborators outside the core are
parameters: `dsIn` is the size of the input data set (`none` for a null
pointer), `Cdist` the distance provider built for it and `pairwise` the matrix
obtained from `LoadFile` or from `PairwiseDist(sieve)`. Returns the return
code and the state. -/
def CalcFrameDistances (cl : ClusterList γ) (dsIn : Option Nat) (Cdist : ClusterDist γ)
    (pairwise : ClusterMatrix) (sieve : Int) : Int × ClusterList γ :=
  match dsIn with
  | none => (1, cl)
  | some size =>
    (0, { cl with Cdist_ := Cdist, FrameDistances_ := sieveIgnore sieve size pairwise })

/-- The inner loop of `AddSievedFrames` over the clusters from position `pos`
on: the pair `(mindist, minNode)`, replaced whenever a strictly smaller
centroid distance is met. -/
def closestFrom (Cdist : ClusterDist γ) (frame : Nat) :
    List (ClusterNode γ) → Nat → ℚ × Option Nat → ℚ × Option Nat
  | [], _, acc => acc
  | Cnode :: rest, pos, acc =>
    closestFrom Cdist frame rest (pos + 1)
      (if Cdist.FrameCentroidDist frame Cnode.Cent < acc.1 then
        (Cdist.FrameCentroidDist frame Cnode.Cent, some pos)
      else acc)

/-- The search for the cluster whose centroid is closest to `frame`, from
`mindist = DBL_MAX` and `minNode = end()`. -/
def closestNode (Cdist : ClusterDist γ) (clusters : List (ClusterNode γ)) (frame : Nat) :
    ℚ × Option Nat :=
  closestFrom Cdist frame clusters 0 (DBL_MAX, none)

/-- The statement `(*minNode).AddFrameToCluster( frame )` for a position
`minNode` of the list. -/
def addFrameAt (clusters : List (ClusterNode γ)) (minNode frame : Nat) :
    List (ClusterNode γ) :=
  match clusters.get? minNode with
  | some c => clusters.set minNode (c.AddFrameToCluster frame)
  | none => clusters

/-- The body of the frame loop of `AddSievedFrames`; dereferencing
`minNode == end()` has no defined result (`none`). -/
def addSievedStep (st : ClusterList γ) (frame : Nat) : Option (ClusterList γ) :=
  if st.FrameDistances_.IgnoringRow frame then
    match (closestNode st.Cdist_ st.clusters_ frame).2 with
    | none => none
    | some minNode => some { st with clusters_ := addFrameAt st.clusters_ minNode frame }
  else some st

/-- `ClusterList::AddSievedFrames`: refresh every centroid, then add every
ignored frame to the cluster with the closest centroid. -/
def AddSievedFrames (cl : ClusterList γ) : Option (ClusterList γ) :=
  (List.range cl.FrameDistances_.Nrows).foldl
    (fun st frame => st.bind fun s => addSievedStep s frame)
    (some { cl with clusters_ := cl.clusters_.map fun c => c.CalculateCentroid cl.Cdist_ })

/-- The divisor `numdist = (double) (clusters_.size() - 1)` of `Renumber`.
With no cluster at all the unsigned subtraction wraps, but then no division is
executed; the embedding has `0` there. -/
def Renumber_numdist (cl : ClusterList γ) : ℚ := ((cl.clusters_.length - 1 : Nat) : ℚ)

/-- The first loop of `Renumber` for the cluster `node` at position `pos`: the
sum of the cluster distances to every cluster at another position, divided by
`numdist`. -/
def avgClusterDistOf (cl : ClusterList γ) (pos : Nat) (node : ClusterNode γ) : ℚ :=
  (cl.clusters_.enum.foldl (fun avgclusterdist node2 =>
      if pos = node2.fst then avgclusterdist
      else avgclusterdist + cl.ClusterDistances_.GetElement node.Num node2.snd.Num) 0)
    / Renumber_numdist cl

/-- `ClusterList::Renumber`: store in every cluster its average distance to the
other clusters, sort the clusters by population (a stable sort under the
ordering of `ClusterNode`), then renumber them from `0` in list order and find
their centroid frames. -/
def Renumber (cl : ClusterList γ) : ClusterList γ :=
  let averaged : List (ClusterNode γ) :=
    cl.clusters_.enum.map fun node => node.snd.SetAvgDist (avgClusterDistOf cl node.fst node.snd)
  let sorted : List (ClusterNode γ) :=
    List.insertionSort (fun a b : ClusterNode γ => ClusterNode.notAfter a b) averaged
  { cl with clusters_ :=
      sorted.enum.map fun node =>
        ((node.snd.SetNum node.fst).FindCentroidFrame cl.FrameDistances_).2 }

/-- The clusters of `ComputeDBI` after its first loop: every centroid is
brought up to date. -/
def dbiClusters (cl : ClusterList γ) : List (ClusterNode γ) :=
  cl.clusters_.map fun c => c.CalculateCentroid cl.Cdist_

/-- The vector `averageDist` of `ComputeDBI`: for every cluster, in list order,
its average distance to its centroid. -/
def dbiAverageDist (cl : ClusterList γ) : List ℚ :=
  (dbiClusters cl).map fun c => c.CalcAvgToCentroid cl.Cdist_

/-- The inner loop of `ComputeDBI` for the cluster `c1` at position `nc1`:
`MaxFred`, from `0`, replaced by every strictly larger `Fred`. -/
def dbiMaxFred (cl : ClusterList γ) (nc1 : Nat) (c1 : ClusterNode γ) : ℚ :=
  (dbiClusters cl).enum.foldl (fun MaxFred c2 =>
    if nc1 = c2.fst then MaxFred
    else
      if ((dbiAverageDist cl).getD nc1 0 + (dbiAverageDist cl).getD c2.fst 0)
            / cl.Cdist_.CentroidDist c1.Cent c2.snd.Cent > MaxFred then
        ((dbiAverageDist cl).getD nc1 0 + (dbiAverageDist cl).getD c2.fst 0)
            / cl.Cdist_.CentroidDist c1.Cent c2.snd.Cent
      else MaxFred) 0

/-- `ClusterList::ComputeDBI`: the Davies-Bouldin index `DBITotal / size`, and
the state with the centroids brought up to date. -/
def ComputeDBI (cl : ClusterList γ) : ℚ × ClusterList γ :=
  ((dbiClusters cl).enum.foldl (fun DBITotal c1 => DBITotal + dbiMaxFred cl c1.fst c1.snd) 0
      / ((dbiClusters cl).length : ℚ),
   { cl with clusters_ := dbiClusters cl })

/-- The maximum of a non-empty list of values (`0` for the empty list). -/
def maxOfList : List ℚ → ℚ
  | [] => 0
  | a :: rest => rest.foldl max a

/-- The cluster-to-cluster value of the given linkage. -/
def linkDistFrames (linkage : LINKAGETYPE) (fd : ClusterMatrix) (c1 c2 : List Nat) : ℚ :=
  match linkage with
  | .AVERAGELINK => avgDistFrames fd c1 c2
  | .SINGLELINK => minDistFrames fd c1 c2
  | .COMPLETELINK => maxDistFrames fd c1 c2

/-- The recomputation selected by the linkage, in one definition: `calcAvgDist`,
`calcMinDist` or `calcMaxDist` (see `linkage_switch`). -/
def calcDist (linkage : LINKAGETYPE) (cl : ClusterList γ) (C1_it : Nat) :
    ClusterList γ :=
  match cl.clusters_.get? C1_it with
  | none => cl
  | some C1 =>
    { cl with ClusterDistances_ :=
        (cl.clusters_.enum.foldl (fun cd C2 =>
          if C2.fst = C1_it then cd
          else cd.SetElement C1.Num C2.snd.Num
                 (linkDistFrames linkage cl.FrameDistances_ C1.frameList_ C2.snd.frameList_))
          cl.ClusterDistances_) }

/-- The merge loop of `ClusterHierAgglo` as `mergeLoop`, which also counts the
merges: the calls of `MergeClosest` that returned `0`. -/
def mergeLoopCount (epsilon : ℚ) (targetN : Int) (linkage : LINKAGETYPE) :
    Nat → ClusterList γ → Option (ClusterList γ × Nat)
  | 0, _ => none
  | fuel + 1, cl =>
    match MergeClosest epsilon linkage cl with
    | (ret, cl1) =>
      if ret ≠ 0 then some (cl1, 0)
      else if (cl1.Nclusters : Int) ≤ targetN then some (cl1, 1)
      else if cl1.Nclusters = 1 then some (cl1, 1)
      else (mergeLoopCount epsilon targetN linkage fuel cl1).map fun r => (r.1, r.2 + 1)

/-- In the words of the spec: `v` is the distance between the member sets `A`
and `B` under the linkage: for single-link the minimum pairwise frame distance
between any member of `A` and any member of `B`, for complete-link the maximum
such distance, for average-link the mean of all pairwise distances between
the two member sets. -/
def IsLinkValue (linkage : LINKAGETYPE) (fd : ClusterMatrix) (A B : List Nat) (v : ℚ) : Prop :=
  match linkage with
  | .SINGLELINK =>
    (∃ a ∈ A, ∃ b ∈ B, v = fd.GetElement a b) ∧ ∀ a ∈ A, ∀ b ∈ B, v ≤ fd.GetElement a b
  | .COMPLETELINK =>
    (∃ a ∈ A, ∃ b ∈ B, v = fd.GetElement a b) ∧ ∀ a ∈ A, ∀ b ∈ B, fd.GetElement a b ≤ v
  | .AVERAGELINK =>
    v = (A.map fun a => (B.map fun b => fd.GetElement a b).sum).sum
          / ((A.length * B.length : Nat) : ℚ)

/-- In the words of the spec: the mean of all pairwise distances between the
two member sets, over the rationals. -/
def meanDistFrames (fd : ClusterMatrix) (A B : List Nat) : ℚ :=
  (A.map fun a => (B.map fun b => fd.GetElement a b).sum).sum
    / ((A.length * B.length : Nat) : ℚ)

/-- A bound on the rounding error of a mean of `N` non-negative doubles that
is accumulated and divided in double: `N` additions and one division, each
with a relative error of at most `2^-53` and an absolute error of at most
`2^-1075 = 2^-53 * 2^-1022`. -/
def avgErrorBound (N : Nat) (mean : ℚ) : ℚ :=
  ((1 + 1 / 2 ^ 53) ^ (N + 1) - 1) * (mean + 1 / 2 ^ 1022)

/-- Every entry of the cluster matrix between two live clusters is the value
that the recomputation of the linkage stores for their member lists, with the
members of one of the two clusters in the outer loop. -/
def ExactDistances (linkage : LINKAGETYPE) (st : ClusterList γ) : Prop :=
  ∀ a ∈ st.clusters_, ∀ b ∈ st.clusters_, a.Num ≠ b.Num →
    st.ClusterDistances_.GetElement a.Num b.Num =
        linkDistFrames linkage st.FrameDistances_ a.frameList_ b.frameList_ ∨
    st.ClusterDistances_.GetElement a.Num b.Num =
        linkDistFrames linkage st.FrameDistances_ b.frameList_ a.frameList_

/-- The non-ignored frames of a frame matrix, ascending. -/
def nonIgnoredFrames (fd : ClusterMatrix) : List Nat :=
  (List.range fd.Nrows).filter fun f => !fd.IgnoringRow f

/-- The states of the merge phase of `ClusterHierAgglo` started on `cl0`: the
state after the initial build and `InitializeClusterDistances`, and every
state that a successful `MergeClosest` produces from such a state. -/
inductive Reachable (linkage : LINKAGETYPE) (cl0 : ClusterList γ) : ClusterList γ → Prop
  | init : Reachable linkage cl0 (InitializeClusterDistances linkage (buildInitial cl0))
  | step (epsilon : ℚ) (st st' : ClusterList γ) :
      Reachable linkage cl0 st → MergeClosest epsilon linkage st = (0, st') →
      Reachable linkage cl0 st'

/-- Well-formedness of a merge-phase state: the cluster numbers ascend along
the list, the live clusters are exactly the non-ignored rows of the cluster
matrix, and the member lists are duplicate-free and pairwise disjoint. -/
structure WellFormed (st : ClusterList γ) : Prop where
  nums_sorted : (st.clusters_.map ClusterNode.Num).Pairwise (fun a b => a < b)
  live_iff : ∀ i, (i < st.ClusterDistances_.Nrows ∧ st.ClusterDistances_.IgnoringRow i = false) ↔
    ∃ c ∈ st.clusters_, c.Num = i
  frames_nodup : ∀ c ∈ st.clusters_, c.frameList_.Nodup
  frames_disjoint : st.clusters_.Pairwise (fun a b => ∀ f ∈ a.frameList_, f ∉ b.frameList_)

end ClusterList

/-! ## Concrete scenarios -/

/-- A provider without content, for runs that never consult it. -/
def unitDist : ClusterDist Unit :=
  { CalculateCentroid := fun _ => (), FrameCentroidDist := fun _ _ => 0,
    CentroidDist := fun _ _ => 0 }

/-- A frame matrix over `n` points on a line at the given positions, with the
distance `|x_i - x_j|` and nothing ignored. -/
def lineMatrix (positions : List ℚ) : ClusterMatrix :=
  { nrows_ := positions.length,
    elements_ := fun i j => |positions.getD i 0 - positions.getD j 0|,
    ignore_ := fun _ => false }

/-- A fresh cluster list over a frame matrix. -/
def freshList (fd : ClusterMatrix) : ClusterList Unit :=
  { clusters_ := [], FrameDistances_ := fd, ClusterDistances_ := ClusterMatrix.Setup 0,
    Cdist_ := unitDist }

/-- The return code and the member lists of the clusters of a result. -/
def memberLists {Cent : Type} (r : Option (Int × ClusterList Cent)) :
    Option (Int × List (List Nat)) :=
  r.map fun p => (p.1, p.2.clusters_.map fun c => c.frameList_)

/-- The six frames `0..5` at the positions `0,1,2,10,11,12` on a line, none
ignored, in a fresh cluster list. -/
def sixPoints : ClusterList Unit := freshList (lineMatrix [0, 1, 2, 10, 11, 12])

/-- The six points at the start of the merge loop under single linkage: six
singleton clusters and their pairwise cluster distances. -/
def sixPointsStart : ClusterList Unit :=
  ClusterList.InitializeClusterDistances .SINGLELINK (ClusterList.buildInitial sixPoints)

/-- A provider for points on a line: the centroid of a cluster is the mean
position of its members, distances are absolute differences. -/
def lineDist (positions : List ℚ) : ClusterDist ℚ :=
  { CalculateCentroid := fun frames =>
      (frames.map fun f => positions.getD f 0).sum / (frames.length : ℚ),
    FrameCentroidDist := fun f c => |positions.getD f 0 - c|,
    CentroidDist := fun a b => |a - b| }

/-- The six points on a line sieved with stride `2` (frames `1,3,5` ignored)
and clustered into `{0,2}` and `{4}`. -/
def sievedLine : ClusterList ℚ :=
  { clusters_ := [ClusterNode.new (lineDist [0, 1, 2, 10, 11, 12]) [0, 2] 0,
                  ClusterNode.new (lineDist [0, 1, 2, 10, 11, 12]) [4] 1],
    FrameDistances_ := ClusterList.sieveIgnore 2 6 (lineMatrix [0, 1, 2, 10, 11, 12]),
    ClusterDistances_ := ClusterMatrix.Setup 2,
    Cdist_ := lineDist [0, 1, 2, 10, 11, 12] }

/-- A provider that reports every frame at distance `DBL_MAX` from every
centroid. -/
def farDist : ClusterDist Unit :=
  { CalculateCentroid := fun _ => (), FrameCentroidDist := fun _ _ => DBL_MAX,
    CentroidDist := fun _ _ => 0 }

/-- Two frames, frame `1` ignored, frame `0` in the only cluster, under the
provider `farDist`. -/
def farList : ClusterList Unit :=
  { clusters_ := [ClusterNode.new farDist [0] 0],
    FrameDistances_ := (ClusterMatrix.Setup 2).Ignore 1,
    ClusterDistances_ := ClusterMatrix.Setup 1,
    Cdist_ := farDist }

/-- Three frames, frame `2` ignored, frames `0` and `1` in a cluster each,
under the provider `farDist`: both clusters are at distance `DBL_MAX` from
frame `2`, cluster `0` comes first. -/
def farListTwo : ClusterList Unit :=
  { clusters_ := [ClusterNode.new farDist [0] 0, ClusterNode.new farDist [1] 1],
    FrameDistances_ := (ClusterMatrix.Setup 3).Ignore 2,
    ClusterDistances_ := ClusterMatrix.Setup 2,
    Cdist_ := farDist }

/-- The member lists of the clusters of a state, if there is one. -/
def memberListsOf {Cent : Type} (r : Option (ClusterList Cent)) : Option (List (List Nat)) :=
  r.map fun st => st.clusters_.map fun c => c.frameList_

namespace ClusterMatrix

/-- The 3-item matrix with `d(0,1)=5`, `d(0,2)=1`, `d(1,2)=3`, nothing
ignored. -/
def matrix3 : ClusterMatrix :=
  (((Setup 3).SetElement 0 1 5).SetElement 0 2 1).SetElement 1 2 3

/-! ## Auxiliary notions used in the statements and proofs -/

/-- Scan order on index pairs: row first, then column. -/
def pairLt (p q : Nat × Nat) : Prop := p.1 < q.1 ∨ (p.1 = q.1 ∧ p.2 < q.2)

/-- A pair is a candidate of the scan when neither index is ignored. -/
def liveP (m : ClusterMatrix) (p : Nat × Nat) : Prop :=
  m.IgnoringRow p.1 = false ∧ m.IgnoringRow p.2 = false

/-- The result `r` is the first minimum of the candidates of `L`. -/
def IsFirstMin (m : ClusterMatrix) (L : List (Nat × Nat)) (r : Option (Nat × Nat × ℚ)) : Prop :=
  (r = none ∧ ∀ p ∈ L, ¬ m.liveP p) ∨
  ∃ A B i j, r = some (i, j, m.GetElement i j) ∧ L = A ++ (i, j) :: B ∧ m.liveP (i, j) ∧
    (∀ p ∈ A, m.liveP p → m.GetElement i j < m.GetElement p.1 p.2) ∧
    (∀ p ∈ B, m.liveP p → m.GetElement i j ≤ m.GetElement p.1 p.2)

end ClusterMatrix


/-! ## Density peaks (`Cluster_DPeaks.cpp`) -/

namespace ClusterMatrix

/-- Modelled from the spec: `Nframes()` is the number `N` of frames of the
frame matrix. -/
def Nframes (m : ClusterMatrix) : Nat := m.nrows_

/-- Modelled from the spec: `GetFdist(i,j)` reads the frame-level distance
between the frames `i` and `j`. -/
def GetFdist (m : ClusterMatrix) (i j : Nat) : ℚ := m.GetElement i j

end ClusterMatrix

/-- Modelled from the spec: the DPeaks point record `Cpoint` (declared in
`Cluster_DPeaks.h`, not among the sources): member index, local density
count, distance to the nearest higher-density point, index of that neighbour
and assigned cluster id, `-1` standing for "no neighbour" and for
"unassigned". -/
structure Cpoint where
  fnum_ : Nat
  density_ : Int
  dist_ : ℚ
  nidx_ : Int
  cnum_ : Int
deriving DecidableEq

namespace Cpoint

/-- Modelled from the spec: `Cpoint(frame)`, a point without neighbour and
without cluster id. -/
def new (frame : Nat) : Cpoint :=
  { fnum_ := frame, density_ := 0, dist_ := -1, nidx_ := -1, cnum_ := -1 }

/-- Accessor `Fnum()`. -/
def Fnum (p : Cpoint) : Nat := p.fnum_

/-- Accessor `Density()`. -/
def Density (p : Cpoint) : Int := p.density_

/-- Accessor `Dist()`. -/
def Dist (p : Cpoint) : ℚ := p.dist_

/-- Accessor `NearestIdx()`. -/
def NearestIdx (p : Cpoint) : Int := p.nidx_

/-- Accessor `Cnum()`. -/
def Cnum (p : Cpoint) : Int := p.cnum_

/-- Setter `SetDensity(d)`. -/
def SetDensity (p : Cpoint) (d : Int) : Cpoint := { p with density_ := d }

/-- Setter `SetDist(d)`. -/
def SetDist (p : Cpoint) (d : ℚ) : Cpoint := { p with dist_ := d }

/-- Setter `SetNearestIdx(n)`. -/
def SetNearestIdx (p : Cpoint) (n : Int) : Cpoint := { p with nidx_ := n }

/-- Setter `SetCluster(c)`. -/
def SetCluster (p : Cpoint) (c : Int) : Cpoint := { p with cnum_ := c }

end Cpoint

/-- Modelled from the spec: the mesh data set `DataSet_Mesh` (declared in
`DataSet_Mesh.h`, not among the sources) that holds the running average: a
sequence of `(x, y)` pairs. -/
structure DataSet_Mesh where
  mesh_ : List (ℚ × ℚ)

namespace DataSet_Mesh

/-- Modelled from the spec: `AddXY(x,y)` appends a pair. -/
def AddXY (m : DataSet_Mesh) (x y : ℚ) : DataSet_Mesh := { mesh_ := m.mesh_ ++ [(x, y)] }

/-- Modelled from the spec: `Size()` is the number of pairs. -/
def Size (m : DataSet_Mesh) : Nat := m.mesh_.length

/-- Modelled from the spec: `X(i)` reads the `x` of entry `i`; `none` is a read
outside the set. -/
def X (m : DataSet_Mesh) (i : Nat) : Option ℚ := (m.mesh_.get? i).map Prod.fst

/-- Modelled from the spec: `Y(i)` reads the `y` of entry `i`; `none` is a read
outside the set. -/
def Y (m : DataSet_Mesh) (i : Nat) : Option ℚ := (m.mesh_.get? i).map Prod.snd

/-- Modelled from the spec: the value returned by `Avg(sd)`, the mean of the
`y` values. -/
def Avg (m : DataSet_Mesh) : ℚ := (m.mesh_.map Prod.snd).sum / (m.mesh_.length : ℚ)

/-- Modelled from the spec: the square of the standard deviation that
`Avg(sd)` stores in `sd`: the mean of the squares of the `y` values minus the
square of their mean. -/
def Variance (m : DataSet_Mesh) : ℚ :=
  (m.mesh_.map fun xy => xy.2 * xy.2).sum / (m.mesh_.length : ℚ) - m.Avg * m.Avg

end DataSet_Mesh

namespace Cluster_DPeaks

/-- The first loop of `Cluster_DPeaks::Cluster`: one point for every
non-ignored frame, in frame order. -/
def initialPoints (fd : ClusterMatrix) : List Cpoint :=
  (List.range fd.Nframes).foldl (fun Points_ frame =>
    if !fd.IgnoringRow frame then Points_ ++ [Cpoint.new frame] else Points_) []

/-- The inner loop of the density phase for `point0` (position and point): the
number of other points at a frame distance below `epsilon`. -/
def countDensity (epsilon : ℚ) (fd : ClusterMatrix) (Points_ : List Cpoint)
    (point0 : Nat × Cpoint) : Int :=
  Points_.enum.foldl (fun density point1 =>
    if point0.fst ≠ point1.fst then
      if fd.GetFdist point0.snd.Fnum point1.snd.Fnum < epsilon then density + 1 else density
    else density) 0

/-- The density phase: every point gets its density. -/
def setDensities (epsilon : ℚ) (fd : ClusterMatrix) (Points_ : List Cpoint) : List Cpoint :=
  Points_.enum.map fun point0 => point0.snd.SetDensity (countDensity epsilon fd Points_ point0)

/-- Modelled from the spec: `std::sort(Points_.begin(), Points_.end())` under
the order of `Cpoint`: ascending by density, points of equal density keeping
their relative order. -/
def sortPoints (Points_ : List Cpoint) : List Cpoint :=
  List.insertionSort (fun a b : Cpoint => a.Density ≤ b.Density) Points_

/-- The inner loop of the neighbour phase for the point `point0` at index
`idx0`: the triple `(min_dist, max_dist, nearestIdx)` after the loop. -/
def nearestScan (fd : ClusterMatrix) (Points_ : List Cpoint) (idx0 : Nat) (point0 : Cpoint) :
    ℚ × ℚ × Int :=
  Points_.enum.foldl (fun acc point1 =>
    if idx0 ≠ point1.fst then
      if point1.snd.Density > point0.Density then
        if acc.1 < 0 then
          (fd.GetFdist point0.Fnum point1.snd.Fnum,
            max acc.2.1 (fd.GetFdist point0.Fnum point1.snd.Fnum), (point1.fst : Int))
        else if fd.GetFdist point0.Fnum point1.snd.Fnum < acc.1 then
          (fd.GetFdist point0.Fnum point1.snd.Fnum,
            max acc.2.1 (fd.GetFdist point0.Fnum point1.snd.Fnum), (point1.fst : Int))
        else (acc.1, max acc.2.1 (fd.GetFdist point0.Fnum point1.snd.Fnum), acc.2.2)
      else (acc.1, max acc.2.1 (fd.GetFdist point0.Fnum point1.snd.Fnum), acc.2.2)
    else acc) (-1, -1, -1)

/-- The neighbour phase: every point gets the distance to its nearest point of
higher density (the maximum distance seen when there is none) and the index of
that point (`-1` when there is none). -/
def setNearest (fd : ClusterMatrix) (Points_ : List Cpoint) : List Cpoint :=
  Points_.enum.map fun point0 =>
    (if (nearestScan fd Points_ point0.fst point0.snd).1 < 0 then
        point0.snd.SetDist (nearestScan fd Points_ point0.fst point0.snd).2.1
      else point0.snd.SetDist (nearestScan fd Points_ point0.fst point0.snd).1).SetNearestIdx
      (nearestScan fd Points_ point0.fst point0.snd).2.2

/-- The points after the density phase, the sort and the neighbour phase. -/
def neighbourPhase (epsilon : ℚ) (fd : ClusterMatrix) : List Cpoint :=
  setNearest fd (sortPoints (setDensities epsilon fd (initialPoints fd)))

/-- The window of the running average: `Points_.size() / avg_factor` with
`avg_factor = 10`. -/
def window_size (Points_ : List Cpoint) : Nat := Points_.length / 10

/-- The number of entries of the running average:
`Points_.size() - window_size + 1`. -/
def ra_size (Points_ : List Cpoint) : Nat := Points_.length - window_size Points_ + 1

/-- The loop `for (i = 0; i < window_size; i++)`: the sums `(sumx, sumy)` over
the first window. -/
def windowSums (Points_ : List Cpoint) : ℚ × ℚ :=
  (Points_.take (window_size Points_)).foldl
    (fun s p => (s.1 + (p.Density : ℚ), s.2 + p.Dist)) (0, 0)

/-- The running average of density and distance: the first entry from the
sums over the first window, then the loop `for (i = 1; i < ra_size; i++)`
that adds the entering point `nextwin` and subtracts the leaving point
`prevwin`. The state of the loop is `((sumx, sumy), runavg)`. -/
def runningAverage (Points_ : List Cpoint) : DataSet_Mesh :=
  ((List.range (ra_size Points_ - 1)).foldl
    (fun (acc : (ℚ × ℚ) × DataSet_Mesh) k =>
      ((((Points_.getD (k + 1 + window_size Points_ - 1) (Cpoint.new 0)).Density : ℚ)
          - ((Points_.getD (k + 1 - 1) (Cpoint.new 0)).Density : ℚ) + acc.1.1,
        (Points_.getD (k + 1 + window_size Points_ - 1) (Cpoint.new 0)).Dist
          - (Points_.getD (k + 1 - 1) (Cpoint.new 0)).Dist + acc.1.2),
       acc.2.AddXY
        ((((Points_.getD (k + 1 + window_size Points_ - 1) (Cpoint.new 0)).Density : ℚ)
          - ((Points_.getD (k + 1 - 1) (Cpoint.new 0)).Density : ℚ) + acc.1.1)
            / (window_size Points_ : ℚ))
        (((Points_.getD (k + 1 + window_size Points_ - 1) (Cpoint.new 0)).Dist
          - (Points_.getD (k + 1 - 1) (Cpoint.new 0)).Dist + acc.1.2)
            / (window_size Points_ : ℚ))))
    (windowSums Points_,
      (DataSet_Mesh.mk []).AddXY ((windowSums Points_).1 / (window_size Points_ : ℚ))
        ((windowSums Points_).2 / (window_size Points_ : ℚ)))).2

/-- The loop `while (ra_position != ra_end)` of the center selection for a
point of density `dens`, started at `ra_position` with `ra_end - ra_position`
positions left: the position moves on while the next running-average density
is strictly closer to `dens`. `none` is a read outside the running average. -/
def walk (runavg : DataSet_Mesh) (dens : ℚ) : Nat → Nat → Option Nat
  | 0, ra_position => some ra_position
  | left + 1, ra_position =>
    match runavg.X ra_position, runavg.X (ra_position + 1) with
    | some x0, some x1 =>
      if |dens - x1| < |dens - x0| then walk runavg dens left (ra_position + 1)
      else some ra_position
    | _, _ => none

/-- The test `delta > ra_sd` where `ra_sd` is twice the standard deviation of
the running-average distances, written without the square root: `delta` is
positive and its square exceeds four times the variance. -/
def exceedsTwiceSd (delta variance : ℚ) : Bool :=
  decide (0 < delta ∧ 4 * variance < delta * delta)

/-- One pass of the body of the center-selection loop. The state is
`(ra_position, cnum, points done)`; the point is flagged with the next
cluster id when its residual exceeds twice the standard deviation. -/
def selectStep (runavg : DataSet_Mesh) (ra_end : Nat) (acc : Nat × Int × List Cpoint)
    (point : Cpoint) : Option (Nat × Int × List Cpoint) :=
  match walk runavg (point.Density : ℚ) (ra_end - acc.1) acc.1 with
  | none => none
  | some ra_position =>
    match runavg.Y ra_position with
    | none => none
    | some y =>
      if exceedsTwiceSd (point.Dist - y) runavg.Variance then
        some (ra_position, acc.2.1 + 1, acc.2.2 ++ [point.SetCluster acc.2.1])
      else some (ra_position, acc.2.1, acc.2.2 ++ [point])

/-- The center-selection loop over all points, from `ra_position = 0` and
`cnum = 0`, with `ra_end = Points_.size() - 1`: the pair of `nclusters` and
the points. -/
def selectCenters (Points_ : List Cpoint) : Option (Int × List Cpoint) :=
  (Points_.foldlM (selectStep (runningAverage Points_) (Points_.length - 1))
    (0, 0, [])).map fun r => r.2

/-- The statement `Points_[idx].SetCluster(cnum)`. -/
def setClusterAt (Points_ : List Cpoint) (idx : Nat) (cnum : Int) : List Cpoint :=
  match Points_.get? idx with
  | some p => Points_.set idx (p.SetCluster cnum)
  | none => Points_

/-- `Cluster_DPeaks::AssignClusterNum(idx, cnum)` with `cnum` passed by
reference: the points and `cnum` after the call. The first argument bounds the
depth of the recursion; `none` when it is exhausted or an index is outside the
array. -/
def AssignClusterNum : Nat → List Cpoint → Nat → Int → Option (List Cpoint × Int)
  | 0, _, _, _ => none
  | fuel + 1, Points_, idx, cnum =>
    match Points_.get? idx with
    | none => none
    | some p =>
      if p.NearestIdx = -1 then some (Points_, cnum)
      else if p.NearestIdx < 0 then none
      else
        match Points_.get? p.NearestIdx.toNat with
        | none => none
        | some neighbor =>
          match (if neighbor.Cnum ≠ -1 then some (Points_, neighbor.Cnum)
                 else AssignClusterNum fuel Points_ p.NearestIdx.toNat cnum) with
          | none => none
          | some r =>
            if r.2 = -1 then some r
            else some (setClusterAt r.1 idx r.2, r.2)

/-- The propagation loop of `Cluster`: from `cnum = -1`, every point that is
unassigned when its turn comes is handed to `AssignClusterNum`, `cnum` being
carried from one call to the next. -/
def propagate (fuel : Nat) (Points_ : List Cpoint) : Option (List Cpoint × Int) :=
  (List.range Points_.length).foldlM (fun (acc : List Cpoint × Int) idx =>
    match acc.1.get? idx with
    | none => none
    | some p => if p.Cnum = -1 then AssignClusterNum fuel acc.1 idx acc.2 else some acc)
    (Points_, -1)

/-- The grouping `TempClusters[point->Cnum()].push_back(point->Fnum())` into
`nclusters` member lists; `none` when a cluster id is not an index of
`TempClusters`. -/
def TempClusters (nclusters : Int) (Points_ : List Cpoint) : Option (List (List Nat)) :=
  Points_.foldlM (fun (tc : List (List Nat)) point =>
    if 0 ≤ point.Cnum ∧ point.Cnum < nclusters then
      some (tc.set point.Cnum.toNat (tc.getD point.Cnum.toNat [] ++ [point.Fnum]))
    else none) (List.replicate nclusters.toNat [])

/-- `Cluster_DPeaks::Cluster` up to the end of the propagation loop: the
return code `1` with fewer than two points; otherwise the code `0`, the number
of selected centers `nclusters` and the points as the propagation loop leaves
them. `none` when a read falls outside the running average or the bound on
the recursion is exhausted. -/
def Cluster (fuel : Nat) (epsilon : ℚ) (fd : ClusterMatrix) :
    Option (Int × Int × List Cpoint) :=
  if (initialPoints fd).length < 2 then some (1, 0, initialPoints fd)
  else
    match selectCenters (neighbourPhase epsilon fd) with
    | none => none
    | some sel =>
      match propagate fuel sel.2 with
      | none => none
      | some r => some (0, sel.1, r.1)

end Cluster_DPeaks

/-- Ten frames, none ignored, every two of them at the distance `5`. -/
def tenEquidistant : ClusterMatrix :=
  { nrows_ := 10, elements_ := fun _ _ => 5, ignore_ := fun _ => false }

/-- Ten frames on a line at the positions `0,10,...,70,71,72`, none ignored:
with `epsilon = 3/2` frame `8` (position `71`) is the only frame with two
others within `epsilon`. -/
def tenOnLine : ClusterMatrix := lineMatrix [0, 10, 20, 30, 40, 50, 60, 70, 71, 72]

/-- The six points after the first merge under single linkage with
`epsilon = 2`. -/
def sixPointsMerged : ClusterList Unit :=
  (ClusterList.MergeClosest 2 .SINGLELINK sixPointsStart).2

/-- The cluster at position `i` of the six points after the first merge. -/
def sixPointsMergedAt (i : Nat) : ClusterNode Unit :=
  sixPointsMerged.clusters_.getD i (ClusterNode.new unitDist [] 0)

/-- The double nearest to `0.1`: `3602879701896397 / 2^55`. -/
def tenth : ℚ := 3602879701896397 / 36028797018963968

/-- The double nearest to `0.7`: `3152519739159347 / 2^52`. -/
def sevenTenths : ℚ := 3152519739159347 / 4503599627370496

/-- A frame matrix over `n` frames, any two different frames at the distance
`d`, nothing ignored. -/
def flatMatrix (n : Nat) (d : ℚ) : ClusterMatrix :=
  { nrows_ := n, elements_ := fun _ _ => d, ignore_ := fun _ => false }

/-- Four frames at the distance `0.1` (the double) from each other, except
frames `1` and `2` at the distance `0.4` (the double
`3602879701896397 / 2^53`), nothing ignored. -/
def unevenMatrix : ClusterMatrix :=
  { nrows_ := 4,
    elements_ := fun i j => if i = 1 ∧ j = 2 then 3602879701896397 / 9007199254740992 else tenth,
    ignore_ := fun _ => false }

/-- Four frames, any two of them at the distance `0.1` (the double), in a
fresh cluster list. -/
def fourTenths : ClusterList Unit := freshList (flatMatrix 4 tenth)

/-- The four frames at the start of the merge loop under average linkage. -/
def fourTenthsStart : ClusterList Unit :=
  ClusterList.InitializeClusterDistances .AVERAGELINK (ClusterList.buildInitial fourTenths)

/-- The four frames after the first merge under average linkage with
`epsilon = 0.1`: the clusters `{0,1}`, `{2}`, `{3}`. -/
def fourTenthsMerged : ClusterList Unit :=
  (ClusterList.MergeClosest tenth .AVERAGELINK fourTenthsStart).2

/-- The four frames after the second merge: the clusters `{0,1,2}`, `{3}`. -/
def fourTenthsMergedTwice : ClusterList Unit :=
  (ClusterList.MergeClosest tenth .AVERAGELINK fourTenthsMerged).2

/-- The cluster at position `i` of the four frames after the second merge. -/
def fourTenthsMergedTwiceAt (i : Nat) : ClusterNode Unit :=
  fourTenthsMergedTwice.clusters_.getD i (ClusterNode.new unitDist [] 0)

namespace Cluster_DPeaks

/-- In the words of the spec: the density of the frame `f` is the number of
other non-ignored frames whose frame-level distance to `f` is strictly less
than `epsilon`. -/
def specDensity (epsilon : ℚ) (fd : ClusterMatrix) (f : Nat) : Int :=
  (((ClusterList.nonIgnoredFrames fd).filter fun g =>
    decide (g ≠ f) && decide (fd.GetFdist f g < epsilon)).length : Int)

end Cluster_DPeaks

namespace Cluster_DPeaks

/-- In the words of the spec, for the point `point0` at index `idx0` and the
indexed points `L`: the triple `(min_dist, max_dist, nearestIdx)` holds the
minimum frame distance from `point0` to a point of strictly greater density
together with the lowest index of a point attaining it (`-1` and `-1` when no
point has greater density), and the maximum frame distance from `point0` to
any other point (`-1` when there is no other point). -/
def IsNearestResult (fd : ClusterMatrix) (idx0 : Nat) (point0 : Cpoint)
    (L : List (Nat × Cpoint)) (acc : ℚ × ℚ × Int) : Prop :=
  ((acc.1 = -1 ∧ acc.2.2 = -1 ∧
      ∀ x ∈ L, idx0 ≠ x.fst → ¬ point0.Density < x.snd.Density) ∨
    ∃ x ∈ L, idx0 ≠ x.fst ∧ point0.Density < x.snd.Density ∧
      acc.1 = fd.GetFdist point0.Fnum x.snd.Fnum ∧ acc.2.2 = (x.fst : Int) ∧
      ∀ y ∈ L, idx0 ≠ y.fst → point0.Density < y.snd.Density →
        fd.GetFdist point0.Fnum x.snd.Fnum ≤ fd.GetFdist point0.Fnum y.snd.Fnum ∧
        (fd.GetFdist point0.Fnum y.snd.Fnum = fd.GetFdist point0.Fnum x.snd.Fnum →
          x.fst ≤ y.fst)) ∧
  ((acc.2.1 = -1 ∧ ∀ x ∈ L, idx0 = x.fst) ∨
    ∃ x ∈ L, idx0 ≠ x.fst ∧ acc.2.1 = fd.GetFdist point0.Fnum x.snd.Fnum) ∧
  (∀ x ∈ L, idx0 ≠ x.fst → fd.GetFdist point0.Fnum x.snd.Fnum ≤ acc.2.1)

end Cluster_DPeaks

namespace Cluster_DPeaks

/-- The body of the inner loop of the neighbour phase (the function folded by
`nearestScan`): the triple `(min_dist, max_dist, nearestIdx)` after the pass
for `point1`. -/
def nearestStep (fd : ClusterMatrix) (idx0 : Nat) (point0 : Cpoint) (acc : ℚ × ℚ × Int)
    (point1 : Nat × Cpoint) : ℚ × ℚ × Int :=
  if idx0 ≠ point1.fst then
    if point1.snd.Density > point0.Density then
      if acc.1 < 0 then
        (fd.GetFdist point0.Fnum point1.snd.Fnum,
          max acc.2.1 (fd.GetFdist point0.Fnum point1.snd.Fnum), (point1.fst : Int))
      else if fd.GetFdist point0.Fnum point1.snd.Fnum < acc.1 then
        (fd.GetFdist point0.Fnum point1.snd.Fnum,
          max acc.2.1 (fd.GetFdist point0.Fnum point1.snd.Fnum), (point1.fst : Int))
      else (acc.1, max acc.2.1 (fd.GetFdist point0.Fnum point1.snd.Fnum), acc.2.2)
    else (acc.1, max acc.2.1 (fd.GetFdist point0.Fnum point1.snd.Fnum), acc.2.2)
  else acc

end Cluster_DPeaks

/-- The points of `tenOnLine` with `epsilon = 3/2` after the density phase and
the sort. -/
def tenOnLineSorted : List Cpoint :=
  Cluster_DPeaks.sortPoints
    (Cluster_DPeaks.setDensities (3 / 2) tenOnLine (Cluster_DPeaks.initialPoints tenOnLine))

namespace Cluster_DPeaks

/-- The body of the loop `for (i = 1; i < ra_size; i++)` of the running
average (the function folded by `runningAverage`), with `i = k + 1`. -/
def raStep (Points_ : List Cpoint) (acc : (ℚ × ℚ) × DataSet_Mesh) (k : Nat) :
    (ℚ × ℚ) × DataSet_Mesh :=
  ((((Points_.getD (k + 1 + window_size Points_ - 1) (Cpoint.new 0)).Density : ℚ)
      - ((Points_.getD (k + 1 - 1) (Cpoint.new 0)).Density : ℚ) + acc.1.1,
    (Points_.getD (k + 1 + window_size Points_ - 1) (Cpoint.new 0)).Dist
      - (Points_.getD (k + 1 - 1) (Cpoint.new 0)).Dist + acc.1.2),
   acc.2.AddXY
    ((((Points_.getD (k + 1 + window_size Points_ - 1) (Cpoint.new 0)).Density : ℚ)
      - ((Points_.getD (k + 1 - 1) (Cpoint.new 0)).Density : ℚ) + acc.1.1)
        / (window_size Points_ : ℚ))
    (((Points_.getD (k + 1 + window_size Points_ - 1) (Cpoint.new 0)).Dist
      - (Points_.getD (k + 1 - 1) (Cpoint.new 0)).Dist + acc.1.2)
        / (window_size Points_ : ℚ)))

/-- The sums of the densities and of the distances over the window of
`window_size` points that starts at index `i`. -/
def naiveWindowSums (Points_ : List Cpoint) (i : Nat) : ℚ × ℚ :=
  ((((Points_.drop i).take (window_size Points_)).map fun p => (p.Density : ℚ)).sum,
    (((Points_.drop i).take (window_size Points_)).map fun p => p.Dist).sum)

/-- In the words of the claim: the naive window mean at index `i`, the sum of
the densities of `Points[i..i+w-1]` over `w` and the sum of their distances
over `w`. -/
def naiveWindowMean (Points_ : List Cpoint) (i : Nat) : ℚ × ℚ :=
  ((naiveWindowSums Points_ i).1 / (window_size Points_ : ℚ),
    (naiveWindowSums Points_ i).2 / (window_size Points_ : ℚ))

end Cluster_DPeaks

/-- Twenty frames, none ignored: the frames `p < 10` and `q ≥ 10` are at the
distance `1` when `p + q ≥ 20`, every other two frames at the distance `5`.
With `epsilon = 2` the frames `p` and `10 + p` have density `p`. -/
def staircase : ClusterMatrix :=
  { nrows_ := 20, elements_ := fun i j => if i < 10 ∧ 10 ≤ j ∧ 20 ≤ i + j then 1 else 5,
    ignore_ := fun _ => false }

namespace Cluster_DPeaks

/-- The positions `ra_position` at which the center-selection loop computes
the residuals of the points, from the position `ra_position` on: the loop of
`selectCenters` without the flagging. `none` is a read outside the running
average. -/
def raPositionsFrom (runavg : DataSet_Mesh) (ra_end : Nat) : Nat → List Cpoint → Option (List Nat)
  | _, [] => some []
  | ra_position, point :: rest =>
    match walk runavg (point.Density : ℚ) (ra_end - ra_position) ra_position with
    | none => none
    | some pos => (raPositionsFrom runavg ra_end pos rest).map fun l => pos :: l

/-- The positions `ra_position` used for the points of the array, in array
order. -/
def raPositions (Points_ : List Cpoint) : Option (List Nat) :=
  raPositionsFrom (runningAverage Points_) (Points_.length - 1) 0 Points_

end Cluster_DPeaks

/-- Two frames at the distance `1`, none ignored. -/
def twoFrames : ClusterMatrix := lineMatrix [0, 1]

/-- Eleven frames on a line, none ignored: a single frame at `0` and two
groups of five frames, at `18,...,22` and at `38,...,42`. With
`epsilon = 5/2` the densities inside each group are `2,3,4,3,2`. -/
def twoGroups : ClusterMatrix := lineMatrix [0, 18, 19, 20, 21, 22, 38, 39, 40, 41, 42]

/-- The points of `twoGroups` with `epsilon = 5/2` as the center selection
leaves them (the empty array if the selection does not return). -/
def twoGroupsSelected : List Cpoint :=
  ((Cluster_DPeaks.selectCenters (Cluster_DPeaks.neighbourPhase (5 / 2) twoGroups)).map
    Prod.snd).getD []

namespace Cluster_DPeaks

/-- Following `NearestIdx` strictly increases density: every point of the
array has no neighbour (`-1`) or its `NearestIdx` is the index of a point of
the array with strictly greater density. -/
def ChainIncreases (Points_ : List Cpoint) : Prop :=
  ∀ (idx : Nat) (p : Cpoint), Points_[idx]? = some p →
    p.NearestIdx = -1 ∨
    ∃ (j : Nat) (q : Cpoint),
      p.NearestIdx = (j : Int) ∧ Points_[j]? = some q ∧ p.Density < q.Density

/-- The number of points of the array with a density strictly greater than
that of `p`: a bound on the length of the chain that starts at `p`. -/
def chainRank (Points_ : List Cpoint) (p : Cpoint) : Nat :=
  Points_.countP fun q => decide (p.Density < q.Density)

end Cluster_DPeaks

namespace Cluster_DPeaks

/-- What the propagation reads of a point besides its cluster id: density and
`NearestIdx`. -/
def chainKey (p : Cpoint) : Int × Int := (p.Density, p.NearestIdx)

/-- One step of the chain: `j` is the `NearestIdx` of the point at index
`i`. -/
def chainNext (Points_ : List Cpoint) (i j : Nat) : Prop :=
  ∃ p : Cpoint, Points_[i]? = some p ∧ p.NearestIdx = (j : Int)

end Cluster_DPeaks

namespace ClusterList

variable {γ : Type}

/-- In the words of the claim: the graph on the non-ignored frames that joins
two frames when their frame distance is at most `epsilon`. -/
def linked (epsilon : ℚ) (fd : ClusterMatrix) (f g : Nat) : Prop :=
  f ∈ nonIgnoredFrames fd ∧ g ∈ nonIgnoredFrames fd ∧ fd.GetElement f g ≤ epsilon

/-- Two frames are in the same connected component of the graph. -/
def connected (epsilon : ℚ) (fd : ClusterMatrix) (f g : Nat) : Prop :=
  Relation.ReflTransGen (linked epsilon fd) f g

/-- Every cluster of the state lies inside one connected component. -/
def ClustersConnected (epsilon : ℚ) (st : ClusterList γ) : Prop :=
  ∀ c ∈ st.clusters_, ∀ f ∈ c.frameList_, ∀ g ∈ c.frameList_,
    connected epsilon st.FrameDistances_ f g

/-- No two frames of different clusters of the state are joined in the
graph. -/
def ClustersSeparated (epsilon : ℚ) (st : ClusterList γ) : Prop :=
  ∀ a ∈ st.clusters_, ∀ b ∈ st.clusters_, a.Num ≠ b.Num →
    ∀ f ∈ a.frameList_, ∀ g ∈ b.frameList_, epsilon < st.FrameDistances_.GetElement f g

end ClusterList
/-! # Theorems -/

/-! ## The minimum scan -/

namespace ClusterMatrix

theorem mem_scanPairs (n a b : Nat) : (a, b) ∈ scanPairs n ↔ a < b ∧ b < n := by
  simp only [scanPairs, List.mem_flatMap, List.mem_map, List.mem_filter, List.mem_range,
    decide_eq_true_eq, Prod.mk.injEq]
  constructor
  · rintro ⟨i, _, j, ⟨hj, hij⟩, rfl, rfl⟩
    exact ⟨hij, hj⟩
  · rintro ⟨hab, hb⟩
    exact ⟨a, by omega, b, ⟨hb, hab⟩, rfl, rfl⟩

theorem scanPairs_pairwise (n : Nat) : (scanPairs n).Pairwise pairLt := by
  unfold scanPairs
  rw [List.pairwise_flatMap]
  constructor
  · intro i _
    rw [List.pairwise_map]
    refine List.Pairwise.imp ?_ ((List.pairwise_lt_range n).filter _)
    intro a b hab
    exact Or.inr ⟨rfl, hab⟩
  · refine List.Pairwise.imp ?_ (List.pairwise_lt_range n)
    intro a b hab x hx y hy
    simp only [List.mem_map, List.mem_filter] at hx hy
    obtain ⟨_, _, rfl⟩ := hx
    obtain ⟨_, _, rfl⟩ := hy
    exact Or.inl hab

theorem findMinStep_dead (m : ClusterMatrix) (best : Option (Nat × Nat × ℚ)) (p : Nat × Nat)
    (h : ¬ m.liveP p) : findMinStep m best p = best := by
  unfold findMinStep
  have : (m.IgnoringRow p.1 || m.IgnoringRow p.2) = true := by
    unfold liveP at h
    cases h1 : m.IgnoringRow p.1 <;> cases h2 : m.IgnoringRow p.2 <;> simp_all
  simp [this]

theorem findMinStep_live (m : ClusterMatrix) (best : Option (Nat × Nat × ℚ)) (p : Nat × Nat)
    (h : m.liveP p) : findMinStep m best p =
      match best with
      | none => some (p.1, p.2, m.GetElement p.1 p.2)
      | some (bi, bj, bv) =>
        if m.GetElement p.1 p.2 < bv then some (p.1, p.2, m.GetElement p.1 p.2)
        else some (bi, bj, bv) := by
  unfold findMinStep
  obtain ⟨h1, h2⟩ := h
  simp [h1, h2]

theorem isFirstMin_foldl (m : ClusterMatrix) (L : List (Nat × Nat)) :
    IsFirstMin m L (L.foldl (findMinStep m) none) := by
  induction L using List.reverseRecOn with
  | nil => exact Or.inl ⟨rfl, by simp⟩
  | append_singleton L p ih =>
    rw [List.foldl_append, List.foldl_cons, List.foldl_nil]
    by_cases hp : m.liveP p
    · rw [findMinStep_live m _ p hp]
      rcases ih with ⟨hnone, hdead⟩ | ⟨A, B, i, j, hr, hL, hij, hA, hB⟩
      · rw [hnone]
        refine Or.inr ⟨L, [], p.1, p.2, rfl, rfl, hp, ?_, by simp⟩
        intro q hq hlive
        exact absurd hlive (hdead q hq)
      · rw [hr]
        by_cases hlt : m.GetElement p.1 p.2 < m.GetElement i j
        · simp only [hlt, if_true]
          refine Or.inr ⟨L, [], p.1, p.2, rfl, rfl, hp, ?_, by simp⟩
          intro q hq hlive
          rw [hL] at hq
          rcases List.mem_append.1 hq with hq | hq
          · exact lt_trans hlt (hA q hq hlive)
          · rcases List.mem_cons.1 hq with rfl | hq
            · exact hlt
            · exact lt_of_lt_of_le hlt (hB q hq hlive)
        · simp only [hlt, if_false]
          refine Or.inr ⟨A, B ++ [p], i, j, rfl, by simp [hL], hij, hA, ?_⟩
          intro q hq hlive
          rcases List.mem_append.1 hq with hq | hq
          · exact hB q hq hlive
          · rw [List.mem_singleton.1 hq]
            exact not_lt.1 hlt
    · rw [findMinStep_dead m _ p hp]
      rcases ih with ⟨hnone, hdead⟩ | ⟨A, B, i, j, hr, hL, hij, hA, hB⟩
      · refine Or.inl ⟨hnone, ?_⟩
        intro q hq
        rcases List.mem_append.1 hq with hq | hq
        · exact hdead q hq
        · rw [List.mem_singleton.1 hq]
          exact hp
      · refine Or.inr ⟨A, B ++ [p], i, j, hr, by simp [hL], hij, hA, ?_⟩
        intro q hq hlive
        rcases List.mem_append.1 hq with hq | hq
        · exact hB q hq hlive
        · rw [List.mem_singleton.1 hq] at hlive
          exact absurd hlive hp

/-- What a successful `FindMin` returns: a live pair `i < j` in range with its
stored value, minimal over the live pairs and first in scan order among the
pairs attaining the minimum. -/
theorem FindMin_some (m : ClusterMatrix) (i j : Nat) (v : ℚ)
    (h : m.FindMin = some (i, j, v)) :
    v = m.GetElement i j ∧ i < j ∧ j < m.Nrows ∧
    m.IgnoringRow i = false ∧ m.IgnoringRow j = false ∧
    ∀ a b, a < b → b < m.Nrows → m.IgnoringRow a = false → m.IgnoringRow b = false →
      m.GetElement i j ≤ m.GetElement a b ∧
      (m.GetElement a b = m.GetElement i j → i < a ∨ (i = a ∧ j ≤ b)) := by
  have hfm := isFirstMin_foldl m (scanPairs m.nrows_)
  unfold FindMin at h
  rw [h] at hfm
  rcases hfm with ⟨hnone, _⟩ | ⟨A, B, i', j', hr, hL, hij, hA, hB⟩
  · exact absurd hnone (by simp)
  · simp only [Option.some.injEq, Prod.mk.injEq] at hr
    obtain ⟨rfl, rfl, rfl⟩ := hr
    have hmem : (i, j) ∈ scanPairs m.nrows_ := by rw [hL]; simp
    have hrange := (mem_scanPairs _ _ _).1 hmem
    have hpw := scanPairs_pairwise m.nrows_
    rw [hL, List.pairwise_append] at hpw
    obtain ⟨_, hpwB, _⟩ := hpw
    have hafter := (List.pairwise_cons.1 hpwB).1
    refine ⟨rfl, hrange.1, hrange.2, hij.1, hij.2, ?_⟩
    intro a b hab hb ha' hb'
    have hmem' : (a, b) ∈ scanPairs m.nrows_ := (mem_scanPairs _ _ _).2 ⟨hab, hb⟩
    rw [hL] at hmem'
    rcases List.mem_append.1 hmem' with hq | hq
    · have := hA (a, b) hq ⟨ha', hb'⟩
      exact ⟨le_of_lt this, fun heq => absurd heq (ne_of_gt this)⟩
    · rcases List.mem_cons.1 hq with heq | hq
      · simp only [Prod.mk.injEq] at heq
        obtain ⟨rfl, rfl⟩ := heq
        exact ⟨le_refl _, fun _ => Or.inr ⟨rfl, le_refl _⟩⟩
      · refine ⟨hB (a, b) hq ⟨ha', hb'⟩, fun _ => ?_⟩
        rcases hafter (a, b) hq with h1 | ⟨h1, h2⟩
        · exact Or.inl h1
        · exact Or.inr ⟨h1, le_of_lt h2⟩

/-- With two non-ignored rows `FindMin` succeeds. -/
theorem FindMin_isSome (m : ClusterMatrix) (a b : Nat) (hab : a < b) (hb : b < m.Nrows)
    (ha' : m.IgnoringRow a = false) (hb' : m.IgnoringRow b = false) :
    ∃ i j, m.FindMin = some (i, j, m.GetElement i j) := by
  have hfm := isFirstMin_foldl m (scanPairs m.nrows_)
  rcases hfm with ⟨_, hdead⟩ | ⟨A, B, i, j, hr, _⟩
  · exact absurd ⟨ha', hb'⟩ (hdead (a, b) ((mem_scanPairs _ _ _).2 ⟨hab, hb⟩))
  · exact ⟨i, j, hr⟩

/-- Without two non-ignored rows `FindMin` reports failure. -/
theorem FindMin_none (m : ClusterMatrix)
    (h : ∀ a b, a < b → b < m.Nrows → ¬ (m.IgnoringRow a = false ∧ m.IgnoringRow b = false)) :
    m.FindMin = none := by
  have hfm := isFirstMin_foldl m (scanPairs m.nrows_)
  rcases hfm with ⟨hnone, _⟩ | ⟨A, B, i, j, _, hL, hij, _⟩
  · exact hnone
  · have hmem : (i, j) ∈ scanPairs m.nrows_ := by rw [hL]; simp
    have hrange := (mem_scanPairs _ _ _).1 hmem
    exact absurd hij (h i j hrange.1 hrange.2)

end ClusterMatrix

/-- C4. On every matrix with two non-ignored rows `a < b`, `FindMin` returns a
pair `(i,j)` with `i < j`, both non-ignored, together with its stored
distance; that distance is the minimum over all pairs of non-ignored rows, and
among the pairs tying for the minimum `(i,j)` is the lexicographically lowest.
On the 3-item matrix `d(0,1)=5`, `d(0,2)=1`, `d(1,2)=3` it returns `(0,2)` with
value `1`. -/
theorem C4_FindMin_minimum_lowest_pair (m : ClusterMatrix) (a b : Nat)
    (hab : a < b) (hb : b < m.Nrows)
    (ha : m.IgnoringRow a = false) (hb' : m.IgnoringRow b = false) :
    (∃ i j, m.FindMin = some (i, j, m.GetElement i j) ∧ i < j ∧ j < m.Nrows ∧
      m.IgnoringRow i = false ∧ m.IgnoringRow j = false ∧
      ∀ a' b', a' < b' → b' < m.Nrows →
        m.IgnoringRow a' = false → m.IgnoringRow b' = false →
        m.GetElement i j ≤ m.GetElement a' b' ∧
        (m.GetElement a' b' = m.GetElement i j → i < a' ∨ (i = a' ∧ j ≤ b'))) ∧
    ClusterMatrix.matrix3.FindMin = some (0, 2, 1) := by
  obtain ⟨i, j, hfind⟩ := ClusterMatrix.FindMin_isSome m a b hab hb ha hb'
  obtain ⟨_, h1, h2, h3, h4, h5⟩ := ClusterMatrix.FindMin_some m i j _ hfind
  exact ⟨⟨i, j, hfind, h1, h2, h3, h4, h5⟩, by decide!⟩

/-- C4 at the 3-item matrix, rows `0` and `1`. -/
theorem C4_FindMin_witness :
    (∃ i j, ClusterMatrix.matrix3.FindMin = some (i, j, ClusterMatrix.matrix3.GetElement i j) ∧
      i < j ∧ j < ClusterMatrix.matrix3.Nrows ∧
      ClusterMatrix.matrix3.IgnoringRow i = false ∧ ClusterMatrix.matrix3.IgnoringRow j = false ∧
      ∀ a' b', a' < b' → b' < ClusterMatrix.matrix3.Nrows →
        ClusterMatrix.matrix3.IgnoringRow a' = false → ClusterMatrix.matrix3.IgnoringRow b' = false →
        ClusterMatrix.matrix3.GetElement i j ≤ ClusterMatrix.matrix3.GetElement a' b' ∧
        (ClusterMatrix.matrix3.GetElement a' b' = ClusterMatrix.matrix3.GetElement i j →
          i < a' ∨ (i = a' ∧ j ≤ b'))) ∧
    ClusterMatrix.matrix3.FindMin = some (0, 2, 1) :=
  C4_FindMin_minimum_lowest_pair ClusterMatrix.matrix3 0 1 (by decide) (by decide)
    (by decide) (by decide)

/-! ## Rounding to double -/

theorem pow2_eq_zpow (e : Int) : pow2 e = (2 : ℚ) ^ e := by
  unfold pow2
  split_ifs with h
  · obtain ⟨n, rfl⟩ := Int.eq_ofNat_of_zero_le h
    simp
  · obtain ⟨n, hn⟩ := Int.exists_eq_neg_ofNat (le_of_lt (not_le.1 h))
    subst hn
    simp

theorem pow2_pos (e : Int) : 0 < pow2 e := by
  rw [pow2_eq_zpow]
  positivity

theorem pow2_add (a b : Int) : pow2 (a + b) = pow2 a * pow2 b := by
  rw [pow2_eq_zpow, pow2_eq_zpow, pow2_eq_zpow, zpow_add₀ (by norm_num)]

theorem pow2_le_pow2 {a b : Int} (h : a ≤ b) : pow2 a ≤ pow2 b := by
  rw [pow2_eq_zpow, pow2_eq_zpow]
  exact zpow_le_zpow_right₀ (by norm_num) h

theorem pow2_natCast (n : Nat) : pow2 (n : Int) = (2 : ℚ) ^ n := by
  rw [pow2_eq_zpow, zpow_natCast]

/-- The halving count is the position of the leading bit. -/
theorem ilog2_spec : ∀ (fuel n : Nat), n ≤ fuel → 1 ≤ n →
    2 ^ ilog2 fuel n ≤ n ∧ n < 2 ^ (ilog2 fuel n + 1)
  | 0, n, h, h1 => by omega
  | fuel + 1, n, h, h1 => by
    unfold ilog2
    split_ifs with h2
    · obtain ⟨ih1, ih2⟩ := ilog2_spec fuel (n / 2) (by omega) (by omega)
      simp only [pow_succ] at ih2 ⊢
      generalize 2 ^ ilog2 fuel (n / 2) = k at ih1 ih2 ⊢
      omega
    · simp
      omega

/-- The binary exponent brackets the magnitude. -/
theorem binade_spec (x : ℚ) (hx : x ≠ 0) :
    pow2 (binade x) ≤ |x| ∧ |x| < pow2 (binade x + 1) := by
  have hn : 1 ≤ x.num.natAbs := by
    have : x.num ≠ 0 := Rat.num_ne_zero.2 hx
    omega
  have hd : 1 ≤ x.den := x.den_pos
  obtain ⟨a1, a2⟩ := ilog2_spec x.num.natAbs x.num.natAbs (le_refl _) hn
  obtain ⟨c1, c2⟩ := ilog2_spec x.den x.den (le_refl _) hd
  have habs : |x| = (x.num.natAbs : ℚ) / (x.den : ℚ) := by
    rw [Rat.abs_def, Rat.divInt_eq_div]
    simp [Nat.cast_natAbs]
  have a1q : (2 : ℚ) ^ ilog2 x.num.natAbs x.num.natAbs ≤ (x.num.natAbs : ℚ) := by
    exact_mod_cast a1
  have a2q : (x.num.natAbs : ℚ) < (2 : ℚ) ^ (ilog2 x.num.natAbs x.num.natAbs + 1) := by
    exact_mod_cast a2
  have c1q : (2 : ℚ) ^ ilog2 x.den x.den ≤ (x.den : ℚ) := by
    exact_mod_cast c1
  have c2q : (x.den : ℚ) < (2 : ℚ) ^ (ilog2 x.den x.den + 1) := by
    exact_mod_cast c2
  have hdq : (0 : ℚ) < (x.den : ℚ) := by exact_mod_cast hd
  have hlow : pow2 ((ilog2 x.num.natAbs x.num.natAbs : Int) - (ilog2 x.den x.den : Int) - 1)
      ≤ |x| := by
    rw [habs, pow2_eq_zpow, le_div_iff₀ hdq]
    have e : (ilog2 x.num.natAbs x.num.natAbs : Int) - (ilog2 x.den x.den : Int) - 1 =
        (ilog2 x.num.natAbs x.num.natAbs : Int) - ((ilog2 x.den x.den + 1 : Nat) : Int) := by
      push_cast; ring
    rw [e, zpow_sub₀ (by norm_num), zpow_natCast, zpow_natCast, div_mul_eq_mul_div,
      div_le_iff₀ (by positivity)]
    have : (0 : ℚ) ≤ (2 : ℚ) ^ ilog2 x.num.natAbs x.num.natAbs := by positivity
    nlinarith
  have hupp : |x| < pow2 ((ilog2 x.num.natAbs x.num.natAbs : Int) -
      (ilog2 x.den x.den : Int) + 1) := by
    rw [habs, pow2_eq_zpow, div_lt_iff₀ hdq]
    have e : (ilog2 x.num.natAbs x.num.natAbs : Int) - (ilog2 x.den x.den : Int) + 1 =
        ((ilog2 x.num.natAbs x.num.natAbs + 1 : Nat) : Int) - (ilog2 x.den x.den : Int) := by
      push_cast; ring
    rw [e, zpow_sub₀ (by norm_num), zpow_natCast, zpow_natCast, div_mul_eq_mul_div,
      lt_div_iff₀ (by positivity)]
    have : (0 : ℚ) < (2 : ℚ) ^ (ilog2 x.num.natAbs x.num.natAbs + 1) := by positivity
    nlinarith
  unfold binade
  split_ifs with h
  · exact ⟨h, hupp⟩
  · refine ⟨hlow, ?_⟩
    rw [sub_add_cancel]
    exact not_le.1 h

theorem roundHalfEven_err (q : ℚ) : |((roundHalfEven q : Int) : ℚ) - q| ≤ 1 / 2 := by
  have h1 := Int.floor_le q
  have h2 := Int.lt_floor_add_one q
  unfold roundHalfEven
  rw [abs_le]
  split_ifs with c1 c2 c3
  · constructor <;> linarith
  · push_cast
    constructor <;> linarith
  · constructor <;> linarith
  · push_cast
    constructor <;> linarith

theorem roundHalfEven_intCast (z : Int) : roundHalfEven (z : ℚ) = z := by
  unfold roundHalfEven
  rw [Int.floor_intCast, sub_self, if_pos (by norm_num)]

theorem roundHalfEven_nonneg (q : ℚ) (h : 0 ≤ q) : 0 ≤ roundHalfEven q := by
  have h1 : 0 ≤ ⌊q⌋ := Int.floor_nonneg.2 h
  unfold roundHalfEven
  split_ifs <;> omega

theorem ulp_pos (x : ℚ) : 0 < ulp x := pow2_pos _

/-- Rounding moves a value by at most half the spacing. -/
theorem roundDouble_err_ulp (x : ℚ) : |roundDouble x - x| ≤ ulp x / 2 := by
  have hu := ulp_pos x
  unfold roundDouble
  split_ifs with h
  · rw [h]
    simp
    exact le_of_lt (half_pos (ulp_pos 0))
  · have e : ((roundHalfEven (x / ulp x) : Int) : ℚ) * ulp x - x =
        (((roundHalfEven (x / ulp x) : Int) : ℚ) - x / ulp x) * ulp x := by
      field_simp
    rw [e, abs_mul, abs_of_pos hu]
    have := roundHalfEven_err (x / ulp x)
    nlinarith

/-- Half the spacing around `x` is at most `2^-53 |x|`, or `2^-1075` in the
subnormal range. -/
theorem half_ulp_le (x : ℚ) (hx : x ≠ 0) :
    ulp x / 2 ≤ |x| * pow2 (-53) + pow2 (-1075) := by
  obtain ⟨hb, _⟩ := binade_spec x hx
  have hp1 := pow2_pos (-53)
  have hp2 := pow2_pos (-1075)
  have hax := abs_nonneg x
  unfold ulp
  rcases le_total (binade x) (-1022) with h | h
  · rw [max_eq_right h]
    have e : pow2 (-1022 - 52) = pow2 (-1075) * 2 := by
      have : (-1022 - 52 : Int) = -1075 + 1 := by norm_num
      rw [this, pow2_add]
      congr 1
    rw [e]
    nlinarith
  · rw [max_eq_left h]
    have e : pow2 (binade x - 52) = pow2 (binade x) * pow2 (-53) * 2 := by
      have : binade x - 52 = binade x + (-53) + 1 := by ring
      rw [this, pow2_add, pow2_add]
      congr 1
    rw [e]
    nlinarith

/-- The rounding error of one operation: relative `2^-53`, absolute `2^-1075`. -/
theorem roundDouble_err (x : ℚ) : |roundDouble x - x| ≤ |x| * pow2 (-53) + pow2 (-1075) := by
  by_cases hx : x = 0
  · rw [hx]
    have : roundDouble 0 = 0 := by unfold roundDouble; simp
    rw [this]
    simp
    exact le_of_lt (pow2_pos _)
  · exact le_trans (roundDouble_err_ulp x) (half_ulp_le x hx)

theorem roundDouble_nonneg (x : ℚ) (h : 0 ≤ x) : 0 ≤ roundDouble x := by
  unfold roundDouble
  split_ifs
  · exact le_refl _
  · have hq : 0 ≤ x / ulp x := div_nonneg h (le_of_lt (ulp_pos x))
    have := roundHalfEven_nonneg _ hq
    have h2 : (0 : ℚ) ≤ ((roundHalfEven (x / ulp x) : Int) : ℚ) := by exact_mod_cast this
    exact mul_nonneg h2 (le_of_lt (ulp_pos x))

/-- A value that is a whole number of spacings is a double: rounding keeps it. -/
theorem roundDouble_exact (x : ℚ) (z : Int) (h : x / ulp x = (z : ℚ)) : roundDouble x = x := by
  unfold roundDouble
  split_ifs with h0
  · exact h0.symm
  · rw [h, roundHalfEven_intCast, ← h]
    field_simp [(ulp_pos x).ne.symm]

/-- The whole numbers up to `2^53` are doubles. -/
theorem roundDouble_natCast (m : Nat) (h : m ≤ 2 ^ 53) : roundDouble (m : ℚ) = m := by
  rcases Nat.eq_zero_or_pos m with h0 | h0
  · subst h0
    unfold roundDouble
    simp
  have hx : (m : ℚ) ≠ 0 := by exact_mod_cast (Nat.pos_iff_ne_zero.1 h0)
  obtain ⟨b1, b2⟩ := binade_spec (m : ℚ) hx
  have habs : |(m : ℚ)| = m := abs_of_nonneg (by positivity)
  rw [habs] at b1 b2
  have hm : (m : ℚ) ≤ 2 ^ 53 := by exact_mod_cast h
  have hm1 : (1 : ℚ) ≤ m := by exact_mod_cast h0
  -- the exponent is between 0 and 53
  have hb0 : 0 ≤ binade (m : ℚ) := by
    by_contra hneg
    have : binade (m : ℚ) + 1 ≤ 0 := by omega
    have := pow2_le_pow2 this
    have e0 : pow2 0 = 1 := by unfold pow2; simp
    rw [e0] at this
    linarith
  have hb53 : binade (m : ℚ) ≤ 53 := by
    by_contra hbig
    have : (54 : Int) ≤ binade (m : ℚ) := by omega
    have := pow2_le_pow2 this
    have e54 : pow2 54 = 2 ^ 54 := pow2_natCast 54
    rw [e54] at this
    have : (2 : ℚ) ^ 54 ≤ 2 ^ 53 := by linarith
    norm_num at this
  obtain ⟨k, hk⟩ := Int.eq_ofNat_of_zero_le hb0
  have hk53 : k ≤ 53 := by omega
  have hulp : ulp (m : ℚ) = pow2 ((k : Int) - 52) := by
    unfold ulp
    rw [hk, max_eq_left (by omega)]
  rcases Nat.lt_or_ge k 53 with hlt | hge
  · -- spacing at most 1
    apply roundDouble_exact (m : ℚ) ((m * 2 ^ (52 - k) : Nat) : Int)
    rw [hulp, pow2_eq_zpow]
    have e : (k : Int) - 52 = -((52 - k : Nat) : Int) := by omega
    rw [e, zpow_neg, zpow_natCast]
    push_cast
    field_simp
  · have hk' : k = 53 := by omega
    subst hk'
    rw [hk] at b1
    have e53 : pow2 ((53 : Nat) : Int) = 2 ^ 53 := pow2_natCast 53
    rw [e53] at b1
    have hm' : (m : ℚ) = 2 ^ 53 := le_antisymm hm b1
    apply roundDouble_exact (m : ℚ) ((2 ^ 52 : Nat) : Int)
    rw [hulp, hm', pow2_eq_zpow]
    norm_num

theorem DBL_MAX_lt_INF : DBL_MAX < DBL_INF := by decide!

theorem DBL_INF_pos : 0 < DBL_INF := by decide!

theorem DBL_MAX_pos : 0 < DBL_MAX := by decide!

/-- A finite result of an operation is the rounded exact result. -/
theorem toDouble_finite (x : ℚ) (hx : 0 ≤ x) (h : toDouble x ≠ DBL_INF) :
    toDouble x = roundDouble x ∧ roundDouble x ≤ DBL_MAX := by
  have hr := roundDouble_nonneg x hx
  have hM := DBL_MAX_pos
  unfold toDouble at h ⊢
  split_ifs at h ⊢ with c1 c2
  · exact absurd rfl h
  · linarith
  · exact ⟨rfl, not_lt.1 c1⟩

theorem toDouble_nonneg (x : ℚ) (hx : 0 ≤ x) : 0 ≤ toDouble x := by
  have hr := roundDouble_nonneg x hx
  have hM := DBL_MAX_pos
  unfold toDouble
  split_ifs with c1 c2
  · exact le_of_lt DBL_INF_pos
  · linarith
  · exact hr

/-- A finite sum of non-negative doubles: the first operand was finite and the
sum is the rounded exact sum. -/
theorem dadd_finite (a b : ℚ) (ha : 0 ≤ a) (hb : 0 ≤ b) (hb' : b ≤ DBL_MAX)
    (h : dadd a b ≠ DBL_INF) :
    a ≠ DBL_INF ∧ dadd a b = roundDouble (a + b) := by
  have hI := DBL_INF_pos
  have hMI := DBL_MAX_lt_INF
  have hbI : ¬ (b = DBL_INF ∨ b = -DBL_INF) := by
    rintro (e | e) <;> linarith
  have haN : a ≠ -DBL_INF := by intro e; linarith
  by_cases haI : a = DBL_INF
  · exfalso
    apply h
    unfold dadd
    rw [if_pos (Or.inl haI), if_neg (by intro e; linarith)]
    exact haI
  · refine ⟨haI, ?_⟩
    have e : dadd a b = toDouble (a + b) := by
      unfold dadd
      rw [if_neg (by rintro (e | e); exact haI e; exact haN e), if_neg hbI]
    rw [e] at h ⊢
    exact (toDouble_finite (a + b) (add_nonneg ha hb) h).1

theorem dadd_nonneg (a b : ℚ) (ha : 0 ≤ a) (hb : 0 ≤ b) : 0 ≤ dadd a b := by
  have hI := DBL_INF_pos
  unfold dadd
  split_ifs with c1 c2 c3
  · exact le_refl _
  · exact ha
  · exact hb
  · exact toDouble_nonneg _ (add_nonneg ha hb)

/-- A finite quotient by a positive finite double: the dividend was finite and
the quotient is the rounded exact quotient. -/
theorem ddiv_finite (a b : ℚ) (ha : 0 ≤ a) (hb : 0 < b) (hb' : b ≤ DBL_MAX)
    (h : ddiv a b ≠ DBL_INF) :
    a ≠ DBL_INF ∧ ddiv a b = roundDouble (a / b) := by
  have hI := DBL_INF_pos
  have hMI := DBL_MAX_lt_INF
  have hbI : ¬ (b = DBL_INF ∨ b = -DBL_INF) := by
    rintro (e | e) <;> linarith
  have haN : a ≠ -DBL_INF := by intro e; linarith
  by_cases haI : a = DBL_INF
  · exfalso
    apply h
    unfold ddiv
    rw [if_neg hb.ne.symm, if_pos (Or.inl haI), if_neg hbI, if_pos hb]
    exact haI
  · refine ⟨haI, ?_⟩
    have e : ddiv a b = toDouble (a / b) := by
      unfold ddiv
      rw [if_neg hb.ne.symm, if_neg (by rintro (e | e); exact haI e; exact haN e), if_neg hbI]
    rw [e] at h ⊢
    exact (toDouble_finite (a / b) (div_nonneg ha hb.le) h).1

/-- Counting in a double is exact up to `2^53`. -/
theorem dadd_count (k : Nat) (h : k + 1 ≤ 2 ^ 53) : dadd (k : ℚ) 1 = ((k + 1 : Nat) : ℚ) := by
  have hI := DBL_INF_pos
  have hMI := DBL_MAX_lt_INF
  have hle : ((k + 1 : Nat) : ℚ) ≤ 2 ^ 53 := by exact_mod_cast h
  have hk : (k : ℚ) < 2 ^ 53 := by
    push_cast at hle
    linarith
  have hk0 : (0 : ℚ) ≤ k := Nat.cast_nonneg k
  have h53 : (2 : ℚ) ^ 53 < DBL_MAX := by norm_num [DBL_MAX]
  have h1 : ¬ ((k : ℚ) = DBL_INF ∨ (k : ℚ) = -DBL_INF) := by
    rintro (e | e) <;> linarith
  have h2 : ¬ ((1 : ℚ) = DBL_INF ∨ (1 : ℚ) = -DBL_INF) := by
    rintro (e | e) <;> linarith
  have hr : roundDouble ((k : ℚ) + 1) = ((k + 1 : Nat) : ℚ) := by
    have := roundDouble_natCast (k + 1) h
    push_cast at this ⊢
    exact this
  unfold dadd
  rw [if_neg h1, if_neg h2]
  unfold toDouble
  rw [hr, if_neg (by linarith), if_neg (by
    have : (0 : ℚ) ≤ ((k + 1 : Nat) : ℚ) := by positivity
    linarith)]

/-- The counter of `calcAvgDist` never returns to zero. -/
theorem dadd_one_pos (n : ℚ) (hn : 0 ≤ n) : 0 < dadd n 1 := by
  have hI := DBL_INF_pos
  have hMI := DBL_MAX_lt_INF
  have hM := DBL_MAX_pos
  have h2 : ¬ ((1 : ℚ) = DBL_INF ∨ (1 : ℚ) = -DBL_INF) := by
    have : (1 : ℚ) < DBL_INF := by decide!
    rintro (e | e) <;> linarith
  have hr : 0 < roundDouble (n + 1) := by
    have he := roundDouble_err (n + 1)
    rw [abs_of_nonneg (by linarith : (0 : ℚ) ≤ n + 1)] at he
    have hu : pow2 (-53) ≤ 1 / 4 := by decide!
    have he2 : pow2 (-1075) ≤ 1 / 4 := by decide!
    have hp := pow2_pos (-53)
    have := (abs_le.1 he).1
    nlinarith
  unfold dadd
  split_ifs with c1 c2
  · rcases c1 with e | e <;> linarith
  · rcases c1 with e | e <;> linarith
  · unfold toDouble
    split_ifs <;> linarith

/-! ## Linkage distances -/

namespace ClusterList

/-- The frame distances met by the double loop over `c1` and `c2`, in loop
order. -/
theorem nested_foldl_eq {β : Type} (f : β → ℚ → β) (g : Nat → Nat → ℚ) (c1 c2 : List Nat)
    (init : β) :
    c1.foldl (fun acc f1 => c2.foldl (fun acc f2 => f acc (g f1 f2)) acc) init =
      (c1.flatMap fun f1 => c2.map fun f2 => g f1 f2).foldl f init := by
  induction c1 generalizing init with
  | nil => rfl
  | cons a c1 ih =>
    rw [List.foldl_cons, ih, List.flatMap_cons, List.foldl_append, List.foldl_map]

theorem minFold_le (ds : List ℚ) (init : ℚ) :
    ds.foldl (fun m d => if d < m then d else m) init ≤ init ∧
    ∀ d ∈ ds, ds.foldl (fun m d => if d < m then d else m) init ≤ d := by
  induction ds generalizing init with
  | nil => simp
  | cons a ds ih =>
    rw [List.foldl_cons]
    obtain ⟨h1, h2⟩ := ih (if a < init then a else init)
    have hstep : (if a < init then a else init) ≤ init ∧ (if a < init then a else init) ≤ a := by
      split_ifs with h
      · exact ⟨le_of_lt h, le_refl _⟩
      · exact ⟨le_refl _, not_lt.1 h⟩
    refine ⟨le_trans h1 hstep.1, ?_⟩
    intro d hd
    rcases List.mem_cons.1 hd with rfl | hd
    · exact le_trans h1 hstep.2
    · exact h2 d hd

theorem le_maxFold (ds : List ℚ) (init : ℚ) :
    init ≤ ds.foldl (fun m d => if d > m then d else m) init ∧
    ∀ d ∈ ds, d ≤ ds.foldl (fun m d => if d > m then d else m) init := by
  induction ds generalizing init with
  | nil => simp
  | cons a ds ih =>
    rw [List.foldl_cons]
    obtain ⟨h1, h2⟩ := ih (if a > init then a else init)
    have hstep : init ≤ (if a > init then a else init) ∧ a ≤ (if a > init then a else init) := by
      split_ifs with h
      · exact ⟨le_of_lt h, le_refl _⟩
      · exact ⟨le_refl _, not_lt.1 h⟩
    refine ⟨le_trans hstep.1 h1, ?_⟩
    intro d hd
    rcases List.mem_cons.1 hd with rfl | hd
    · exact le_trans hstep.2 h1
    · exact h2 d hd

/-- The fold of `calcAvgDist` over the pair `(sumDist, N)` is the fold of the
sum and the fold of the counter. -/
theorem sumFold_eq (ds : List ℚ) (init : ℚ × ℚ) :
    ds.foldl (fun acc d => (dadd acc.1 d, dadd acc.2 1)) init =
      (ds.foldl dadd init.1, ds.foldl (fun n _ => dadd n 1) init.2) := by
  induction ds generalizing init with
  | nil => rfl
  | cons a ds ih => rw [List.foldl_cons, ih, List.foldl_cons, List.foldl_cons]

/-- Counting the pairs in a double is exact up to `2^53`. -/
theorem pairCounter_eq (ds : List ℚ) (k : Nat) (h : k + ds.length ≤ 2 ^ 53) :
    ds.foldl (fun n _ => dadd n 1) (k : ℚ) = ((k + ds.length : Nat) : ℚ) := by
  induction ds generalizing k with
  | nil => rfl
  | cons a ds ih =>
    rw [List.length_cons] at h
    rw [List.foldl_cons, dadd_count k (by omega), ih (k + 1) (by omega), List.length_cons]
    congr 1
    omega

/-- After the first pair the counter is positive, whatever the number of
pairs. -/
theorem pairCounter_pos (ds : List ℚ) (n : ℚ) (hn : 0 ≤ n) (hne : ds ≠ []) :
    0 < ds.foldl (fun n _ => dadd n 1) n := by
  induction ds generalizing n with
  | nil => exact absurd rfl hne
  | cons a ds ih =>
    rw [List.foldl_cons]
    have hpos := dadd_one_pos n hn
    cases ds with
    | nil => exact hpos
    | cons b ds => exact ih (dadd n 1) (le_of_lt hpos) (by simp)

theorem sumFold_nonneg (ds : List ℚ) (hds : ∀ d ∈ ds, 0 ≤ d) (s : ℚ) (hs : 0 ≤ s) :
    0 ≤ ds.foldl dadd s := by
  induction ds generalizing s with
  | nil => exact hs
  | cons a ds ih =>
    rw [List.foldl_cons]
    exact ih (fun d hd => hds d (List.mem_cons_of_mem _ hd)) _
      (dadd_nonneg s a hs (hds a (List.mem_cons_self _ _)))

/-- One rounded operation on an accumulated value: with relative error `u` and
absolute error `u * h` per operation, an error factor `c` becomes
`(1 + u) * (c + 1) - 1`. -/
theorem acc_step (u h c s S d r : ℚ) (hu : 0 ≤ u) (hc : 0 ≤ c) (hs : 0 ≤ s)
    (hd : 0 ≤ d) (hsS : |s - S| ≤ c * (S + h))
    (hr : |r - (s + d)| ≤ |s + d| * u + u * h) :
    |r - (S + d)| ≤ ((1 + u) * (c + 1) - 1) * (S + d + h) := by
  rw [abs_of_nonneg (add_nonneg hs hd)] at hr
  rw [abs_le] at hsS hr ⊢
  obtain ⟨s1, s2⟩ := hsS
  obtain ⟨r1, r2⟩ := hr
  have h1 : (s + d) * u ≤ (S + c * (S + h) + d) * u :=
    mul_le_mul_of_nonneg_right (by linarith) hu
  have h2 : c * (S + h) ≤ c * (S + d + h) := mul_le_mul_of_nonneg_left (by linarith) hc
  have h3 : u * (c * (S + h)) ≤ u * (c * (S + d + h)) := mul_le_mul_of_nonneg_left h2 hu
  constructor <;> nlinarith

/-- The error of the accumulated sum of `calcAvgDist`: a finite sum of
non-negative doubles differs from the exact sum `S` by at most
`((1 + 2^-53)^n - 1) * (S + 2^-1022)`, `n` the number of additions. -/
theorem sumFold_err (ds : List ℚ) (hds : ∀ d ∈ ds, 0 ≤ d ∧ d ≤ DBL_MAX)
    (hfin : ds.foldl dadd 0 ≠ DBL_INF) :
    |ds.foldl dadd 0 - ds.sum| ≤
      ((1 + pow2 (-53)) ^ ds.length - 1) * (ds.sum + pow2 (-1022)) := by
  induction ds using List.reverseRecOn with
  | nil => simp
  | append_singleton l d ih =>
    have hl : ∀ x ∈ l, 0 ≤ x ∧ x ≤ DBL_MAX := fun x hx => hds x (List.mem_append_left _ hx)
    have hd := hds d (List.mem_append_right _ (List.mem_singleton_self d))
    have hs0 : 0 ≤ l.foldl dadd 0 := sumFold_nonneg l (fun x hx => (hl x hx).1) 0 (le_refl _)
    rw [List.foldl_append, List.foldl_cons, List.foldl_nil] at hfin ⊢
    obtain ⟨hsI, hsr⟩ := dadd_finite _ d hs0 hd.1 hd.2 hfin
    have hih := ih hl hsI
    have hu := le_of_lt (pow2_pos (-53))
    have hc : 0 ≤ (1 + pow2 (-53)) ^ l.length - 1 := by
      have : 1 ≤ (1 + pow2 (-53)) ^ l.length := one_le_pow₀ (by linarith)
      linarith
    have herr := roundDouble_err (l.foldl dadd 0 + d)
    have e1075 : pow2 (-1075) = pow2 (-53) * pow2 (-1022) := by
      rw [← pow2_add]
      congr 1
    rw [e1075] at herr
    rw [hsr, List.sum_append, List.sum_singleton, List.length_append, List.length_singleton]
    have := acc_step (pow2 (-53)) (pow2 (-1022)) ((1 + pow2 (-53)) ^ l.length - 1)
      (l.foldl dadd 0) l.sum d _ hu hc hs0 hd.1 hih herr
    have e : (1 + pow2 (-53)) * ((1 + pow2 (-53)) ^ l.length - 1 + 1) - 1 =
        (1 + pow2 (-53)) ^ (l.length + 1) - 1 := by
      rw [pow_succ]
      ring
    rw [e] at this
    exact this

/-- The list of frame distances between the members of two clusters. -/
theorem pairDists_ne_nil (g : Nat → Nat → ℚ) (c1 c2 : List Nat) (h1 : c1 ≠ []) (h2 : c2 ≠ []) :
    (c1.flatMap fun f1 => c2.map fun f2 => g f1 f2) ≠ [] := by
  cases c1 with
  | nil => exact absurd rfl h1
  | cons a c1 =>
    cases c2 with
    | nil => exact absurd rfl h2
    | cons b c2 => simp

end ClusterList

/-! ## Merging -/

namespace ClusterList

variable {γ : Type}

theorem SetElement_nrows (m : ClusterMatrix) (i j : Nat) (v : ℚ) :
    (m.SetElement i j v).nrows_ = m.nrows_ := by
  unfold ClusterMatrix.SetElement
  split_ifs <;> rfl

theorem SetElement_ignore (m : ClusterMatrix) (i j : Nat) (v : ℚ) :
    (m.SetElement i j v).ignore_ = m.ignore_ := by
  unfold ClusterMatrix.SetElement
  split_ifs <;> rfl

theorem foldl_SetElement_keeps {α : Type} (L : List α) (skip : α → Prop) [DecidablePred skip]
    (a : Nat) (b : α → Nat) (v : α → ℚ) (cd : ClusterMatrix) :
    (L.foldl (fun cd x => if skip x then cd else cd.SetElement a (b x) (v x)) cd).nrows_ = cd.nrows_ ∧
    (L.foldl (fun cd x => if skip x then cd else cd.SetElement a (b x) (v x)) cd).ignore_ = cd.ignore_ := by
  induction L generalizing cd with
  | nil => exact ⟨rfl, rfl⟩
  | cons x L ih =>
    rw [List.foldl_cons]
    obtain ⟨h1, h2⟩ := ih (if skip x then cd else cd.SetElement a (b x) (v x))
    rw [h1, h2]
    split_ifs
    · exact ⟨rfl, rfl⟩
    · exact ⟨SetElement_nrows _ _ _ _, SetElement_ignore _ _ _ _⟩

/-- Recomputing distances only rewrites entries of the cluster matrix. -/
theorem calcDist_keeps (linkage : LINKAGETYPE) (cl : ClusterList γ) (C1_it : Nat) :
    (calcDist linkage cl C1_it).clusters_ = cl.clusters_ ∧
    (calcDist linkage cl C1_it).FrameDistances_ = cl.FrameDistances_ ∧
    (calcDist linkage cl C1_it).Cdist_ = cl.Cdist_ ∧
    (calcDist linkage cl C1_it).ClusterDistances_.nrows_ = cl.ClusterDistances_.nrows_ ∧
    (calcDist linkage cl C1_it).ClusterDistances_.ignore_ = cl.ClusterDistances_.ignore_ := by
  unfold calcDist
  split
  · exact ⟨rfl, rfl, rfl, rfl, rfl⟩
  · rename_i C1 _
    refine ⟨rfl, rfl, rfl, ?_, ?_⟩
    · exact (foldl_SetElement_keeps cl.clusters_.enum (fun C2 => C2.fst = C1_it) C1.Num
        (fun C2 => C2.snd.Num)
        (fun C2 => linkDistFrames linkage cl.FrameDistances_ C1.frameList_ C2.snd.frameList_)
        cl.ClusterDistances_).1
    · exact (foldl_SetElement_keeps cl.clusters_.enum (fun C2 => C2.fst = C1_it) C1.Num
        (fun C2 => C2.snd.Num)
        (fun C2 => linkDistFrames linkage cl.FrameDistances_ C1.frameList_ C2.snd.frameList_)
        cl.ClusterDistances_).2

/-- The linkage switch of `MergeClosest` and `InitializeClusterDistances` is
`calcDist` at the linkage. -/
theorem linkage_switch (linkage : LINKAGETYPE) (cl : ClusterList γ) (C1_it : Nat) :
    (match linkage with
      | .AVERAGELINK => calcAvgDist cl C1_it
      | .SINGLELINK => calcMinDist cl C1_it
      | .COMPLETELINK => calcMaxDist cl C1_it) = calcDist linkage cl C1_it := by
  cases linkage <;> rfl

theorem findNumFrom_lt (l : List (ClusterNode γ)) (pos num k : Nat)
    (h : findNumFrom l pos num = some k) : pos ≤ k ∧ k < pos + l.length := by
  induction l generalizing pos with
  | nil => simp [findNumFrom] at h
  | cons c cs ih =>
    unfold findNumFrom at h
    split_ifs at h with hc
    · simp only [Option.some.injEq] at h
      subst h
      simp
    · have := ih (pos + 1) h
      simp only [List.length_cons]
      omega

theorem findNum_lt (l : List (ClusterNode γ)) (start num k : Nat)
    (h : findNum l start num = some k) : start ≤ k ∧ k < l.length := by
  unfold findNum at h
  have := findNumFrom_lt _ _ _ _ h
  rw [List.length_drop] at this
  omega

theorem findNumFrom_append (A : List (ClusterNode γ)) (n : ClusterNode γ)
    (R : List (ClusterNode γ)) (pos num : Nat)
    (hA : ∀ a ∈ A, a.Num ≠ num) (hn : n.Num = num) :
    findNumFrom (A ++ n :: R) pos num = some (pos + A.length) := by
  induction A generalizing pos with
  | nil => simp [findNumFrom, hn]
  | cons a A ih =>
    have ha : a.Num ≠ num := hA a (List.mem_cons_self _ _)
    have := ih (pos + 1) (fun x hx => hA x (List.mem_cons_of_mem _ hx))
    rw [List.cons_append, findNumFrom, if_neg ha, this, List.length_cons]
    congr 1
    omega

theorem eraseIdx_append_cons (B : List (ClusterNode γ)) (n : ClusterNode γ)
    (C : List (ClusterNode γ)) : (B ++ n :: C).eraseIdx B.length = B ++ C := by
  induction B with
  | nil => rfl
  | cons b B ih => simp [List.eraseIdx, ih]

theorem set_eraseIdx_decomp (A B C : List (ClusterNode γ)) (n1 n2 x : ClusterNode γ) :
    ((A ++ n1 :: (B ++ n2 :: C)).set A.length x).eraseIdx (A.length + (1 + B.length)) =
      A ++ x :: (B ++ C) := by
  induction A with
  | nil =>
    simp only [List.nil_append, List.length_nil, List.set_cons_zero, Nat.zero_add]
    rw [Nat.add_comm 1 B.length, List.eraseIdx_cons_succ, eraseIdx_append_cons]
  | cons a A ih =>
    simp only [List.cons_append, List.length_cons, List.set_cons_succ]
    rw [show A.length + 1 + (1 + B.length) = (A.length + (1 + B.length)) + 1 by omega,
      List.eraseIdx_cons_succ, ih]

/-- Whatever the state, `MergeClosest` either fails and leaves the state as it
was, or returns `0` with exactly one cluster less. -/
theorem MergeClosest_cases (epsilon : ℚ) (linkage : LINKAGETYPE) (cl : ClusterList γ) :
    MergeClosest epsilon linkage cl = (1, cl) ∨
    ∃ st, MergeClosest epsilon linkage cl = (0, st) ∧ st.Nclusters + 1 = cl.Nclusters := by
  unfold MergeClosest
  split
  · exact Or.inl rfl
  · rename_i C1 C2 dmin _
    split_ifs with hgt
    · exact Or.inl rfl
    · split
      · exact Or.inl rfl
      · rename_i C1_it h1
        split
        · exact Or.inl rfl
        · rename_i C2_it h2
          right
          have hb1 := findNum_lt _ _ _ _ h1
          have hb2 := findNum_lt _ _ _ _ h2
          have hlen : (Merge cl C1_it C2_it).clusters_.length + 1 = cl.clusters_.length := by
            unfold Merge
            have e1 : cl.clusters_.get? C1_it = some (cl.clusters_.get ⟨C1_it, hb1.2⟩) :=
              List.get?_eq_get hb1.2
            have e2 : cl.clusters_.get? C2_it = some (cl.clusters_.get ⟨C2_it, hb2.2⟩) :=
              List.get?_eq_get hb2.2
            rw [e1, e2]
            simp only
            rw [List.length_eraseIdx, List.length_set, if_pos hb2.2]
            omega
          refine ⟨_, rfl, ?_⟩
          simp only [linkage_switch]
          unfold Nclusters
          rw [(calcDist_keeps _ _ _).1]
          exact hlen

end ClusterList

/-! ## Well-formedness of the merge-phase states -/

namespace ClusterList

variable {γ : Type}

/-- The initial build over a list of frames: the clusters are numbered
`0, 1, ...` in list order and hold the non-ignored frames as singletons. -/
theorem buildInitial_fold (cl0 : ClusterList γ) (h0 : cl0.clusters_ = []) (L : List Nat) :
    (L.foldl (fun st frame =>
        if !st.FrameDistances_.IgnoringRow frame then st.AddCluster [frame] else st)
      cl0).FrameDistances_ = cl0.FrameDistances_ ∧
    (L.foldl (fun st frame =>
        if !st.FrameDistances_.IgnoringRow frame then st.AddCluster [frame] else st)
      cl0).Cdist_ = cl0.Cdist_ ∧
    (L.foldl (fun st frame =>
        if !st.FrameDistances_.IgnoringRow frame then st.AddCluster [frame] else st)
      cl0).clusters_.map ClusterNode.Num =
      List.range (L.filter fun f => !cl0.FrameDistances_.IgnoringRow f).length ∧
    (L.foldl (fun st frame =>
        if !st.FrameDistances_.IgnoringRow frame then st.AddCluster [frame] else st)
      cl0).clusters_.map (fun c => c.frameList_) =
      (L.filter fun f => !cl0.FrameDistances_.IgnoringRow f).map fun f => [f] := by
  induction L using List.reverseRecOn with
  | nil => simp [h0]
  | append_singleton L f ih =>
    rw [List.foldl_append, List.foldl_cons, List.foldl_nil]
    obtain ⟨ih1, ih2, ih3, ih4⟩ := ih
    rw [ih1]
    have hlen : (L.foldl (fun st frame =>
        if !st.FrameDistances_.IgnoringRow frame then st.AddCluster [frame] else st)
      cl0).clusters_.length = (L.filter fun f => !cl0.FrameDistances_.IgnoringRow f).length := by
      have := congrArg List.length ih3
      simpa using this
    generalize L.foldl (fun st frame =>
        if !st.FrameDistances_.IgnoringRow frame then st.AddCluster [frame] else st)
      cl0 = st at ih1 ih2 ih3 ih4 hlen ⊢
    cases hf : cl0.FrameDistances_.IgnoringRow f
    · simp only [Bool.not_false, if_true, List.filter_append, List.filter_cons, hf,
        List.filter_nil, List.length_append, List.length_singleton, List.map_append,
        List.map_cons, List.map_nil]
      refine ⟨ih1, ih2, ?_, ?_⟩
      · simp only [AddCluster, List.map_append, ih3, List.map_cons, List.map_nil,
          List.range_succ, ClusterNode.Num, ClusterNode.new, hlen]
      · simp only [AddCluster, List.map_append, ih4, List.map_cons, List.map_nil,
          ClusterNode.new]
    · simp only [Bool.not_true, Bool.false_eq_true, if_false, List.filter_append,
        List.filter_cons, hf, List.filter_nil, List.append_nil]
      exact ⟨ih1, ih2, ih3, ih4⟩

theorem initDistances_fold (linkage : LINKAGETYPE) (L : List Nat) (cl : ClusterList γ) :
    (L.foldl (fun st C1_it => calcDist linkage st C1_it) cl).clusters_ = cl.clusters_ ∧
    (L.foldl (fun st C1_it => calcDist linkage st C1_it) cl).FrameDistances_ =
      cl.FrameDistances_ ∧
    (L.foldl (fun st C1_it => calcDist linkage st C1_it) cl).Cdist_ = cl.Cdist_ ∧
    (L.foldl (fun st C1_it => calcDist linkage st C1_it) cl).ClusterDistances_.nrows_ =
        cl.ClusterDistances_.nrows_ ∧
    (L.foldl (fun st C1_it => calcDist linkage st C1_it) cl).ClusterDistances_.ignore_ =
        cl.ClusterDistances_.ignore_ := by
  induction L generalizing cl with
  | nil => exact ⟨rfl, rfl, rfl, rfl, rfl⟩
  | cons a L ih =>
    rw [List.foldl_cons]
    obtain ⟨h1, h2, h3, h4, h5⟩ := ih (calcDist linkage cl a)
    rw [h1, h2, h3, h4, h5]
    exact calcDist_keeps linkage cl a

/-- `InitializeClusterDistances` keeps the clusters and leaves a cluster
matrix with one row per cluster, none ignored. -/
theorem InitializeClusterDistances_keeps (linkage : LINKAGETYPE) (cl : ClusterList γ) :
    (InitializeClusterDistances linkage cl).clusters_ = cl.clusters_ ∧
    (InitializeClusterDistances linkage cl).FrameDistances_ = cl.FrameDistances_ ∧
    (InitializeClusterDistances linkage cl).Cdist_ = cl.Cdist_ ∧
    (InitializeClusterDistances linkage cl).ClusterDistances_.nrows_ = cl.clusters_.length ∧
    (InitializeClusterDistances linkage cl).ClusterDistances_.ignore_ = fun _ => false := by
  unfold InitializeClusterDistances
  cases linkage
  · exact initDistances_fold .SINGLELINK (List.range cl.clusters_.length)
      { cl with ClusterDistances_ := (ClusterMatrix.Setup cl.clusters_.length).SetupIgnore }
  · exact initDistances_fold .AVERAGELINK (List.range cl.clusters_.length)
      { cl with ClusterDistances_ := (ClusterMatrix.Setup cl.clusters_.length).SetupIgnore }
  · exact initDistances_fold .COMPLETELINK (List.range cl.clusters_.length)
      { cl with ClusterDistances_ := (ClusterMatrix.Setup cl.clusters_.length).SetupIgnore }

/-- The frames that the initial build turns into clusters. -/
theorem buildInitial_spec (cl0 : ClusterList γ) (h0 : cl0.clusters_ = []) :
    (buildInitial cl0).FrameDistances_ = cl0.FrameDistances_ ∧
    (buildInitial cl0).Cdist_ = cl0.Cdist_ ∧
    (buildInitial cl0).clusters_.map ClusterNode.Num =
      List.range ((List.range cl0.FrameDistances_.Nrows).filter
        fun f => !cl0.FrameDistances_.IgnoringRow f).length ∧
    (buildInitial cl0).clusters_.map (fun c => c.frameList_) =
      ((List.range cl0.FrameDistances_.Nrows).filter
        fun f => !cl0.FrameDistances_.IgnoringRow f).map fun f => [f] :=
  buildInitial_fold cl0 h0 (List.range cl0.FrameDistances_.Nrows)

/-- The state at the start of the merge loop is well-formed. -/
theorem wellFormed_init (linkage : LINKAGETYPE) (cl0 : ClusterList γ) (h0 : cl0.clusters_ = []) :
    WellFormed (InitializeClusterDistances linkage (buildInitial cl0)) := by
  obtain ⟨k1, _, _, k4, k5⟩ := InitializeClusterDistances_keeps linkage (buildInitial cl0)
  obtain ⟨_, _, b3, b4⟩ := buildInitial_spec cl0 h0
  have hlen : (buildInitial cl0).clusters_.length =
      ((List.range cl0.FrameDistances_.Nrows).filter
        fun f => !cl0.FrameDistances_.IgnoringRow f).length := by
    have := congrArg List.length b3
    simpa using this
  constructor
  · rw [k1, b3]
    exact List.pairwise_lt_range _
  · intro i
    unfold ClusterMatrix.Nrows ClusterMatrix.IgnoringRow
    rw [k1, k4, k5, hlen]
    constructor
    · rintro ⟨hi, _⟩
      have : i ∈ (buildInitial cl0).clusters_.map ClusterNode.Num := by
        rw [b3]; exact List.mem_range.2 hi
      obtain ⟨c, hc, hci⟩ := List.mem_map.1 this
      exact ⟨c, hc, hci⟩
    · rintro ⟨c, hc, hci⟩
      have : i ∈ (buildInitial cl0).clusters_.map ClusterNode.Num :=
        List.mem_map.2 ⟨c, hc, hci⟩
      rw [b3] at this
      exact ⟨List.mem_range.1 this, rfl⟩
  · intro c hc
    rw [k1] at hc
    have : c.frameList_ ∈ (buildInitial cl0).clusters_.map (fun c => c.frameList_) :=
      List.mem_map.2 ⟨c, hc, rfl⟩
    rw [b4] at this
    obtain ⟨f, _, hf⟩ := List.mem_map.1 this
    rw [← hf]
    exact List.nodup_singleton f
  · rw [k1]
    have hpw : ((buildInitial cl0).clusters_.map (fun c => c.frameList_)).Pairwise
        (fun a b : List Nat => ∀ f ∈ a, f ∉ b) := by
      rw [b4, List.pairwise_map]
      refine List.Pairwise.imp ?_ ((List.pairwise_lt_range _).filter _)
      intro a b hab f hf hfb
      simp only [List.mem_singleton] at hf hfb
      omega
    rw [List.pairwise_map] at hpw
    exact hpw

end ClusterList

namespace ClusterList

variable {γ : Type}

/-- In a well-formed state the pair returned by `FindMin` names two clusters
of the list, the first met before the second. -/
theorem WellFormed.decomp {st : ClusterList γ} (hwf : WellFormed st) {C1 C2 : Nat} {d : ℚ}
    (hfind : st.ClusterDistances_.FindMin = some (C1, C2, d)) :
    ∃ A B C n1 n2, st.clusters_ = A ++ n1 :: (B ++ n2 :: C) ∧ n1.Num = C1 ∧ n2.Num = C2 ∧
      C1 < C2 ∧
      (∀ a ∈ A, a.Num < C1) ∧ (∀ b ∈ B, C1 < b.Num ∧ b.Num < C2) ∧ (∀ c ∈ C, C2 < c.Num) := by
  obtain ⟨_, hlt, hC2, hl1, hl2, _⟩ := ClusterMatrix.FindMin_some _ _ _ _ hfind
  obtain ⟨n1, hn1, hn1C⟩ := (hwf.live_iff C1).1 ⟨by omega, hl1⟩
  obtain ⟨n2, hn2, hn2C⟩ := (hwf.live_iff C2).1 ⟨hC2, hl2⟩
  obtain ⟨A, R, hAR⟩ := List.append_of_mem hn1
  have hs := hwf.nums_sorted
  rw [hAR, List.map_append, List.map_cons, List.pairwise_append, List.pairwise_cons] at hs
  obtain ⟨_, ⟨hR, _⟩, hAll⟩ := hs
  have hA : ∀ a ∈ A, a.Num < C1 := by
    intro a ha
    have := hAll a.Num (List.mem_map.2 ⟨a, ha, rfl⟩) n1.Num (List.mem_cons_self _ _)
    omega
  have hRgt : ∀ r ∈ R, C1 < r.Num := by
    intro r hr
    have := hR r.Num (List.mem_map.2 ⟨r, hr, rfl⟩)
    omega
  rw [hAR] at hn2
  have hn2R : n2 ∈ R := by
    rcases List.mem_append.1 hn2 with h | h
    · have := hA n2 h
      omega
    · rcases List.mem_cons.1 h with h | h
      · rw [h] at hn2C
        omega
      · exact h
  obtain ⟨B, C, hBC⟩ := List.append_of_mem hn2R
  have hs2 := hwf.nums_sorted
  rw [hAR, hBC] at hs2
  simp only [List.map_append, List.map_cons, List.pairwise_append, List.pairwise_cons,
    List.mem_append, List.mem_cons, List.mem_map] at hs2
  obtain ⟨_, ⟨_, _, ⟨hCgt, _⟩, hBlt⟩, _⟩ := hs2
  refine ⟨A, B, C, n1, n2, by rw [hAR, hBC], hn1C, hn2C, hlt, hA, ?_, ?_⟩
  · intro b hb
    refine ⟨hRgt b (by rw [hBC]; simp [hb]), ?_⟩
    have := hBlt b.Num ⟨b, hb, rfl⟩ n2.Num (Or.inl rfl)
    omega
  · intro c hc
    have := hCgt c.Num ⟨c, hc, rfl⟩
    omega

/-- In a well-formed state with minimum distance within `epsilon`,
`MergeClosest` succeeds: the result is the state in which the second cluster
is merged into the first and erased, its row is ignored and the distances of
the first cluster are recomputed. -/
theorem MergeClosest_success (epsilon : ℚ) (linkage : LINKAGETYPE) {st : ClusterList γ}
    (hwf : WellFormed st) {C1 C2 : Nat} {d : ℚ}
    (hfind : st.ClusterDistances_.FindMin = some (C1, C2, d)) (hle : d ≤ epsilon) :
    ∃ A B C n1 n2, st.clusters_ = A ++ n1 :: (B ++ n2 :: C) ∧ n1.Num = C1 ∧ n2.Num = C2 ∧
      C1 < C2 ∧
      (∀ a ∈ A, a.Num < C1) ∧ (∀ b ∈ B, C1 < b.Num ∧ b.Num < C2) ∧ (∀ c ∈ C, C2 < c.Num) ∧
      MergeClosest epsilon linkage st =
        (0, calcDist linkage
              { st with clusters_ := A ++ n1.MergeFrames n2 :: (B ++ C),
                        ClusterDistances_ := st.ClusterDistances_.Ignore C2 } A.length) := by
  obtain ⟨A, B, C, n1, n2, hdec, h1, h2, hlt, hA, hB, hC⟩ := hwf.decomp hfind
  refine ⟨A, B, C, n1, n2, hdec, h1, h2, hlt, hA, hB, hC, ?_⟩
  have f1 : findNum st.clusters_ 0 C1 = some A.length := by
    unfold findNum
    rw [List.drop_zero, hdec, findNumFrom_append A n1 _ 0 C1 (fun a ha => by
      have := hA a ha; omega) h1, Nat.zero_add]
  have f2 : findNum st.clusters_ A.length C2 = some (A.length + (1 + B.length)) := by
    unfold findNum
    rw [hdec, List.drop_left]
    have := findNumFrom_append (n1 :: B) n2 C A.length C2 (fun b hb => by
      rcases List.mem_cons.1 hb with rfl | hb
      · omega
      · have := hB b hb; omega) h2
    rw [List.cons_append] at this
    rw [this, List.length_cons, Nat.add_comm 1]
  have g1 : st.clusters_.get? A.length = some n1 := by
    rw [hdec, List.get?_eq_getElem?, List.getElem?_append_right (Nat.le_refl _)]
    simp
  have g2 : st.clusters_.get? (A.length + (1 + B.length)) = some n2 := by
    rw [hdec, List.get?_eq_getElem?, List.getElem?_append_right (by omega)]
    rw [show A.length + (1 + B.length) - A.length = B.length + 1 by omega,
      List.getElem?_cons_succ, List.getElem?_append_right (by omega)]
    simp
  have hm : Merge st A.length (A.length + (1 + B.length)) =
      { st with clusters_ := A ++ n1.MergeFrames n2 :: (B ++ C) } := by
    unfold Merge
    rw [g1, g2]
    simp only
    rw [hdec, set_eraseIdx_decomp]
  unfold MergeClosest
  rw [hfind]
  simp only [gt_iff_lt, not_lt.2 hle, if_false, f1, f2, hm, linkage_switch]

/-- A return code `0` of `MergeClosest` comes from a minimum within
`epsilon`. -/
theorem MergeClosest_zero_inv (epsilon : ℚ) (linkage : LINKAGETYPE) (st st' : ClusterList γ)
    (h : MergeClosest epsilon linkage st = (0, st')) :
    ∃ C1 C2 d, st.ClusterDistances_.FindMin = some (C1, C2, d) ∧ d ≤ epsilon := by
  unfold MergeClosest at h
  split at h
  · simp at h
  · rename_i C1 C2 dmin hf
    split_ifs at h with hgt
    · simp at h
    · exact ⟨C1, C2, dmin, hf, not_lt.1 hgt⟩

theorem mem_MergeFrames (n1 n2 : ClusterNode γ) (f : Nat) :
    f ∈ (n1.MergeFrames n2).frameList_ ↔ f ∈ n1.frameList_ ∨ f ∈ n2.frameList_ := by
  unfold ClusterNode.MergeFrames
  simp only [List.mem_insertionSort, List.mem_append]

end ClusterList

namespace ClusterList

variable {γ : Type}

theorem MergeFrames_Num (n1 n2 : ClusterNode γ) : (n1.MergeFrames n2).Num = n1.Num := rfl

/-- The state after a successful merge is well-formed again. -/
theorem wellFormed_merged (linkage : LINKAGETYPE) {st : ClusterList γ} (hwf : WellFormed st)
    {A B C : List (ClusterNode γ)} {n1 n2 : ClusterNode γ}
    (hdec : st.clusters_ = A ++ n1 :: (B ++ n2 :: C))
    (hA : ∀ a ∈ A, a.Num < n1.Num) (hlt : n1.Num < n2.Num)
    (hB : ∀ b ∈ B, n1.Num < b.Num ∧ b.Num < n2.Num) (hC : ∀ c ∈ C, n2.Num < c.Num) :
    WellFormed (calcDist linkage
      { st with clusters_ := A ++ n1.MergeFrames n2 :: (B ++ C),
                ClusterDistances_ := st.ClusterDistances_.Ignore n2.Num } A.length) := by
  obtain ⟨k1, _, _, k4, k5⟩ := calcDist_keeps linkage
    { st with clusters_ := A ++ n1.MergeFrames n2 :: (B ++ C),
              ClusterDistances_ := st.ClusterDistances_.Ignore n2.Num } A.length
  have hs := hwf.nums_sorted
  have hn := hwf.frames_nodup
  have hd := hwf.frames_disjoint
  rw [hdec] at hs hn hd
  constructor
  · rw [k1]
    refine List.Pairwise.sublist ?_ hs
    simp only [List.map_append, List.map_cons, MergeFrames_Num]
    exact List.Sublist.append_left
      (List.Sublist.cons₂ _ (List.Sublist.append_left (List.sublist_cons_self _ _) _)) _
  · intro i
    unfold ClusterMatrix.Nrows ClusterMatrix.IgnoringRow
    rw [k1, k4, k5]
    have hl := hwf.live_iff i
    unfold ClusterMatrix.Nrows ClusterMatrix.IgnoringRow at hl
    rw [hdec] at hl
    simp only [ClusterMatrix.Ignore]
    constructor
    · rintro ⟨hi, hig⟩
      by_cases hi2 : i = n2.Num
      · simp [hi2] at hig
      · simp only [hi2, if_false] at hig
        obtain ⟨c, hc, hci⟩ := hl.1 ⟨hi, hig⟩
        simp only [List.mem_append, List.mem_cons] at hc
        rcases hc with hc | rfl | hc | rfl | hc
        · exact ⟨c, by simp [hc], hci⟩
        · exact ⟨c.MergeFrames n2, by simp, hci⟩
        · exact ⟨c, by simp [hc], hci⟩
        · exact absurd hci.symm hi2
        · exact ⟨c, by simp [hc], hci⟩
    · rintro ⟨c, hc, hci⟩
      simp only [List.mem_append, List.mem_cons] at hc
      have hne : i ≠ n2.Num := by
        rcases hc with hc | rfl | hc | hc
        · have := hA c hc; omega
        · rw [MergeFrames_Num] at hci; omega
        · have := hB c hc; omega
        · have := hC c hc; omega
      simp only [hne, if_false]
      apply hl.2
      rcases hc with hc | rfl | hc | hc
      · exact ⟨c, by simp [hc], hci⟩
      · exact ⟨n1, by simp, hci⟩
      · exact ⟨c, by simp [hc], hci⟩
      · exact ⟨c, by simp [hc], hci⟩
  · intro c hc
    rw [k1] at hc
    simp only [List.mem_append, List.mem_cons] at hc
    rcases hc with hc | rfl | hc | hc
    · exact hn c (by simp [hc])
    · unfold ClusterNode.MergeFrames
      simp only
      rw [(List.perm_insertionSort _ _).nodup_iff, List.nodup_append]
      refine ⟨hn n1 (by simp), hn n2 (by simp), ?_⟩
      intro f hf1 hf2
      simp only [List.pairwise_append, List.pairwise_cons, List.mem_append, List.mem_cons] at hd
      exact hd.2.1.1 n2 (Or.inr (Or.inl rfl)) f hf1 hf2
    · exact hn c (by simp [hc])
    · exact hn c (by simp [hc])
  · rw [k1]
    simp only [List.pairwise_append, List.pairwise_cons, List.mem_append, List.mem_cons] at hd ⊢
    obtain ⟨hAA, ⟨hn1R, hBB, ⟨hn2C, hCC⟩, hBn2C⟩, hAR⟩ := hd
    refine ⟨hAA, ⟨?_, hBB, hCC, ?_⟩, ?_⟩
    · intro b hb f hf
      rcases (mem_MergeFrames n1 n2 f).1 hf with h | h
      · exact hn1R b (by rcases hb with hb | hb <;> simp [hb]) f h
      · rcases hb with hb | hb
        · intro hfb
          exact hBn2C b hb n2 (Or.inl rfl) f hfb h
        · exact hn2C b hb f h
    · intro b hb c hc
      exact hBn2C b hb c (Or.inr hc)
    · intro a ha b hb f hf
      rcases hb with rfl | hb | hb
      · intro hfm
        rcases (mem_MergeFrames n1 n2 f).1 hfm with h | h
        · exact hAR a ha n1 (Or.inl rfl) f hf h
        · exact hAR a ha n2 (Or.inr (Or.inr (Or.inl rfl))) f hf h
      · exact hAR a ha b (Or.inr (Or.inl hb)) f hf
      · exact hAR a ha b (Or.inr (Or.inr (Or.inr hb))) f hf

/-- Every state of the merge phase is well-formed. -/
theorem wellFormed_of_reachable (linkage : LINKAGETYPE) (cl0 : ClusterList γ)
    (h0 : cl0.clusters_ = []) (st : ClusterList γ) (hr : Reachable linkage cl0 st) :
    WellFormed st := by
  induction hr with
  | init => exact wellFormed_init linkage cl0 h0
  | step epsilon st st' _ hstep ih =>
    obtain ⟨C1, C2, d, hfind, hle⟩ := MergeClosest_zero_inv epsilon linkage st st' hstep
    obtain ⟨A, B, C, n1, n2, hdec, h1, h2, hlt, hA, hB, hC, hres⟩ :=
      MergeClosest_success epsilon linkage ih hfind hle
    rw [hres] at hstep
    simp only [Prod.mk.injEq, true_and] at hstep
    rw [← hstep]
    subst h1 h2
    exact wellFormed_merged linkage ih hdec hA hlt hB hC

end ClusterList

namespace ClusterList

variable {γ : Type}

/-- With two live clusters the minimum search of a well-formed state
succeeds. -/
theorem FindMin_of_two {st : ClusterList γ} (hwf : WellFormed st) (hN : 2 ≤ st.Nclusters) :
    ∃ C1 C2 dmin, st.ClusterDistances_.FindMin = some (C1, C2, dmin) := by
  unfold Nclusters at hN
  obtain ⟨a, b, rest, hl⟩ : ∃ a b rest, st.clusters_ = a :: b :: rest := by
    cases h : st.clusters_ with
    | nil => rw [h] at hN; simp at hN
    | cons a t =>
      cases t with
      | nil => rw [h] at hN; simp at hN
      | cons b rest => exact ⟨a, b, rest, rfl⟩
  have hs := hwf.nums_sorted
  rw [hl] at hs
  simp only [List.map_cons, List.pairwise_cons, List.mem_cons] at hs
  have hab : a.Num < b.Num := hs.1 b.Num (Or.inl rfl)
  have ha := (hwf.live_iff a.Num).2 ⟨a, by rw [hl]; simp, rfl⟩
  have hb := (hwf.live_iff b.Num).2 ⟨b, by rw [hl]; simp, rfl⟩
  obtain ⟨i, j, hij⟩ := ClusterMatrix.FindMin_isSome _ a.Num b.Num hab hb.1 ha.2 hb.2
  exact ⟨i, j, _, hij⟩

end ClusterList

/-- C1. In every state of the merge phase (singleton clusters built from the
non-ignored frames, under any linkage, and the states later merges lead to)
with at least two live clusters, the minimum search returns a pair `(C1, C2)`
with distance `dmin`; when `dmin ≤ epsilon`, one call of `MergeClosest` returns
`0`, the number of live clusters decreases by exactly one, the cluster numbered
`C1` has as members the former members of `C1` and `C2` together, without
duplicates, no cluster numbered `C2` is left in the list, and every other
cluster is in the list as before. -/
theorem C1_merge_step_count_and_union {γ : Type} (linkage : LINKAGETYPE) (cl0 : ClusterList γ)
    (h0 : cl0.clusters_ = []) (st : ClusterList γ)
    (hr : ClusterList.Reachable linkage cl0 st) (hN : 2 ≤ st.Nclusters) (epsilon : ℚ) :
    ∃ C1 C2 dmin, st.ClusterDistances_.FindMin = some (C1, C2, dmin) ∧
      (dmin ≤ epsilon →
        ∃ st' n1 n2 m, ClusterList.MergeClosest epsilon linkage st = (0, st') ∧
          st'.Nclusters + 1 = st.Nclusters ∧
          n1 ∈ st.clusters_ ∧ n1.Num = C1 ∧ n2 ∈ st.clusters_ ∧ n2.Num = C2 ∧
          m ∈ st'.clusters_ ∧ m.Num = C1 ∧
          m.frameList_.Perm (n1.frameList_ ++ n2.frameList_) ∧
          (∀ f, f ∈ m.frameList_ ↔ f ∈ n1.frameList_ ∨ f ∈ n2.frameList_) ∧
          m.frameList_.Nodup ∧
          (∀ c ∈ st'.clusters_, c.Num ≠ C2) ∧
          (∀ c, c.Num ≠ C1 → (c ∈ st'.clusters_ ↔ c ∈ st.clusters_ ∧ c.Num ≠ C2))) := by
  have hwf := ClusterList.wellFormed_of_reachable linkage cl0 h0 st hr
  obtain ⟨C1, C2, dmin, hfind⟩ := ClusterList.FindMin_of_two hwf hN
  refine ⟨C1, C2, dmin, hfind, fun hle => ?_⟩
  obtain ⟨A, B, C, n1, n2, hdec, h1, h2, hlt, hA, hB, hC, hres⟩ :=
    ClusterList.MergeClosest_success epsilon linkage hwf hfind hle
  subst h1 h2
  have hwf' := ClusterList.wellFormed_merged linkage hwf hdec hA hlt hB hC
  obtain ⟨k1, _, _, _, _⟩ := ClusterList.calcDist_keeps linkage
    { st with clusters_ := A ++ n1.MergeFrames n2 :: (B ++ C),
              ClusterDistances_ := st.ClusterDistances_.Ignore n2.Num } A.length
  refine ⟨_, n1, n2, n1.MergeFrames n2, hres, ?_, by rw [hdec]; simp, rfl,
    by rw [hdec]; simp, rfl, by rw [k1]; simp, rfl, ?_, ClusterList.mem_MergeFrames n1 n2, ?_, ?_, ?_⟩
  · unfold ClusterList.Nclusters
    rw [k1, hdec]
    simp only [List.length_append, List.length_cons]
    omega
  · exact List.perm_insertionSort _ _
  · exact hwf'.frames_nodup _ (by rw [k1]; simp)
  · intro c hc
    rw [k1] at hc
    simp only [List.mem_append, List.mem_cons] at hc
    rcases hc with hc | rfl | hc | hc
    · have := hA c hc; omega
    · rw [ClusterList.MergeFrames_Num]; omega
    · have := hB c hc; omega
    · have := hC c hc; omega
  · intro c hc1
    rw [k1, hdec]
    simp only [List.mem_append, List.mem_cons]
    constructor
    · rintro (hc | rfl | hc | hc)
      · exact ⟨Or.inl hc, by have := hA c hc; omega⟩
      · exact absurd (ClusterList.MergeFrames_Num _ n2) hc1
      · exact ⟨Or.inr (Or.inr (Or.inl hc)), by have := hB c hc; omega⟩
      · exact ⟨Or.inr (Or.inr (Or.inr (Or.inr hc))), by have := hC c hc; omega⟩
    · rintro ⟨hc | rfl | hc | rfl | hc, hne⟩
      · exact Or.inl hc
      · exact absurd rfl hc1
      · exact Or.inr (Or.inr (Or.inl hc))
      · exact absurd rfl hne
      · exact Or.inr (Or.inr (Or.inr hc))

/-- C1 at the six points on a line, single linkage, `epsilon = 2`, before the
first merge. -/
theorem C1_merge_step_witness :
    ∃ C1 C2 dmin, sixPointsStart.ClusterDistances_.FindMin = some (C1, C2, dmin) ∧
      (dmin ≤ 2 →
        ∃ st' n1 n2 m, ClusterList.MergeClosest 2 .SINGLELINK sixPointsStart = (0, st') ∧
          st'.Nclusters + 1 = sixPointsStart.Nclusters ∧
          n1 ∈ sixPointsStart.clusters_ ∧ n1.Num = C1 ∧
          n2 ∈ sixPointsStart.clusters_ ∧ n2.Num = C2 ∧
          m ∈ st'.clusters_ ∧ m.Num = C1 ∧
          m.frameList_.Perm (n1.frameList_ ++ n2.frameList_) ∧
          (∀ f, f ∈ m.frameList_ ↔ f ∈ n1.frameList_ ∨ f ∈ n2.frameList_) ∧
          m.frameList_.Nodup ∧
          (∀ c ∈ st'.clusters_, c.Num ≠ C2) ∧
          (∀ c, c.Num ≠ C1 → (c ∈ st'.clusters_ ↔ c ∈ sixPointsStart.clusters_ ∧ c.Num ≠ C2))) :=
  C1_merge_step_count_and_union .SINGLELINK sixPoints rfl sixPointsStart
    ClusterList.Reachable.init (by decide) 2

/-- C5. `MergeClosest` merges exactly when the minimum distance `dmin` found by
`FindMin` is within `epsilon`: when `dmin > epsilon` it returns `1` and the
whole state (cluster list, member sets, cluster matrix with its ignore flags)
is as before; a return code `0` occurs only when `dmin ≤ epsilon` and then one
cluster less is live; and in every state of the merge phase `dmin ≤ epsilon`
does lead to the merge, so there the return code is `0` if and only if
`dmin ≤ epsilon`. -/
theorem C5_merge_iff_within_epsilon {γ : Type} (epsilon : ℚ) (linkage : LINKAGETYPE)
    (st : ClusterList γ) (C1 C2 : Nat) (dmin : ℚ)
    (hfind : st.ClusterDistances_.FindMin = some (C1, C2, dmin)) :
    (epsilon < dmin → ClusterList.MergeClosest epsilon linkage st = (1, st)) ∧
    ((ClusterList.MergeClosest epsilon linkage st).1 = 0 →
      dmin ≤ epsilon ∧
      (ClusterList.MergeClosest epsilon linkage st).2.Nclusters + 1 = st.Nclusters) ∧
    (∀ cl0 : ClusterList γ, cl0.clusters_ = [] → ClusterList.Reachable linkage cl0 st →
      (dmin ≤ epsilon →
        ∃ st', ClusterList.MergeClosest epsilon linkage st = (0, st') ∧
          st'.Nclusters + 1 = st.Nclusters) ∧
      ((ClusterList.MergeClosest epsilon linkage st).1 = 0 ↔ dmin ≤ epsilon)) := by
  have hzero : (ClusterList.MergeClosest epsilon linkage st).1 = 0 →
      dmin ≤ epsilon ∧
      (ClusterList.MergeClosest epsilon linkage st).2.Nclusters + 1 = st.Nclusters := by
    intro hz
    rcases ClusterList.MergeClosest_cases epsilon linkage st with h | ⟨st', h, hlen⟩
    · rw [h] at hz
      simp at hz
    · obtain ⟨C1', C2', d', hfind', hle⟩ :=
        ClusterList.MergeClosest_zero_inv epsilon linkage st st' h
      rw [hfind] at hfind'
      simp only [Option.some.injEq, Prod.mk.injEq] at hfind'
      obtain ⟨_, _, rfl⟩ := hfind'
      rw [h]
      exact ⟨hle, hlen⟩
  refine ⟨?_, hzero, ?_⟩
  · intro hgt
    unfold ClusterList.MergeClosest
    rw [hfind]
    simp only [gt_iff_lt, hgt, if_true]
  · intro cl0 h0 hr
    have hmerge : dmin ≤ epsilon →
        ∃ st', ClusterList.MergeClosest epsilon linkage st = (0, st') ∧
          st'.Nclusters + 1 = st.Nclusters := by
      intro hle
      have hwf := ClusterList.wellFormed_of_reachable linkage cl0 h0 st hr
      obtain ⟨A, B, C, n1, n2, _, _, _, _, _, _, _, hres⟩ :=
        ClusterList.MergeClosest_success epsilon linkage hwf hfind hle
      rcases ClusterList.MergeClosest_cases epsilon linkage st with h | ⟨st', h, hlen⟩
      · rw [h] at hres
        simp at hres
      · exact ⟨st', h, hlen⟩
    refine ⟨hmerge, fun hz => (hzero hz).1, fun hle => ?_⟩
    obtain ⟨st', h, _⟩ := hmerge hle
    rw [h]

/-- C5 at the six points on a line, single linkage, `epsilon = 1/2`, before
the first merge: the minimum is `1` between clusters `0` and `1`. -/
theorem C5_merge_iff_witness :
    ((1 : ℚ) / 2 < 1 →
      ClusterList.MergeClosest (1 / 2) .SINGLELINK sixPointsStart = (1, sixPointsStart)) ∧
    ((ClusterList.MergeClosest (1 / 2) .SINGLELINK sixPointsStart).1 = 0 →
      (1 : ℚ) ≤ 1 / 2 ∧
      (ClusterList.MergeClosest (1 / 2) .SINGLELINK sixPointsStart).2.Nclusters + 1 =
        sixPointsStart.Nclusters) ∧
    (∀ cl0 : ClusterList Unit, cl0.clusters_ = [] →
      ClusterList.Reachable .SINGLELINK cl0 sixPointsStart →
      ((1 : ℚ) ≤ 1 / 2 →
        ∃ st', ClusterList.MergeClosest (1 / 2) .SINGLELINK sixPointsStart = (0, st') ∧
          st'.Nclusters + 1 = sixPointsStart.Nclusters) ∧
      ((ClusterList.MergeClosest (1 / 2) .SINGLELINK sixPointsStart).1 = 0 ↔
        (1 : ℚ) ≤ 1 / 2)) :=
  C5_merge_iff_within_epsilon (1 / 2) .SINGLELINK sixPointsStart 0 1 1 (by decide!)

/-! ## The merge loop -/

namespace ClusterList

variable {γ : Type}

/-- More iterations allowed do not change the result of the merge loop. -/
theorem mergeLoop_mono (epsilon : ℚ) (targetN : Int) (linkage : LINKAGETYPE) (fuel : Nat) :
    ∀ (st r : ClusterList γ), mergeLoop epsilon targetN linkage fuel st = some r →
      ∀ fuel', fuel ≤ fuel' → mergeLoop epsilon targetN linkage fuel' st = some r := by
  induction fuel with
  | zero => intro st r h; simp [mergeLoop] at h
  | succ fuel ih =>
    intro st r h fuel' hle
    obtain ⟨k, rfl⟩ : ∃ k, fuel' = k + 1 := ⟨fuel' - 1, by omega⟩
    unfold mergeLoop at h ⊢
    generalize MergeClosest epsilon linkage st = p at h ⊢
    obtain ⟨ret, cl1⟩ := p
    simp only at h ⊢
    split_ifs at h ⊢ with h1 h2 h3
    · exact h
    · exact h
    · exact h
    · exact ih _ _ h k (by omega)

/-- The merge loop exits within as many iterations as there are clusters plus
one; it never ends with fewer clusters than `min targetN (N - 1)`, `N` the
number of clusters it starts from. -/
theorem mergeLoop_spec (epsilon : ℚ) (targetN : Int) (linkage : LINKAGETYPE) (fuel : Nat) :
    ∀ st : ClusterList γ, st.Nclusters < fuel →
      ∃ st', mergeLoop epsilon targetN linkage fuel st = some st' ∧
        st'.Nclusters ≤ st.Nclusters ∧
        min targetN ((st.Nclusters : Int) - 1) ≤ (st'.Nclusters : Int) := by
  induction fuel with
  | zero => intro st h; omega
  | succ fuel ih =>
    intro st hfuel
    unfold mergeLoop
    rcases MergeClosest_cases epsilon linkage st with h | ⟨st1, h, hlen⟩
    · rw [h]
      refine ⟨st, by simp, le_refl _, ?_⟩
      have : min targetN ((st.Nclusters : Int) - 1) ≤ (st.Nclusters : Int) - 1 := min_le_right _ _
      omega
    · rw [h]
      simp only [ne_eq, not_true_eq_false, if_false]
      split_ifs with h2 h3
      · refine ⟨st1, rfl, by omega, ?_⟩
        have : min targetN ((st.Nclusters : Int) - 1) ≤ (st.Nclusters : Int) - 1 := min_le_right _ _
        omega
      · refine ⟨st1, rfl, by omega, ?_⟩
        have : min targetN ((st.Nclusters : Int) - 1) ≤ (st.Nclusters : Int) - 1 := min_le_right _ _
        omega
      · obtain ⟨st', hres, hle, hmin⟩ := ih st1 (by omega)
        refine ⟨st', hres, by omega, ?_⟩
        have h4 : min targetN ((st.Nclusters : Int) - 1) ≤ targetN := min_le_left _ _
        have h5 : min targetN ((st1.Nclusters : Int) - 1) = targetN := by
          apply min_eq_left
          omega
        omega

/-- The number of clusters before the merge loop is the number of non-ignored
frames. -/
theorem Nclusters_init (linkage : LINKAGETYPE) (cl0 : ClusterList γ) (h0 : cl0.clusters_ = []) :
    (InitializeClusterDistances linkage (buildInitial cl0)).Nclusters =
      (nonIgnoredFrames cl0.FrameDistances_).length := by
  unfold Nclusters nonIgnoredFrames
  rw [(InitializeClusterDistances_keeps linkage (buildInitial cl0)).1]
  have := congrArg List.length (buildInitial_spec cl0 h0).2.2.1
  simpa using this

end ClusterList

/-- C3. On the six frames at positions `0,1,2,10,11,12` with distance
`|x_i - x_j|`, none ignored and no target count in effect (`targetN` is `0` or
`-1`), `ClusterHierAgglo` returns `0` and: with single linkage and `epsilon = 2`
the two clusters `{0,1,2}` and `{3,4,5}` (the frames at positions `0,1,2` and
`10,11,12`); with complete linkage and `epsilon = 2` the same two clusters; with
`epsilon = 1/2` six singletons. Six iterations are allowed; with more the
result is the same. -/
theorem C3_six_points_on_a_line (fuel : Nat) (hfuel : 6 ≤ fuel) :
    memberLists (ClusterList.ClusterHierAgglo fuel 2 0 .SINGLELINK sixPoints) =
      some (0, [[0, 1, 2], [3, 4, 5]]) ∧
    memberLists (ClusterList.ClusterHierAgglo fuel 2 (-1) .SINGLELINK sixPoints) =
      some (0, [[0, 1, 2], [3, 4, 5]]) ∧
    memberLists (ClusterList.ClusterHierAgglo fuel 2 0 .COMPLETELINK sixPoints) =
      some (0, [[0, 1, 2], [3, 4, 5]]) ∧
    memberLists (ClusterList.ClusterHierAgglo fuel 2 (-1) .COMPLETELINK sixPoints) =
      some (0, [[0, 1, 2], [3, 4, 5]]) ∧
    memberLists (ClusterList.ClusterHierAgglo fuel (1 / 2) 0 .SINGLELINK sixPoints) =
      some (0, [[0], [1], [2], [3], [4], [5]]) ∧
    memberLists (ClusterList.ClusterHierAgglo fuel (1 / 2) (-1) .SINGLELINK sixPoints) =
      some (0, [[0], [1], [2], [3], [4], [5]]) ∧
    memberLists (ClusterList.ClusterHierAgglo fuel (1 / 2) 0 .COMPLETELINK sixPoints) =
      some (0, [[0], [1], [2], [3], [4], [5]]) := by
  have key : ∀ (epsilon : ℚ) (targetN : Int) (linkage : LINKAGETYPE) (res : List (List Nat)),
      memberLists (ClusterList.ClusterHierAgglo 6 epsilon targetN linkage sixPoints) =
        some (0, res) →
      memberLists (ClusterList.ClusterHierAgglo fuel epsilon targetN linkage sixPoints) =
        some (0, res) := by
    intro epsilon targetN linkage res h
    unfold ClusterList.ClusterHierAgglo at h ⊢
    cases hl : ClusterList.mergeLoop epsilon targetN linkage 6
        (ClusterList.InitializeClusterDistances linkage (ClusterList.buildInitial sixPoints)) with
    | none => rw [hl] at h; simp [memberLists] at h
    | some r =>
      rw [hl] at h
      rw [ClusterList.mergeLoop_mono epsilon targetN linkage 6 _ r hl fuel hfuel]
      exact h
  exact ⟨key _ _ _ _ (by decide!), key _ _ _ _ (by decide!), key _ _ _ _ (by decide!),
    key _ _ _ _ (by decide!), key _ _ _ _ (by decide!), key _ _ _ _ (by decide!),
    key _ _ _ _ (by decide!)⟩

/-- C3 with exactly six iterations allowed. -/
theorem C3_six_points_witness :
    memberLists (ClusterList.ClusterHierAgglo 6 2 0 .SINGLELINK sixPoints) =
      some (0, [[0, 1, 2], [3, 4, 5]]) ∧
    memberLists (ClusterList.ClusterHierAgglo 6 2 (-1) .SINGLELINK sixPoints) =
      some (0, [[0, 1, 2], [3, 4, 5]]) ∧
    memberLists (ClusterList.ClusterHierAgglo 6 2 0 .COMPLETELINK sixPoints) =
      some (0, [[0, 1, 2], [3, 4, 5]]) ∧
    memberLists (ClusterList.ClusterHierAgglo 6 2 (-1) .COMPLETELINK sixPoints) =
      some (0, [[0, 1, 2], [3, 4, 5]]) ∧
    memberLists (ClusterList.ClusterHierAgglo 6 (1 / 2) 0 .SINGLELINK sixPoints) =
      some (0, [[0], [1], [2], [3], [4], [5]]) ∧
    memberLists (ClusterList.ClusterHierAgglo 6 (1 / 2) (-1) .SINGLELINK sixPoints) =
      some (0, [[0], [1], [2], [3], [4], [5]]) ∧
    memberLists (ClusterList.ClusterHierAgglo 6 (1 / 2) 0 .COMPLETELINK sixPoints) =
      some (0, [[0], [1], [2], [3], [4], [5]]) :=
  C3_six_points_on_a_line 6 (by decide)

/-- C6, as stated, fails: three frames at positions `0,1,2`, single linkage,
`epsilon = 2` and a target of `5` clusters. The target is already met before
the first merge, yet one merge is performed and two clusters are returned,
fewer than `min 5 3 = 3`. -/
theorem C6_target_count_counterexample :
    memberLists (ClusterList.ClusterHierAgglo 4 2 5 .SINGLELINK
        (freshList (lineMatrix [0, 1, 2]))) = some (0, [[0, 1], [2]]) ∧
    (ClusterList.nonIgnoredFrames (freshList (lineMatrix [0, 1, 2])).FrameDistances_).length = 3 ∧
    ¬ (min (5 : Int) ((ClusterList.nonIgnoredFrames (freshList (lineMatrix [0, 1, 2])).FrameDistances_).length : Int)
        ≤ (([[0, 1], [2]] : List (List Nat)).length : Int)) := by
  refine ⟨by decide!, by decide, by decide⟩

/-- C6, amended. For every frame matrix with `k` non-ignored frames, every
linkage, `epsilon` and target count `t`, `ClusterHierAgglo` (with more than `k`
iterations allowed) returns, and the number of clusters it returns is never
smaller than `min t (k - 1)`: the target is tested only after a merge. In
particular with more than `t` non-ignored frames it is never smaller than
`t`. -/
theorem C6_target_count_lower_bound {γ : Type} (fuel : Nat) (epsilon : ℚ) (t : Int)
    (linkage : LINKAGETYPE) (cl0 : ClusterList γ) (h0 : cl0.clusters_ = [])
    (hfuel : (ClusterList.nonIgnoredFrames cl0.FrameDistances_).length < fuel) :
    ∃ st, ClusterList.ClusterHierAgglo fuel epsilon t linkage cl0 = some (0, st) ∧
      min t (((ClusterList.nonIgnoredFrames cl0.FrameDistances_).length : Int) - 1) ≤ (st.Nclusters : Int) ∧
      (t < ((ClusterList.nonIgnoredFrames cl0.FrameDistances_).length : Int) → t ≤ (st.Nclusters : Int)) := by
  have hk := ClusterList.Nclusters_init linkage cl0 h0
  obtain ⟨st, hres, _, hmin⟩ := ClusterList.mergeLoop_spec epsilon t linkage fuel
    (ClusterList.InitializeClusterDistances linkage (ClusterList.buildInitial cl0))
    (by rw [hk]; exact hfuel)
  rw [hk] at hmin
  refine ⟨st, ?_, hmin, ?_⟩
  · unfold ClusterList.ClusterHierAgglo
    rw [hres]
    rfl
  · intro hlt
    have : min t (((ClusterList.nonIgnoredFrames cl0.FrameDistances_).length : Int) - 1) = t := by
      apply min_eq_left
      omega
    omega

/-- C6, amended, at three frames on a line with a target of `5` clusters. -/
theorem C6_target_count_lower_bound_witness :
    ∃ st, ClusterList.ClusterHierAgglo 4 2 5 .SINGLELINK (freshList (lineMatrix [0, 1, 2])) =
        some (0, st) ∧
      min (5 : Int) (((ClusterList.nonIgnoredFrames (freshList (lineMatrix [0, 1, 2])).FrameDistances_).length : Int) - 1)
        ≤ (st.Nclusters : Int) ∧
      ((5 : Int) < ((ClusterList.nonIgnoredFrames (freshList (lineMatrix [0, 1, 2])).FrameDistances_).length : Int) →
        (5 : Int) ≤ (st.Nclusters : Int)) :=
  C6_target_count_lower_bound 4 2 5 .SINGLELINK (freshList (lineMatrix [0, 1, 2])) rfl (by decide)

/-- C7. `ClusterHierAgglo` has no error exit: whenever it returns, the return
code is `0`. On a frame matrix with a single frame, and on one with no frame
at all, it returns `0` (success) with one cluster, respectively none, where a
setup error was to be reported. -/
theorem C7_fewer_than_two_frames_returns_zero :
    (∀ {γ : Type} (fuel : Nat) (epsilon : ℚ) (targetN : Int) (linkage : LINKAGETYPE)
      (cl0 : ClusterList γ) (r : Int × ClusterList γ),
      ClusterList.ClusterHierAgglo fuel epsilon targetN linkage cl0 = some r → r.1 = 0) ∧
    memberLists (ClusterList.ClusterHierAgglo 1 2 0 .SINGLELINK (freshList (lineMatrix [0]))) =
      some (0, [[0]]) ∧
    memberLists (ClusterList.ClusterHierAgglo 1 2 0 .SINGLELINK (freshList (lineMatrix []))) =
      some (0, []) := by
  refine ⟨?_, by decide!, by decide!⟩
  intro γ fuel epsilon targetN linkage cl0 r h
  unfold ClusterList.ClusterHierAgglo at h
  cases hl : ClusterList.mergeLoop epsilon targetN linkage fuel
      (ClusterList.InitializeClusterDistances linkage (ClusterList.buildInitial cl0)) with
  | none => rw [hl] at h; simp at h
  | some st =>
    rw [hl] at h
    simp only [Option.map_some', Option.some.injEq] at h
    rw [← h]

/-! ## Sieving -/

namespace ClusterList

variable {γ : Type}

/-- The sieve loop after `n` frames: `tgtframe` is the first multiple of the
stride not below `n`, and the rows ignored so far are those ignored before
and the frames below `n` that are not multiples of the stride. -/
theorem sieve_fold (sieve : Int) (hs : 1 < sieve) (m : ClusterMatrix) (n : Nat) :
    sieve ∣ ((List.range n).foldl (sieveStep sieve) (0, m)).1 ∧
    (n : Int) ≤ ((List.range n).foldl (sieveStep sieve) (0, m)).1 ∧
    ((List.range n).foldl (sieveStep sieve) (0, m)).1 < (n : Int) + sieve ∧
    ((List.range n).foldl (sieveStep sieve) (0, m)).2.nrows_ = m.nrows_ ∧
    ((List.range n).foldl (sieveStep sieve) (0, m)).2.elements_ = m.elements_ ∧
    ∀ i, ((List.range n).foldl (sieveStep sieve) (0, m)).2.IgnoringRow i =
      (m.IgnoringRow i || (decide (i < n) && decide ((i : Int) % sieve ≠ 0))) := by
  induction n with
  | zero =>
    refine ⟨by simp, by simp, by simpa using (by omega : (0 : Int) < sieve), rfl, rfl, ?_⟩
    intro i
    simp
  | succ n ih =>
    rw [List.range_succ, List.foldl_append, List.foldl_cons, List.foldl_nil]
    generalize (List.range n).foldl (sieveStep sieve) (0, m) = r at ih ⊢
    obtain ⟨tgt, mat⟩ := r
    obtain ⟨hdvd, hge, hlt, hrows, helts, hign⟩ := ih
    simp only at hdvd hge hlt hrows helts hign
    unfold sieveStep
    simp only
    by_cases htgt : tgt = (n : Int)
    · simp only [htgt, if_true]
      subst htgt
      refine ⟨dvd_add hdvd (dvd_refl _), by push_cast; omega, by push_cast; omega, hrows,
        helts, ?_⟩
      intro i
      rw [hign i]
      by_cases hin : i = n
      · subst hin
        have : (i : Int) % sieve = 0 := Int.emod_eq_zero_of_dvd hdvd
        simp [this]
      · have : (i < n + 1) = (i < n) := by
          apply propext
          constructor <;> intro h <;> omega
        simp only [this]
    · simp only [htgt, if_false]
      refine ⟨hdvd, by push_cast; omega, by push_cast; omega, hrows, helts, ?_⟩
      intro i
      unfold ClusterMatrix.IgnoringRow ClusterMatrix.Ignore
      simp only
      by_cases hin : i = n
      · subst hin
        have hnd : ¬ sieve ∣ (i : Int) := by
          intro hdn
          have hsub : sieve ∣ tgt - (i : Int) := dvd_sub hdvd hdn
          have hpos : 0 < tgt - (i : Int) := by omega
          have := Int.le_of_dvd hpos hsub
          omega
        have hmod : (i : Int) % sieve ≠ 0 := fun h => hnd (Int.dvd_of_emod_eq_zero h)
        simp [hmod]
      · have h1 := hign i
        unfold ClusterMatrix.IgnoringRow at h1
        have : (i < n + 1) = (i < n) := by
          apply propext
          constructor <;> intro h <;> omega
        simp only [hin, if_false, h1, this]

/-- The sieve block of `CalcFrameDistances`. -/
theorem sieveIgnore_spec (sieve : Int) (size : Nat) (m : ClusterMatrix) :
    (1 < sieve → ∀ i, (sieveIgnore sieve size m).IgnoringRow i =
      (m.IgnoringRow i || (decide (i < size) && decide ((i : Int) % sieve ≠ 0)))) ∧
    (sieve ≤ 1 → sieveIgnore sieve size m = m) := by
  constructor
  · intro hs i
    unfold sieveIgnore
    rw [if_pos hs]
    exact (sieve_fold sieve hs m size).2.2.2.2.2 i
  · intro hs
    unfold sieveIgnore
    rw [if_neg (by omega)]

end ClusterList

/-- C10. For a data set of `N` frames and a sieve stride `s > 1`,
`CalcFrameDistances` returns `0` and marks as ignored exactly the rows `i < N`
with `i mod s ≠ 0`: a row is ignored afterwards iff the pairwise matrix had it
ignored already or `i < N` and `i mod s ≠ 0`; so of the rows of a matrix with
nothing ignored the non-ignored ones are the multiples of `s` from `0` on. For
`s ≤ 1` no row is marked: the matrix is the pairwise matrix. -/
theorem C10_sieve_ignores_non_multiples {γ : Type} (cl : ClusterList γ) (N : Nat)
    (Cdist : ClusterDist γ) (pairwise : ClusterMatrix) (s : Int) :
    (ClusterList.CalcFrameDistances cl (some N) Cdist pairwise s).1 = 0 ∧
    (1 < s → ∀ i,
      (ClusterList.CalcFrameDistances cl (some N) Cdist pairwise s).2.FrameDistances_.IgnoringRow i =
        (pairwise.IgnoringRow i || (decide (i < N) && decide ((i : Int) % s ≠ 0)))) ∧
    (1 < s → (∀ i, pairwise.IgnoringRow i = false) → ∀ i, i < N →
      ((ClusterList.CalcFrameDistances cl (some N) Cdist pairwise s).2.FrameDistances_.IgnoringRow i
        = false ↔ (i : Int) % s = 0)) ∧
    (s ≤ 1 →
      (ClusterList.CalcFrameDistances cl (some N) Cdist pairwise s).2.FrameDistances_ = pairwise) := by
  obtain ⟨h1, h2⟩ := ClusterList.sieveIgnore_spec s N pairwise
  refine ⟨rfl, h1, ?_, h2⟩
  intro hs hfresh i hi
  have := h1 hs i
  simp only [ClusterList.CalcFrameDistances]
  rw [this, hfresh i]
  simp [hi]

/-- C10 at seven frames with stride `3`: frame `4` is ignored, frame `6` is
not. -/
theorem C10_sieve_witness :
    (ClusterList.CalcFrameDistances (freshList (lineMatrix [])) (some 7) unitDist
        (lineMatrix [0, 1, 2, 3, 4, 5, 6]) 3).2.FrameDistances_.IgnoringRow 4 =
      ((lineMatrix [0, 1, 2, 3, 4, 5, 6]).IgnoringRow 4 ||
        (decide (4 < 7) && decide (((4 : Nat) : Int) % 3 ≠ 0))) ∧
    ((ClusterList.CalcFrameDistances (freshList (lineMatrix [])) (some 7) unitDist
        (lineMatrix [0, 1, 2, 3, 4, 5, 6]) 3).2.FrameDistances_.IgnoringRow 6 = false ↔
      ((6 : Nat) : Int) % 3 = 0) :=
  ⟨(C10_sieve_ignores_non_multiples (freshList (lineMatrix [])) 7 unitDist
      (lineMatrix [0, 1, 2, 3, 4, 5, 6]) 3).2.1 (by decide) 4,
   (C10_sieve_ignores_non_multiples (freshList (lineMatrix [])) 7 unitDist
      (lineMatrix [0, 1, 2, 3, 4, 5, 6]) 3).2.2.1 (by decide) (fun _ => rfl) 6 (by decide)⟩

/-! ## Restoring sieved frames -/

namespace ClusterList

variable {γ : Type}

/-- The closest-centroid search either keeps its start value, when no cluster
is strictly closer, or ends on the first cluster attaining the smallest
centroid distance. -/
theorem closestFrom_spec (Cdist : ClusterDist γ) (frame : Nat) :
    ∀ (l : List (ClusterNode γ)) (pos : Nat) (acc : ℚ × Option Nat),
      (closestFrom Cdist frame l pos acc = acc ∧
        ∀ c ∈ l, acc.1 ≤ Cdist.FrameCentroidDist frame c.Cent) ∨
      (∃ i c, l.get? i = some c ∧
        closestFrom Cdist frame l pos acc =
          (Cdist.FrameCentroidDist frame c.Cent, some (pos + i)) ∧
        Cdist.FrameCentroidDist frame c.Cent < acc.1 ∧
        (∀ j cj, l.get? j = some cj →
          Cdist.FrameCentroidDist frame c.Cent ≤ Cdist.FrameCentroidDist frame cj.Cent) ∧
        (∀ j cj, j < i → l.get? j = some cj →
          Cdist.FrameCentroidDist frame c.Cent < Cdist.FrameCentroidDist frame cj.Cent)) := by
  intro l
  induction l with
  | nil =>
    intro pos acc
    exact Or.inl ⟨rfl, by simp⟩
  | cons C rest ih =>
    intro pos acc
    unfold closestFrom
    by_cases hC : Cdist.FrameCentroidDist frame C.Cent < acc.1
    · simp only [hC, if_true]
      rcases ih (pos + 1) (Cdist.FrameCentroidDist frame C.Cent, some pos) with
        ⟨heq, hall⟩ | ⟨i, c, hget, heq, hlt, hmin, hfirst⟩
      · refine Or.inr ⟨0, C, rfl, by rw [heq]; rfl, hC, ?_, ?_⟩
        · intro j cj hj
          cases j with
          | zero =>
            simp only [List.get?_cons_zero, Option.some.injEq] at hj
            rw [hj]
          | succ j =>
            simp only [List.get?_cons_succ] at hj
            exact hall cj (List.get?_mem hj)
        · intro j cj hj
          omega
      · refine Or.inr ⟨i + 1, c, by simpa using hget, by rw [heq]; congr 2; omega,
          lt_trans hlt hC, ?_, ?_⟩
        · intro j cj hj
          cases j with
          | zero =>
            simp only [List.get?_cons_zero, Option.some.injEq] at hj
            rw [← hj]
            exact le_of_lt hlt
          | succ j =>
            simp only [List.get?_cons_succ] at hj
            exact hmin j cj hj
        · intro j cj hji hj
          cases j with
          | zero =>
            simp only [List.get?_cons_zero, Option.some.injEq] at hj
            rw [← hj]
            exact hlt
          | succ j =>
            simp only [List.get?_cons_succ] at hj
            exact hfirst j cj (by omega) hj
    · simp only [hC, if_false]
      rcases ih (pos + 1) acc with ⟨heq, hall⟩ | ⟨i, c, hget, heq, hlt, hmin, hfirst⟩
      · refine Or.inl ⟨heq, ?_⟩
        intro c hc
        rcases List.mem_cons.1 hc with rfl | hc
        · exact not_lt.1 hC
        · exact hall c hc
      · refine Or.inr ⟨i + 1, c, by simpa using hget, by rw [heq]; congr 2; omega, hlt, ?_, ?_⟩
        · intro j cj hj
          cases j with
          | zero =>
            simp only [List.get?_cons_zero, Option.some.injEq] at hj
            rw [← hj]
            exact le_of_lt (lt_of_lt_of_le hlt (not_lt.1 hC))
          | succ j =>
            simp only [List.get?_cons_succ] at hj
            exact hmin j cj hj
        · intro j cj hji hj
          cases j with
          | zero =>
            simp only [List.get?_cons_zero, Option.some.injEq] at hj
            rw [← hj]
            exact lt_of_lt_of_le hlt (not_lt.1 hC)
          | succ j =>
            simp only [List.get?_cons_succ] at hj
            exact hfirst j cj (by omega) hj

/-- The search reads the clusters through their centroids only. -/
theorem closestFrom_congr (Cdist : ClusterDist γ) (frame : Nat) :
    ∀ (l l' : List (ClusterNode γ)) (pos : Nat) (acc : ℚ × Option Nat),
      l.map ClusterNode.Cent = l'.map ClusterNode.Cent →
      closestFrom Cdist frame l pos acc = closestFrom Cdist frame l' pos acc := by
  intro l
  induction l with
  | nil =>
    intro l' pos acc h
    cases l' with
    | nil => rfl
    | cons a t => simp at h
  | cons C rest ih =>
    intro l' pos acc h
    cases l' with
    | nil => simp at h
    | cons C' rest' =>
      simp only [List.map_cons, List.cons.injEq] at h
      unfold closestFrom
      rw [h.1]
      exact ih rest' _ _ h.2

/-- When some cluster has its centroid closer than `DBL_MAX`, the search ends
on the first cluster attaining the smallest distance. -/
theorem closestNode_spec (Cdist : ClusterDist γ) (frame : Nat) (l : List (ClusterNode γ))
    (hnear : ∃ c ∈ l, Cdist.FrameCentroidDist frame c.Cent < DBL_MAX) :
    ∃ i c, l.get? i = some c ∧ (closestNode Cdist l frame).2 = some i ∧
      (∀ j cj, l.get? j = some cj →
        Cdist.FrameCentroidDist frame c.Cent ≤ Cdist.FrameCentroidDist frame cj.Cent) ∧
      (∀ j cj, j < i → l.get? j = some cj →
        Cdist.FrameCentroidDist frame c.Cent < Cdist.FrameCentroidDist frame cj.Cent) := by
  unfold closestNode
  rcases closestFrom_spec Cdist frame l 0 (DBL_MAX, none) with
    ⟨_, hall⟩ | ⟨i, c, hget, heq, _, hmin, hfirst⟩
  · obtain ⟨c, hc, hlt⟩ := hnear
    exact absurd (hall c hc) (not_le.2 hlt)
  · exact ⟨i, c, hget, by rw [heq]; simp, hmin, hfirst⟩

/-- When no cluster has its centroid closer than `DBL_MAX`, the search ends
without a cluster. -/
theorem closestNode_none (Cdist : ClusterDist γ) (frame : Nat) (l : List (ClusterNode γ))
    (hfar : ∀ c ∈ l, DBL_MAX ≤ Cdist.FrameCentroidDist frame c.Cent) :
    (closestNode Cdist l frame).2 = none := by
  unfold closestNode
  rcases closestFrom_spec Cdist frame l 0 (DBL_MAX, none) with
    ⟨heq, _⟩ | ⟨i, c, hget, _, hlt, _, _⟩
  · rw [heq]
  · exact absurd (hfar c (List.get?_mem hget)) (not_le.2 hlt)

theorem addFrameAt_get? (l : List (ClusterNode γ)) (i f j : Nat) :
    (addFrameAt l i f).get? j =
      (l.get? j).map fun c => if j = i then c.AddFrameToCluster f else c := by
  unfold addFrameAt
  cases hi : l.get? i with
  | none =>
    simp only
    cases hj : l.get? j with
    | none => rfl
    | some c =>
      have : j ≠ i := by
        intro h
        rw [h, hi] at hj
        simp at hj
      simp [this]
  | some ci =>
    simp only [List.get?_eq_getElem?] at hi ⊢
    rw [List.getElem?_set]
    by_cases hji : i = j
    · subst hji
      have hlt : i < l.length := by
        by_contra hge
        rw [List.getElem?_eq_none (by omega)] at hi
        simp at hi
      simp [hlt, hi]
    · have : j ≠ i := fun h => hji h.symm
      simp only [hji, if_false, this]
      cases l[j]? <;> rfl

theorem mem_AddFrameToCluster (c : ClusterNode γ) (f g : Nat) :
    g ∈ (c.AddFrameToCluster f).frameList_ ↔ g = f ∨ g ∈ c.frameList_ := by
  unfold ClusterNode.AddFrameToCluster
  simp only [List.mem_orderedInsert]

end ClusterList

namespace ClusterList

variable {γ : Type}

theorem addFrameAt_length (l : List (ClusterNode γ)) (i f : Nat) :
    (addFrameAt l i f).length = l.length := by
  unfold addFrameAt
  cases l.get? i with
  | none => rfl
  | some c => simp

theorem addFrameAt_map_Cent (l : List (ClusterNode γ)) (i f : Nat) :
    (addFrameAt l i f).map ClusterNode.Cent = l.map ClusterNode.Cent := by
  apply List.ext_get?
  intro j
  rw [List.get?_eq_getElem?, List.get?_eq_getElem?, List.getElem?_map, List.getElem?_map,
    ← List.get?_eq_getElem?, ← List.get?_eq_getElem?, addFrameAt_get?]
  cases l.get? j with
  | none => rfl
  | some c =>
    simp only [Option.map_some']
    split_ifs <;> rfl

/-- The frame loop of `AddSievedFrames` after the frames of `F`: the loop has
not failed, matrices, provider and centroids are as after the refresh, and
the cluster at every position has gained exactly the ignored frames of `F`
whose closest-centroid search ends at that position. -/
theorem addSieved_fold (cl : ClusterList γ) (F : List Nat)
    (hnear : ∀ frame ∈ F, cl.FrameDistances_.IgnoringRow frame = true →
      ∃ c ∈ cl.clusters_,
        cl.Cdist_.FrameCentroidDist frame (cl.Cdist_.CalculateCentroid c.frameList_) < DBL_MAX) :
    ∃ st, F.foldl (fun st frame => st.bind fun s => addSievedStep s frame)
        (some { cl with clusters_ := cl.clusters_.map fun c => c.CalculateCentroid cl.Cdist_ })
        = some st ∧
      st.FrameDistances_ = cl.FrameDistances_ ∧ st.Cdist_ = cl.Cdist_ ∧
      st.ClusterDistances_ = cl.ClusterDistances_ ∧
      st.clusters_.map ClusterNode.Cent =
        (cl.clusters_.map fun c => c.CalculateCentroid cl.Cdist_).map ClusterNode.Cent ∧
      st.clusters_.length = cl.clusters_.length ∧
      ∀ i c, cl.clusters_.get? i = some c →
        ∃ c', st.clusters_.get? i = some c' ∧ c'.Num = c.Num ∧
          ∀ f, f ∈ c'.frameList_ ↔
            f ∈ c.frameList_ ∨
            (f ∈ F ∧ cl.FrameDistances_.IgnoringRow f = true ∧
              (closestNode cl.Cdist_
                (cl.clusters_.map fun c => c.CalculateCentroid cl.Cdist_) f).2 = some i) := by
  induction F using List.reverseRecOn with
  | nil =>
    refine ⟨_, rfl, rfl, rfl, rfl, rfl, by simp, ?_⟩
    intro i c hc
    refine ⟨c.CalculateCentroid cl.Cdist_, ?_, rfl, ?_⟩
    · rw [List.get?_eq_getElem?, List.getElem?_map, ← List.get?_eq_getElem?, hc]
      rfl
    · intro f
      simp [ClusterNode.CalculateCentroid]
  | append_singleton F frame ih =>
    obtain ⟨st, hst, hfd, hcd, hcdm, hcent, hlen, hidx⟩ :=
      ih (fun f hf => hnear f (List.mem_append_left _ hf))
    rw [List.foldl_append, List.foldl_cons, List.foldl_nil, hst]
    simp only [Option.some_bind]
    unfold addSievedStep
    rw [hfd]
    cases hig : cl.FrameDistances_.IgnoringRow frame
    · simp only [Bool.false_eq_true, if_false]
      refine ⟨st, rfl, hfd, hcd, hcdm, hcent, hlen, ?_⟩
      intro i c hc
      obtain ⟨c', hc', hnum, hmem⟩ := hidx i c hc
      refine ⟨c', hc', hnum, ?_⟩
      intro f
      rw [hmem f]
      constructor
      · rintro (h | ⟨h1, h2, h3⟩)
        · exact Or.inl h
        · exact Or.inr ⟨List.mem_append_left _ h1, h2, h3⟩
      · rintro (h | ⟨h1, h2, h3⟩)
        · exact Or.inl h
        · rcases List.mem_append.1 h1 with h1 | h1
          · exact Or.inr ⟨h1, h2, h3⟩
          · rw [List.mem_singleton.1 h1, hig] at h2
            exact absurd h2 (by simp)
    · simp only [if_true]
      have hsel : closestNode st.Cdist_ st.clusters_ frame =
          closestNode cl.Cdist_ (cl.clusters_.map fun c => c.CalculateCentroid cl.Cdist_) frame := by
        unfold closestNode
        rw [hcd]
        exact closestFrom_congr cl.Cdist_ frame _ _ 0 _ hcent
      obtain ⟨c1, hc1, hc1lt⟩ := hnear frame (by simp) hig
      obtain ⟨i0, c0, _, hsel0, _, _⟩ := closestNode_spec cl.Cdist_ frame
        (cl.clusters_.map fun c => c.CalculateCentroid cl.Cdist_)
        ⟨c1.CalculateCentroid cl.Cdist_, List.mem_map.2 ⟨c1, hc1, rfl⟩, hc1lt⟩
      rw [hsel, hsel0]
      simp only
      refine ⟨_, rfl, rfl, hcd, hcdm, ?_, ?_, ?_⟩
      · simp only [addFrameAt_map_Cent]
        exact hcent
      · simp only [addFrameAt_length]
        exact hlen
      · intro i c hc
        obtain ⟨c', hc', hnum, hmem⟩ := hidx i c hc
        simp only [addFrameAt_get?, hc', Option.map_some']
        by_cases hi : i = i0
        · subst hi
          refine ⟨c'.AddFrameToCluster frame, by simp, hnum, ?_⟩
          intro f
          rw [mem_AddFrameToCluster, hmem f]
          constructor
          · rintro (rfl | h | ⟨h1, h2, h3⟩)
            · exact Or.inr ⟨by simp, hig, hsel0⟩
            · exact Or.inl h
            · exact Or.inr ⟨List.mem_append_left _ h1, h2, h3⟩
          · rintro (h | ⟨h1, h2, h3⟩)
            · exact Or.inr (Or.inl h)
            · rcases List.mem_append.1 h1 with h1 | h1
              · exact Or.inr (Or.inr ⟨h1, h2, h3⟩)
              · exact Or.inl (List.mem_singleton.1 h1)
        · refine ⟨c', by simp [hi], hnum, ?_⟩
          intro f
          rw [hmem f]
          constructor
          · rintro (h | ⟨h1, h2, h3⟩)
            · exact Or.inl h
            · exact Or.inr ⟨List.mem_append_left _ h1, h2, h3⟩
          · rintro (h | ⟨h1, h2, h3⟩)
            · exact Or.inl h
            · rcases List.mem_append.1 h1 with h1 | h1
              · exact Or.inr ⟨h1, h2, h3⟩
              · rw [List.mem_singleton.1 h1, hsel0] at h3
                simp only [Option.some.injEq] at h3
                exact absurd h3.symm hi

end ClusterList

namespace ClusterList

variable {γ : Type}

/-- The search over the refreshed clusters, read on the clusters as they were
before the refresh. -/
theorem closestNode_refreshed (cl : ClusterList γ) (frame : Nat)
    (hnear : ∃ c ∈ cl.clusters_,
      cl.Cdist_.FrameCentroidDist frame (cl.Cdist_.CalculateCentroid c.frameList_) < DBL_MAX) :
    ∃ i c, cl.clusters_.get? i = some c ∧
      (closestNode cl.Cdist_
        (cl.clusters_.map fun c => c.CalculateCentroid cl.Cdist_) frame).2 = some i ∧
      (∀ j cj, cl.clusters_.get? j = some cj →
        cl.Cdist_.FrameCentroidDist frame (cl.Cdist_.CalculateCentroid c.frameList_) ≤
          cl.Cdist_.FrameCentroidDist frame (cl.Cdist_.CalculateCentroid cj.frameList_)) ∧
      (∀ j cj, j < i → cl.clusters_.get? j = some cj →
        cl.Cdist_.FrameCentroidDist frame (cl.Cdist_.CalculateCentroid c.frameList_) <
          cl.Cdist_.FrameCentroidDist frame (cl.Cdist_.CalculateCentroid cj.frameList_)) := by
  obtain ⟨c1, hc1, hc1lt⟩ := hnear
  obtain ⟨i, c, hget, hsel, hmin, hfirst⟩ := closestNode_spec cl.Cdist_ frame
    (cl.clusters_.map fun c => c.CalculateCentroid cl.Cdist_)
    ⟨c1.CalculateCentroid cl.Cdist_, List.mem_map.2 ⟨c1, hc1, rfl⟩, hc1lt⟩
  have hmap : ∀ j, (cl.clusters_.map fun c => c.CalculateCentroid cl.Cdist_).get? j =
      (cl.clusters_.get? j).map fun c => c.CalculateCentroid cl.Cdist_ := by
    intro j
    rw [List.get?_eq_getElem?, List.getElem?_map, ← List.get?_eq_getElem?]
  rw [hmap i] at hget
  cases hci : cl.clusters_.get? i with
  | none => rw [hci] at hget; simp at hget
  | some c0 =>
    rw [hci] at hget
    simp only [Option.map_some', Option.some.injEq] at hget
    subst hget
    refine ⟨i, c0, hci, hsel, ?_, ?_⟩
    · intro j cj hj
      exact hmin j (cj.CalculateCentroid cl.Cdist_) (by rw [hmap j, hj]; rfl)
    · intro j cj hji hj
      exact hfirst j (cj.CalculateCentroid cl.Cdist_) hji (by rw [hmap j, hj]; rfl)

end ClusterList

/-- C8, as stated, fails: with one live cluster `{0}`, frame `1` ignored and a
provider that reports the distance `DBL_MAX`, the comparison `dist < mindist`
never holds, `minNode` stays `end()` and `AddSievedFrames` has no defined
result in which frame `1` would be a member of a cluster. -/
theorem C8_restore_counterexample :
    farList.clusters_.length = 1 ∧ farList.FrameDistances_.IgnoringRow 1 = true ∧
    memberListsOf (ClusterList.AddSievedFrames farList) = none := by
  refine ⟨by decide, by decide, by decide!⟩

/-- C8, amended. In every state in which each ignored frame has a live cluster
whose centroid is closer than `DBL_MAX`, `AddSievedFrames` leaves the frame
matrix and the number of clusters as they were, every frame whose row is
ignored is afterwards a member of some cluster, and every frame that was a
member of a cluster is still a member of that same cluster (same position,
same number); so once the non-ignored frames were covered, all `N` frames
are. -/
theorem C8_restore_covers_and_keeps {γ : Type} (cl : ClusterList γ)
    (hnear : ∀ frame, frame < cl.FrameDistances_.Nrows →
      cl.FrameDistances_.IgnoringRow frame = true →
      ∃ c ∈ cl.clusters_,
        cl.Cdist_.FrameCentroidDist frame (cl.Cdist_.CalculateCentroid c.frameList_) < DBL_MAX) :
    ∃ st, ClusterList.AddSievedFrames cl = some st ∧
      st.FrameDistances_ = cl.FrameDistances_ ∧
      st.clusters_.length = cl.clusters_.length ∧
      (∀ frame, frame < cl.FrameDistances_.Nrows →
        cl.FrameDistances_.IgnoringRow frame = true →
        ∃ c ∈ st.clusters_, frame ∈ c.frameList_) ∧
      (∀ i c, cl.clusters_.get? i = some c →
        ∃ c', st.clusters_.get? i = some c' ∧ c'.Num = c.Num ∧
          ∀ f ∈ c.frameList_, f ∈ c'.frameList_) ∧
      ((∀ frame, frame < cl.FrameDistances_.Nrows →
          cl.FrameDistances_.IgnoringRow frame = false →
          ∃ c ∈ cl.clusters_, frame ∈ c.frameList_) →
        ∀ frame, frame < cl.FrameDistances_.Nrows → ∃ c ∈ st.clusters_, frame ∈ c.frameList_) := by
  obtain ⟨st, hst, hfd, _, _, _, hlen, hidx⟩ :=
    ClusterList.addSieved_fold cl (List.range cl.FrameDistances_.Nrows)
      (fun frame hf => hnear frame (List.mem_range.1 hf))
  have hkeep : ∀ i c, cl.clusters_.get? i = some c →
      ∃ c', st.clusters_.get? i = some c' ∧ c'.Num = c.Num ∧
        ∀ f ∈ c.frameList_, f ∈ c'.frameList_ := by
    intro i c hc
    obtain ⟨c', hc', hnum, hmem⟩ := hidx i c hc
    exact ⟨c', hc', hnum, fun f hf => (hmem f).2 (Or.inl hf)⟩
  have hcover : ∀ frame, frame < cl.FrameDistances_.Nrows →
      cl.FrameDistances_.IgnoringRow frame = true →
      ∃ c ∈ st.clusters_, frame ∈ c.frameList_ := by
    intro frame hlt hig
    obtain ⟨i, c, hget, hsel, _, _⟩ :=
      ClusterList.closestNode_refreshed cl frame (hnear frame hlt hig)
    obtain ⟨c', hc', _, hmem⟩ := hidx i c hget
    exact ⟨c', List.get?_mem hc', (hmem frame).2 (Or.inr ⟨List.mem_range.2 hlt, hig, hsel⟩)⟩
  refine ⟨st, hst, hfd, hlen, hcover, hkeep, ?_⟩
  intro hold frame hlt
  cases hig : cl.FrameDistances_.IgnoringRow frame
  · obtain ⟨c, hc, hf⟩ := hold frame hlt hig
    obtain ⟨i, hi⟩ := List.get?_of_mem hc
    obtain ⟨c', hc', _, hmem⟩ := hkeep i c hi
    exact ⟨c', List.get?_mem hc', hmem frame hf⟩
  · exact hcover frame hlt hig

/-- C9, as stated, fails: with the clusters `{0}` and `{1}`, frame `2` ignored
and both centroid distances equal to `DBL_MAX`, the minimal centroid distance
is attained by both clusters and cluster `0` comes first, but the comparison
`dist < mindist` never holds and frame `2` is not added to it:
`AddSievedFrames` has no defined result. -/
theorem C9_closest_centroid_counterexample :
    farListTwo.FrameDistances_.IgnoringRow 2 = true ∧
    (farListTwo.clusters_.map fun c =>
      farListTwo.Cdist_.FrameCentroidDist 2 (farListTwo.Cdist_.CalculateCentroid c.frameList_)) =
      [DBL_MAX, DBL_MAX] ∧
    memberListsOf (ClusterList.AddSievedFrames farListTwo) = none := by
  refine ⟨by decide, by decide!, by decide!⟩

/-- C9, amended. In every state in which each ignored frame has a live cluster
whose centroid is closer than `DBL_MAX`, `AddSievedFrames` adds each ignored
frame `f` to the cluster at the position `i` whose distance
`FrameCentroidDist(f, centroid)` to the refreshed centroid is minimal over all
live clusters, the first such position in the iteration order of the list
(every earlier cluster is strictly farther), and to no other cluster. -/
theorem C9_added_to_first_closest_centroid {γ : Type} (cl : ClusterList γ)
    (hnear : ∀ frame, frame < cl.FrameDistances_.Nrows →
      cl.FrameDistances_.IgnoringRow frame = true →
      ∃ c ∈ cl.clusters_,
        cl.Cdist_.FrameCentroidDist frame (cl.Cdist_.CalculateCentroid c.frameList_) < DBL_MAX) :
    ∃ st, ClusterList.AddSievedFrames cl = some st ∧
      ∀ frame, frame < cl.FrameDistances_.Nrows →
        cl.FrameDistances_.IgnoringRow frame = true →
        ∃ i c c', cl.clusters_.get? i = some c ∧ st.clusters_.get? i = some c' ∧
          frame ∈ c'.frameList_ ∧
          (∀ j cj, cl.clusters_.get? j = some cj →
            cl.Cdist_.FrameCentroidDist frame (cl.Cdist_.CalculateCentroid c.frameList_) ≤
              cl.Cdist_.FrameCentroidDist frame (cl.Cdist_.CalculateCentroid cj.frameList_)) ∧
          (∀ j cj, j < i → cl.clusters_.get? j = some cj →
            cl.Cdist_.FrameCentroidDist frame (cl.Cdist_.CalculateCentroid c.frameList_) <
              cl.Cdist_.FrameCentroidDist frame (cl.Cdist_.CalculateCentroid cj.frameList_)) ∧
          (∀ j cj cj', j ≠ i → cl.clusters_.get? j = some cj → st.clusters_.get? j = some cj' →
            frame ∈ cj'.frameList_ → frame ∈ cj.frameList_) := by
  obtain ⟨st, hst, _, _, _, _, _, hidx⟩ :=
    ClusterList.addSieved_fold cl (List.range cl.FrameDistances_.Nrows)
      (fun frame hf => hnear frame (List.mem_range.1 hf))
  refine ⟨st, hst, ?_⟩
  intro frame hlt hig
  obtain ⟨i, c, hget, hsel, hmin, hfirst⟩ :=
    ClusterList.closestNode_refreshed cl frame (hnear frame hlt hig)
  obtain ⟨c', hc', _, hmem⟩ := hidx i c hget
  refine ⟨i, c, c', hget, hc', (hmem frame).2 (Or.inr ⟨List.mem_range.2 hlt, hig, hsel⟩),
    hmin, hfirst, ?_⟩
  intro j cj cj' hji hj hj' hin
  obtain ⟨cj'', hcj'', _, hmemj⟩ := hidx j cj hj
  rw [hj'] at hcj''
  simp only [Option.some.injEq] at hcj''
  subst hcj''
  rcases (hmemj frame).1 hin with h | ⟨_, _, h3⟩
  · exact h
  · rw [hsel] at h3
    simp only [Option.some.injEq] at h3
    exact absurd h3.symm hji

/-- The sieved six points have every ignored frame closer than `DBL_MAX` to a
cluster; restoring them gives `{0,1,2}` and `{3,4,5}`. -/
theorem sievedLine_restored :
    memberListsOf (ClusterList.AddSievedFrames sievedLine) = some [[0, 1, 2], [3, 4, 5]] := by
  decide!

/-- C8, amended, at the sieved six points on a line. -/
theorem C8_restore_witness :
    ∃ st, ClusterList.AddSievedFrames sievedLine = some st ∧
      st.FrameDistances_ = sievedLine.FrameDistances_ ∧
      st.clusters_.length = sievedLine.clusters_.length ∧
      (∀ frame, frame < sievedLine.FrameDistances_.Nrows →
        sievedLine.FrameDistances_.IgnoringRow frame = true →
        ∃ c ∈ st.clusters_, frame ∈ c.frameList_) ∧
      (∀ i c, sievedLine.clusters_.get? i = some c →
        ∃ c', st.clusters_.get? i = some c' ∧ c'.Num = c.Num ∧
          ∀ f ∈ c.frameList_, f ∈ c'.frameList_) ∧
      ((∀ frame, frame < sievedLine.FrameDistances_.Nrows →
          sievedLine.FrameDistances_.IgnoringRow frame = false →
          ∃ c ∈ sievedLine.clusters_, frame ∈ c.frameList_) →
        ∀ frame, frame < sievedLine.FrameDistances_.Nrows →
          ∃ c ∈ st.clusters_, frame ∈ c.frameList_) :=
  C8_restore_covers_and_keeps sievedLine (by decide!)

/-- C9, amended, at the sieved six points on a line. -/
theorem C9_closest_centroid_witness :
    ∃ st, ClusterList.AddSievedFrames sievedLine = some st ∧
      ∀ frame, frame < sievedLine.FrameDistances_.Nrows →
        sievedLine.FrameDistances_.IgnoringRow frame = true →
        ∃ i c c', sievedLine.clusters_.get? i = some c ∧ st.clusters_.get? i = some c' ∧
          frame ∈ c'.frameList_ ∧
          (∀ j cj, sievedLine.clusters_.get? j = some cj →
            sievedLine.Cdist_.FrameCentroidDist frame
                (sievedLine.Cdist_.CalculateCentroid c.frameList_) ≤
              sievedLine.Cdist_.FrameCentroidDist frame
                (sievedLine.Cdist_.CalculateCentroid cj.frameList_)) ∧
          (∀ j cj, j < i → sievedLine.clusters_.get? j = some cj →
            sievedLine.Cdist_.FrameCentroidDist frame
                (sievedLine.Cdist_.CalculateCentroid c.frameList_) <
              sievedLine.Cdist_.FrameCentroidDist frame
                (sievedLine.Cdist_.CalculateCentroid cj.frameList_)) ∧
          (∀ j cj cj', j ≠ i → sievedLine.clusters_.get? j = some cj →
            st.clusters_.get? j = some cj' →
            frame ∈ cj'.frameList_ → frame ∈ cj.frameList_) :=
  C9_added_to_first_closest_centroid sievedLine (by decide!)

/-! ## Renumbering -/

namespace ClusterList

variable {γ : Type}

theorem FindCentroidFrame_keeps (c : ClusterNode γ) (fd : ClusterMatrix) :
    (c.FindCentroidFrame fd).2.frameList_ = c.frameList_ ∧
    (c.FindCentroidFrame fd).2.num_ = c.num_ := by
  unfold ClusterNode.FindCentroidFrame
  split <;> exact ⟨rfl, rfl⟩

theorem enum_map_snd_eq {α : Type} (l : List α) : l.enum.map Prod.snd = l := by
  rw [List.enum_eq_zip_range]
  exact List.map_snd_zip _ _ (by simp)

end ClusterList

/-- C11. After `Renumber` on `k` clusters the list is ordered by non-increasing
member count, the clusters carry the ids `0,1,...,k-1` in list order, and the
member lists are those from before the call, in another order only. -/
theorem C11_Renumber_sorts_and_renumbers {γ : Type} (cl : ClusterList γ) :
    ((ClusterList.Renumber cl).clusters_.map ClusterNode.Nframes).Pairwise (fun a b => b ≤ a) ∧
    (ClusterList.Renumber cl).clusters_.map ClusterNode.Num = List.range cl.clusters_.length ∧
    ((ClusterList.Renumber cl).clusters_.map fun c => c.frameList_).Perm
      (cl.clusters_.map fun c => c.frameList_) := by
  haveI : IsTotal (ClusterNode γ) (fun a b : ClusterNode γ => ClusterNode.notAfter a b) :=
    ⟨fun a b => Nat.le_total b.Nframes a.Nframes⟩
  haveI : IsTrans (ClusterNode γ) (fun a b : ClusterNode γ => ClusterNode.notAfter a b) :=
    ⟨fun a b c hab hbc => Nat.le_trans hbc hab⟩
  have hsorted := List.sorted_insertionSort (fun a b : ClusterNode γ => ClusterNode.notAfter a b)
    (cl.clusters_.enum.map fun node =>
      node.snd.SetAvgDist (ClusterList.avgClusterDistOf cl node.fst node.snd))
  have hperm := List.perm_insertionSort (fun a b : ClusterNode γ => ClusterNode.notAfter a b)
    (cl.clusters_.enum.map fun node =>
      node.snd.SetAvgDist (ClusterList.avgClusterDistOf cl node.fst node.snd))
  unfold ClusterList.Renumber
  simp only
  generalize List.insertionSort (fun a b : ClusterNode γ => ClusterNode.notAfter a b)
    (cl.clusters_.enum.map fun node =>
      node.snd.SetAvgDist (ClusterList.avgClusterDistOf cl node.fst node.snd)) = sorted
    at hsorted hperm
  have hframes : (sorted.enum.map fun node =>
      ((node.snd.SetNum node.fst).FindCentroidFrame cl.FrameDistances_).2).map
        (fun c => c.frameList_) = sorted.map fun c => c.frameList_ := by
    rw [List.map_map]
    conv_rhs => rw [← ClusterList.enum_map_snd_eq sorted, List.map_map]
    apply List.map_congr_left
    intro node _
    exact (ClusterList.FindCentroidFrame_keeps _ _).1
  have hlen : sorted.length = cl.clusters_.length := by
    have := hperm.length_eq
    simpa using this
  refine ⟨?_, ?_, ?_⟩
  · have : (sorted.enum.map fun node =>
        ((node.snd.SetNum node.fst).FindCentroidFrame cl.FrameDistances_).2).map
          ClusterNode.Nframes = sorted.map ClusterNode.Nframes := by
      have := congrArg (List.map List.length) hframes
      simpa only [List.map_map] using this
    rw [this, List.pairwise_map]
    exact hsorted
  · rw [List.map_map, ← hlen, ← List.enum_map_fst sorted]
    apply List.map_congr_left
    intro node _
    exact (ClusterList.FindCentroidFrame_keeps _ _).2
  · rw [hframes]
    refine (hperm.map _).trans ?_
    rw [List.map_map]
    conv_rhs => rw [← ClusterList.enum_map_snd_eq cl.clusters_, List.map_map]
    exact List.Perm.refl _

/-! ## The Davies-Bouldin index -/

namespace ClusterList

variable {γ : Type}

theorem dbiClusters_renumbered (cl : ClusterList γ) (σ : Nat → Nat) :
    dbiClusters { cl with clusters_ := cl.clusters_.map fun c => c.SetNum (σ c.Num) } =
      (dbiClusters cl).map fun c => c.SetNum (σ c.Num) := by
  unfold dbiClusters
  simp only [List.map_map]
  rfl

theorem dbiAverageDist_renumbered (cl : ClusterList γ) (σ : Nat → Nat) :
    dbiAverageDist { cl with clusters_ := cl.clusters_.map fun c => c.SetNum (σ c.Num) } =
      dbiAverageDist cl := by
  unfold dbiAverageDist
  rw [dbiClusters_renumbered, List.map_map]
  rfl

theorem dbiMaxFred_renumbered (cl : ClusterList γ) (σ : Nat → Nat) (nc1 : Nat)
    (c1 : ClusterNode γ) (k : Nat) :
    dbiMaxFred { cl with clusters_ := cl.clusters_.map fun c => c.SetNum (σ c.Num) } nc1
        (c1.SetNum k) = dbiMaxFred cl nc1 c1 := by
  unfold dbiMaxFred
  rw [dbiAverageDist_renumbered, dbiClusters_renumbered, List.enum_map, List.foldl_map]
  rfl

end ClusterList

/-- C13. `ComputeDBI` does not read the cluster ids: replacing every id `n` by
`σ n`, for any map `σ` (a bijection in particular), with member lists and
centroids as they are, leaves the value of `ComputeDBI` as it was. -/
theorem C13_DBI_invariant_under_renumbering {γ : Type} (cl : ClusterList γ) (σ : Nat → Nat) :
    (ClusterList.ComputeDBI
      { cl with clusters_ := cl.clusters_.map fun c => c.SetNum (σ c.Num) }).1 =
      (ClusterList.ComputeDBI cl).1 := by
  unfold ClusterList.ComputeDBI
  simp only
  rw [ClusterList.dbiClusters_renumbered, List.enum_map, List.foldl_map, List.length_map]
  congr 1
  apply congrArg (fun f => List.foldl f 0 (ClusterList.dbiClusters cl).enum)
  funext DBITotal c1
  exact congrArg (fun x => DBITotal + x)
    (ClusterList.dbiMaxFred_renumbered cl σ c1.fst c1.snd (σ c1.snd.Num))

namespace ClusterList

variable {γ : Type}

theorem foldl_max_ge (vs : List ℚ) (init : ℚ) :
    init ≤ vs.foldl max init ∧ (∀ v ∈ vs, v ≤ vs.foldl max init) ∧
    (vs.foldl max init = init ∨ vs.foldl max init ∈ vs) := by
  induction vs generalizing init with
  | nil => simp
  | cons a vs ih =>
    rw [List.foldl_cons]
    obtain ⟨h1, h2, h3⟩ := ih (max init a)
    refine ⟨le_trans (le_max_left _ _) h1, ?_, ?_⟩
    · intro v hv
      rcases List.mem_cons.1 hv with rfl | hv
      · exact le_trans (le_max_right _ _) h1
      · exact h2 v hv
    · rcases h3 with h | h
      · rcases max_choice init a with hm | hm
        · exact Or.inl (by rw [h, hm])
        · exact Or.inr (by rw [h, hm]; exact List.mem_cons_self _ _)
      · exact Or.inr (List.mem_cons_of_mem _ h)

/-- The value `maxOfList` of a non-empty list is one of its values and bounds
them all. -/
theorem maxOfList_spec (vs : List ℚ) (hne : vs ≠ []) :
    maxOfList vs ∈ vs ∧ ∀ v ∈ vs, v ≤ maxOfList vs := by
  cases vs with
  | nil => exact absurd rfl hne
  | cons a vs =>
    obtain ⟨h1, h2, h3⟩ := foldl_max_ge vs a
    refine ⟨?_, ?_⟩
    · rcases h3 with h | h
      · exact List.mem_cons.2 (Or.inl h)
      · exact List.mem_cons_of_mem _ h
    · intro v hv
      rcases List.mem_cons.1 hv with rfl | hv
      · exact h1
      · exact h2 v hv

end ClusterList

namespace ClusterList

variable {γ : Type}

theorem length_pairDists (g : Nat → Nat → ℚ) (c1 c2 : List Nat) :
    (c1.flatMap fun f1 => c2.map fun f2 => g f1 f2).length = c1.length * c2.length := by
  induction c1 with
  | nil => simp
  | cons a c1 ih =>
    rw [List.flatMap_cons, List.length_append, ih, List.length_map, List.length_cons]
    ring

/-- The double loop of `calcAvgDist` leaves the accumulated sum and the
counter of the frame distances met in loop order. -/
theorem sumDistFrames_eq (fd : ClusterMatrix) (c1 c2 : List Nat) :
    sumDistFrames fd c1 c2 =
      ((c1.flatMap fun f1 => c2.map fun f2 => fd.GetElement f1 f2).foldl dadd 0,
       (c1.flatMap fun f1 => c2.map fun f2 => fd.GetElement f1 f2).foldl
         (fun n _ => dadd n 1) 0) := by
  have e : sumDistFrames fd c1 c2 =
      (c1.flatMap fun f1 => c2.map fun f2 => fd.GetElement f1 f2).foldl
        (fun acc d => (dadd acc.1 d, dadd acc.2 1)) (0, 0) :=
    nested_foldl_eq (fun (acc : ℚ × ℚ) d => (dadd acc.1 d, dadd acc.2 1)) fd.GetElement c1 c2
      (0, 0)
  rw [e, sumFold_eq]

/-- The counter `N` of `calcAvgDist` is the number of member pairs, up to
`2^53` pairs. -/
theorem sumDistFrames_count (fd : ClusterMatrix) (c1 c2 : List Nat)
    (h : c1.length * c2.length ≤ 2 ^ 53) :
    (sumDistFrames fd c1 c2).2 = ((c1.length * c2.length : Nat) : ℚ) := by
  rw [sumDistFrames_eq]
  have := pairCounter_eq (c1.flatMap fun f1 => c2.map fun f2 => fd.GetElement f1 f2) 0
    (by rw [length_pairDists]; omega)
  rw [length_pairDists, Nat.zero_add] at this
  exact_mod_cast this

/-- The counter `N` of `calcAvgDist` is positive for non-empty member lists. -/
theorem sumDistFrames_count_pos (fd : ClusterMatrix) (c1 c2 : List Nat)
    (h1 : c1 ≠ []) (h2 : c2 ≠ []) : 0 < (sumDistFrames fd c1 c2).2 := by
  rw [sumDistFrames_eq]
  exact pairCounter_pos _ 0 (le_refl _) (pairDists_ne_nil fd.GetElement c1 c2 h1 h2)

end ClusterList

/-- C20. What the averaging steps divide by. In `calcAvgDist` the divisor `N`
is the number of member pairs, non-zero for non-empty clusters; in
`ComputeDBI` it is the number of clusters, non-zero when there is a cluster;
in `Renumber` it is `numdist = k - 1`, non-zero for `k ≥ 2` clusters. With
exactly one cluster, however, `Renumber` divides by `numdist = 0` (for that
one cluster): so it is after `ClusterHierAgglo` has merged the three frames at
positions `0,1,2` into the single cluster `{0,1,2}` (`epsilon = 20`). -/
theorem C20_averaging_divisors :
    ((ClusterList.ClusterHierAgglo 4 20 0 .SINGLELINK (freshList (lineMatrix [0, 1, 2]))).map
        fun r => (r.2.clusters_.map (fun c => c.frameList_), ClusterList.Renumber_numdist r.2)) =
      some ([[0, 1, 2]], 0) ∧
    (∀ (fd : ClusterMatrix) (A B : List Nat), A ≠ [] → B ≠ [] →
      (ClusterList.sumDistFrames fd A B).2 ≠ 0) ∧
    (∀ {γ : Type} (cl : ClusterList γ), 2 ≤ cl.clusters_.length →
      ClusterList.Renumber_numdist cl ≠ 0) ∧
    (∀ {γ : Type} (cl : ClusterList γ), 1 ≤ cl.clusters_.length →
      ((ClusterList.dbiClusters cl).length : ℚ) ≠ 0) := by
  refine ⟨by decide!, ?_, ?_, ?_⟩
  · intro fd A B hA hB
    exact ne_of_gt (ClusterList.sumDistFrames_count_pos fd A B hA hB)
  · intro γ cl hk
    unfold ClusterList.Renumber_numdist
    have : cl.clusters_.length - 1 ≠ 0 := by omega
    exact_mod_cast this
  · intro γ cl hk
    unfold ClusterList.dbiClusters
    rw [List.length_map]
    have : cl.clusters_.length ≠ 0 := by omega
    exact_mod_cast this

/-! ## Invariants of the merge phase -/

namespace ClusterList

variable {γ : Type}

/-- Counting the merges does not change the loop. -/
theorem mergeLoopCount_fst (epsilon : ℚ) (targetN : Int) (linkage : LINKAGETYPE) (fuel : Nat) :
    ∀ st : ClusterList γ,
      (mergeLoopCount epsilon targetN linkage fuel st).map Prod.fst =
        mergeLoop epsilon targetN linkage fuel st := by
  induction fuel with
  | zero => intro st; rfl
  | succ fuel ih =>
    intro st
    unfold mergeLoopCount mergeLoop
    generalize MergeClosest epsilon linkage st = p
    obtain ⟨ret, cl1⟩ := p
    simp only
    split_ifs
    · rfl
    · rfl
    · rfl
    · rw [← ih cl1, Option.map_map]
      rfl

/-- A successful `MergeClosest` starts from at least two clusters and keeps the
state well-formed. -/
theorem wellFormed_step (epsilon : ℚ) (linkage : LINKAGETYPE) {st st' : ClusterList γ}
    (hwf : WellFormed st) (hstep : MergeClosest epsilon linkage st = (0, st')) :
    WellFormed st' ∧ 2 ≤ st.Nclusters ∧ st'.Nclusters + 1 = st.Nclusters := by
  obtain ⟨C1, C2, d, hfind, hle⟩ := MergeClosest_zero_inv epsilon linkage st st' hstep
  obtain ⟨A, B, C, n1, n2, hdec, h1, h2, hlt, hA, hB, hC, hres⟩ :=
    MergeClosest_success epsilon linkage hwf hfind hle
  rw [hres] at hstep
  simp only [Prod.mk.injEq, true_and] at hstep
  subst h1 h2
  have hlen : 2 ≤ st.Nclusters := by
    unfold Nclusters
    rw [hdec]
    simp only [List.length_append, List.length_cons]
    omega
  refine ⟨?_, hlen, ?_⟩
  · rw [← hstep]
    exact wellFormed_merged linkage hwf hdec hA hlt hB hC
  · rw [← hstep]
    unfold Nclusters
    rw [(calcDist_keeps _ _ _).1, hdec]
    simp only [List.length_append, List.length_cons]
    omega

/-- From a well-formed state with `n ≥ 1` clusters, `n - 1` iterations are
enough for the merge loop (one is needed at least); the merges and the
clusters left add up to `n`, and at least one cluster is left. -/
theorem mergeLoopCount_spec (epsilon : ℚ) (targetN : Int) (linkage : LINKAGETYPE) (fuel : Nat) :
    ∀ st : ClusterList γ, WellFormed st → 1 ≤ st.Nclusters → st.Nclusters ≤ fuel + 1 →
      1 ≤ fuel →
      ∃ st' merges, mergeLoopCount epsilon targetN linkage fuel st = some (st', merges) ∧
        st'.Nclusters + merges = st.Nclusters ∧ 1 ≤ st'.Nclusters := by
  induction fuel with
  | zero => intro st _ _ _ h; omega
  | succ fuel ih =>
    intro st hwf h1 hfuel _
    unfold mergeLoopCount
    rcases MergeClosest_cases epsilon linkage st with h | ⟨st1, h, _⟩
    · rw [h]
      exact ⟨st, 0, by simp, by omega, h1⟩
    · obtain ⟨hwf1, h2, hlen⟩ := wellFormed_step epsilon linkage hwf h
      rw [h]
      simp only [ne_eq, not_true_eq_false, if_false]
      split_ifs with h3 h4
      · exact ⟨st1, 1, rfl, hlen, by omega⟩
      · exact ⟨st1, 1, rfl, hlen, by omega⟩
      · obtain ⟨st', m, hres, hsum, hone⟩ := ih st1 hwf1 (by omega) (by omega) (by omega)
        refine ⟨st', m + 1, ?_, by omega, hone⟩
        rw [hres]
        rfl

end ClusterList

/-- C16. For every frame matrix with `k ≥ 2` non-ignored frames and every
epsilon, target count and linkage, the merge loop of `ClusterHierAgglo` is over
within `k - 1` iterations: `ClusterHierAgglo` returns with at most `k - 1`
merges done (each merge removes one cluster, the merges and the clusters left
add up to `k`, at least one cluster is left). And when a merge leaves exactly
one live cluster the loop stops there, whatever epsilon and the target are: no
further `MergeClosest` is attempted. -/
theorem C16_merge_loop_terminates {γ : Type} (fuel : Nat) (epsilon : ℚ) (targetN : Int)
    (linkage : LINKAGETYPE) (cl0 : ClusterList γ) (h0 : cl0.clusters_ = [])
    (hk : 2 ≤ (ClusterList.nonIgnoredFrames cl0.FrameDistances_).length)
    (hfuel : (ClusterList.nonIgnoredFrames cl0.FrameDistances_).length - 1 ≤ fuel) :
    (∃ st merges,
      ClusterList.mergeLoopCount epsilon targetN linkage fuel
        (ClusterList.InitializeClusterDistances linkage (ClusterList.buildInitial cl0)) =
          some (st, merges) ∧
      ClusterList.ClusterHierAgglo fuel epsilon targetN linkage cl0 = some (0, st) ∧
      merges ≤ (ClusterList.nonIgnoredFrames cl0.FrameDistances_).length - 1 ∧
      st.Nclusters + merges = (ClusterList.nonIgnoredFrames cl0.FrameDistances_).length ∧
      1 ≤ st.Nclusters) ∧
    (∀ (n : Nat) (st st1 : ClusterList γ),
      ClusterList.MergeClosest epsilon linkage st = (0, st1) → st1.Nclusters = 1 →
      ClusterList.mergeLoopCount epsilon targetN linkage (n + 1) st = some (st1, 1) ∧
      ClusterList.mergeLoop epsilon targetN linkage (n + 1) st = some st1) := by
  have hN := ClusterList.Nclusters_init linkage cl0 h0
  have hwf := ClusterList.wellFormed_init linkage cl0 h0
  constructor
  · obtain ⟨st, m, hres, hsum, hone⟩ := ClusterList.mergeLoopCount_spec epsilon targetN linkage fuel
      (ClusterList.InitializeClusterDistances linkage (ClusterList.buildInitial cl0)) hwf
      (by rw [hN]; omega) (by rw [hN]; omega) (by omega)
    rw [hN] at hsum
    refine ⟨st, m, hres, ?_, by omega, hsum, hone⟩
    unfold ClusterList.ClusterHierAgglo
    rw [← ClusterList.mergeLoopCount_fst, hres]
    rfl
  · intro n st st1 hstep hone
    constructor
    · unfold ClusterList.mergeLoopCount
      rw [hstep]
      simp only [ne_eq, not_true_eq_false, if_false, hone, if_true]
      split_ifs <;> rfl
    · unfold ClusterList.mergeLoop
      rw [hstep]
      simp only [ne_eq, not_true_eq_false, if_false, hone, if_true]
      split_ifs <;> rfl

/-- C16 at the six points on a line, single linkage, `epsilon = 20` (all frames
end in one cluster), five iterations. -/
theorem C16_merge_loop_witness :
    (∃ st merges,
      ClusterList.mergeLoopCount 20 0 .SINGLELINK 5
        (ClusterList.InitializeClusterDistances .SINGLELINK (ClusterList.buildInitial sixPoints)) =
          some (st, merges) ∧
      ClusterList.ClusterHierAgglo 5 20 0 .SINGLELINK sixPoints = some (0, st) ∧
      merges ≤ (ClusterList.nonIgnoredFrames sixPoints.FrameDistances_).length - 1 ∧
      st.Nclusters + merges = (ClusterList.nonIgnoredFrames sixPoints.FrameDistances_).length ∧
      1 ≤ st.Nclusters) ∧
    (∀ (n : Nat) (st st1 : ClusterList Unit),
      ClusterList.MergeClosest 20 .SINGLELINK st = (0, st1) → st1.Nclusters = 1 →
      ClusterList.mergeLoopCount 20 0 .SINGLELINK (n + 1) st = some (st1, 1) ∧
      ClusterList.mergeLoop 20 0 .SINGLELINK (n + 1) st = some st1) :=
  C16_merge_loop_terminates 5 20 0 .SINGLELINK sixPoints rfl (by decide) (by decide)

namespace ClusterList

variable {γ : Type}

/-- In every state of the merge phase the frame matrix is the one of the
start, no cluster is empty and the members of the clusters are the non-ignored
frames. -/
theorem partition_of_reachable (linkage : LINKAGETYPE) (cl0 : ClusterList γ)
    (h0 : cl0.clusters_ = []) (st : ClusterList γ) (hr : Reachable linkage cl0 st) :
    st.FrameDistances_ = cl0.FrameDistances_ ∧
    (∀ c ∈ st.clusters_, c.frameList_ ≠ []) ∧
    (∀ f, (∃ c ∈ st.clusters_, f ∈ c.frameList_) ↔ f ∈ nonIgnoredFrames cl0.FrameDistances_) := by
  induction hr with
  | init =>
    obtain ⟨k1, k2, _, _, _⟩ := InitializeClusterDistances_keeps linkage (buildInitial cl0)
    obtain ⟨b1, _, _, b4⟩ := buildInitial_spec cl0 h0
    have hmem : ∀ c ∈ (buildInitial cl0).clusters_,
        ∃ g ∈ nonIgnoredFrames cl0.FrameDistances_, c.frameList_ = [g] := by
      intro c hc
      have : c.frameList_ ∈ (buildInitial cl0).clusters_.map (fun c => c.frameList_) :=
        List.mem_map.2 ⟨c, hc, rfl⟩
      rw [b4] at this
      obtain ⟨g, hg, hgc⟩ := List.mem_map.1 this
      exact ⟨g, hg, hgc.symm⟩
    refine ⟨by rw [k2, b1], ?_, ?_⟩
    · intro c hc
      rw [k1] at hc
      obtain ⟨g, _, hgc⟩ := hmem c hc
      rw [hgc]
      simp
    · intro f
      rw [k1]
      constructor
      · rintro ⟨c, hc, hf⟩
        obtain ⟨g, hg, hgc⟩ := hmem c hc
        rw [hgc, List.mem_singleton] at hf
        rw [hf]
        exact hg
      · intro hf
        have : [f] ∈ (buildInitial cl0).clusters_.map (fun c => c.frameList_) := by
          rw [b4]
          exact List.mem_map.2 ⟨f, hf, rfl⟩
        obtain ⟨c, hc, hcf⟩ := List.mem_map.1 this
        exact ⟨c, hc, by rw [hcf]; simp⟩
  | step epsilon st st' hprev hstep ih =>
    obtain ⟨ihfd, ihne, ihcov⟩ := ih
    have hwf := wellFormed_of_reachable linkage cl0 h0 st hprev
    obtain ⟨C1, C2, d, hfind, hle⟩ := MergeClosest_zero_inv epsilon linkage st st' hstep
    obtain ⟨A, B, C, n1, n2, hdec, _, _, _, _, _, _, hres⟩ :=
      MergeClosest_success epsilon linkage hwf hfind hle
    rw [hres] at hstep
    simp only [Prod.mk.injEq, true_and] at hstep
    obtain ⟨k1, k2, _, _, _⟩ := calcDist_keeps linkage
      { st with clusters_ := A ++ n1.MergeFrames n2 :: (B ++ C),
                ClusterDistances_ := st.ClusterDistances_.Ignore C2 } A.length
    rw [← hstep, k1, k2]
    rw [hdec] at ihne ihcov
    refine ⟨ihfd, ?_, ?_⟩
    · intro c hc
      simp only [List.mem_append, List.mem_cons] at hc
      rcases hc with hc | rfl | hc | hc
      · exact ihne c (by simp [hc])
      · have hn1 := ihne n1 (by simp)
        obtain ⟨f, hf⟩ := List.exists_mem_of_ne_nil _ hn1
        intro hnil
        have := (mem_MergeFrames n1 n2 f).2 (Or.inl hf)
        rw [hnil] at this
        exact absurd this (List.not_mem_nil _)
      · exact ihne c (by simp [hc])
      · exact ihne c (by simp [hc])
    · intro f
      rw [← ihcov f]
      simp only [List.mem_append, List.mem_cons]
      constructor
      · rintro ⟨c, hc | rfl | hc | hc, hf⟩
        · exact ⟨c, Or.inl hc, hf⟩
        · rcases (mem_MergeFrames n1 n2 f).1 hf with h | h
          · exact ⟨n1, Or.inr (Or.inl rfl), h⟩
          · exact ⟨n2, Or.inr (Or.inr (Or.inr (Or.inl rfl))), h⟩
        · exact ⟨c, Or.inr (Or.inr (Or.inl hc)), hf⟩
        · exact ⟨c, Or.inr (Or.inr (Or.inr (Or.inr hc))), hf⟩
      · rintro ⟨c, hc | rfl | hc | rfl | hc, hf⟩
        · exact ⟨c, Or.inl hc, hf⟩
        · exact ⟨c.MergeFrames n2, Or.inr (Or.inl rfl), (mem_MergeFrames c n2 f).2 (Or.inl hf)⟩
        · exact ⟨c, Or.inr (Or.inr (Or.inl hc)), hf⟩
        · exact ⟨n1.MergeFrames c, Or.inr (Or.inl rfl), (mem_MergeFrames n1 c f).2 (Or.inr hf)⟩
        · exact ⟨c, Or.inr (Or.inr (Or.inr hc)), hf⟩

/-- In a well-formed state both searches of `MergeClosest` find their
cluster, the second one later in the list than the first. -/
theorem lookups_succeed {st : ClusterList γ} (hwf : WellFormed st) {C1 C2 : Nat} {d : ℚ}
    (hfind : st.ClusterDistances_.FindMin = some (C1, C2, d)) :
    ∃ C1_it C2_it n1 n2, findNum st.clusters_ 0 C1 = some C1_it ∧
      findNum st.clusters_ C1_it C2 = some C2_it ∧ C1_it < C2_it ∧
      st.clusters_.get? C1_it = some n1 ∧ n1.Num = C1 ∧
      st.clusters_.get? C2_it = some n2 ∧ n2.Num = C2 := by
  obtain ⟨A, B, C, n1, n2, hdec, h1, h2, hlt, hA, hB, hC⟩ := hwf.decomp hfind
  refine ⟨A.length, A.length + (1 + B.length), n1, n2, ?_, ?_, by omega, ?_, h1, ?_, h2⟩
  · unfold findNum
    rw [List.drop_zero, hdec, findNumFrom_append A n1 _ 0 C1 (fun a ha => by
      have := hA a ha; omega) h1, Nat.zero_add]
  · unfold findNum
    rw [hdec, List.drop_left]
    have := findNumFrom_append (n1 :: B) n2 C A.length C2 (fun b hb => by
      rcases List.mem_cons.1 hb with rfl | hb
      · omega
      · have := hB b hb; omega) h2
    rw [List.cons_append] at this
    rw [this, List.length_cons, Nat.add_comm 1]
  · rw [hdec, List.get?_eq_getElem?, List.getElem?_append_right (Nat.le_refl _)]
    simp
  · rw [hdec, List.get?_eq_getElem?, List.getElem?_append_right (by omega)]
    rw [show A.length + (1 + B.length) - A.length = B.length + 1 by omega,
      List.getElem?_cons_succ, List.getElem?_append_right (by omega)]
    simp

end ClusterList

/-- C18. After the initial build in `ClusterHierAgglo` and after any number of
successful `MergeClosest` steps, the member lists of the live clusters are
non-empty, duplicate-free and pairwise disjoint, and a frame is a member of a
live cluster exactly when it is a non-ignored row of the frame matrix (which
is the frame matrix of the start). -/
theorem C18_clusters_partition_non_ignored_frames {γ : Type} (linkage : LINKAGETYPE)
    (cl0 : ClusterList γ) (h0 : cl0.clusters_ = []) (st : ClusterList γ)
    (hr : ClusterList.Reachable linkage cl0 st) :
    (∀ c ∈ st.clusters_, c.frameList_ ≠ []) ∧
    (∀ c ∈ st.clusters_, c.frameList_.Nodup) ∧
    st.clusters_.Pairwise (fun a b => ∀ f ∈ a.frameList_, f ∉ b.frameList_) ∧
    (∀ f, (∃ c ∈ st.clusters_, f ∈ c.frameList_) ↔
      (f < cl0.FrameDistances_.Nrows ∧ cl0.FrameDistances_.IgnoringRow f = false)) ∧
    st.FrameDistances_ = cl0.FrameDistances_ := by
  have hwf := ClusterList.wellFormed_of_reachable linkage cl0 h0 st hr
  obtain ⟨hfd, hne, hcov⟩ := ClusterList.partition_of_reachable linkage cl0 h0 st hr
  refine ⟨hne, hwf.frames_nodup, hwf.frames_disjoint, ?_, hfd⟩
  intro f
  rw [hcov f]
  unfold ClusterList.nonIgnoredFrames
  simp only [List.mem_filter, List.mem_range, Bool.not_eq_true']

/-- C18 at the six points on a line after the first merge under single
linkage with `epsilon = 2`. -/
theorem C18_partition_witness :
    (∀ c ∈ (ClusterList.MergeClosest 2 .SINGLELINK sixPointsStart).2.clusters_,
      c.frameList_ ≠ []) ∧
    (∀ c ∈ (ClusterList.MergeClosest 2 .SINGLELINK sixPointsStart).2.clusters_,
      c.frameList_.Nodup) ∧
    (ClusterList.MergeClosest 2 .SINGLELINK sixPointsStart).2.clusters_.Pairwise
      (fun a b => ∀ f ∈ a.frameList_, f ∉ b.frameList_) ∧
    (∀ f, (∃ c ∈ (ClusterList.MergeClosest 2 .SINGLELINK sixPointsStart).2.clusters_,
        f ∈ c.frameList_) ↔
      (f < sixPoints.FrameDistances_.Nrows ∧ sixPoints.FrameDistances_.IgnoringRow f = false)) ∧
    (ClusterList.MergeClosest 2 .SINGLELINK sixPointsStart).2.FrameDistances_ =
      sixPoints.FrameDistances_ :=
  C18_clusters_partition_non_ignored_frames .SINGLELINK sixPoints rfl _
    (ClusterList.Reachable.step 2 sixPointsStart _ ClusterList.Reachable.init
      (Prod.ext (by decide!) rfl))

/-- C19. In every state reachable from the initial build of `ClusterHierAgglo`
by successful `MergeClosest` steps, the ids of the live clusters are exactly
the non-ignored rows of the cluster-distance matrix and the cluster list is in
ascending id order; so whenever `FindMin` returns `(C1,C2)` (with `C1 < C2`)
both searches of `MergeClosest` succeed, the search for `C2` from the position
of `C1` onward finding it at a later position, and neither the "C1 not found"
nor the "C2 not found" branch is taken: with the minimum within `epsilon` the
return code is `0`. -/
theorem C19_lookups_never_fail {γ : Type} (linkage : LINKAGETYPE) (cl0 : ClusterList γ)
    (h0 : cl0.clusters_ = []) (st : ClusterList γ)
    (hr : ClusterList.Reachable linkage cl0 st) :
    (∀ i, (i < st.ClusterDistances_.Nrows ∧ st.ClusterDistances_.IgnoringRow i = false) ↔
      ∃ c ∈ st.clusters_, c.Num = i) ∧
    (st.clusters_.map ClusterNode.Num).Pairwise (fun a b => a < b) ∧
    (∀ C1 C2 dmin, st.ClusterDistances_.FindMin = some (C1, C2, dmin) →
      C1 < C2 ∧
      (∃ C1_it C2_it n1 n2, ClusterList.findNum st.clusters_ 0 C1 = some C1_it ∧
        ClusterList.findNum st.clusters_ C1_it C2 = some C2_it ∧ C1_it < C2_it ∧
        st.clusters_.get? C1_it = some n1 ∧ n1.Num = C1 ∧
        st.clusters_.get? C2_it = some n2 ∧ n2.Num = C2) ∧
      ∀ epsilon, dmin ≤ epsilon → (ClusterList.MergeClosest epsilon linkage st).1 = 0) := by
  have hwf := ClusterList.wellFormed_of_reachable linkage cl0 h0 st hr
  refine ⟨hwf.live_iff, hwf.nums_sorted, ?_⟩
  intro C1 C2 dmin hfind
  refine ⟨(ClusterMatrix.FindMin_some _ _ _ _ hfind).2.1, ClusterList.lookups_succeed hwf hfind, ?_⟩
  intro epsilon hle
  obtain ⟨A, B, C, n1, n2, _, _, _, _, _, _, _, hres⟩ :=
    ClusterList.MergeClosest_success epsilon linkage hwf hfind hle
  rw [hres]

/-- C19 at the six points on a line after the first merge under single
linkage with `epsilon = 2`. -/
theorem C19_lookups_witness :
    (∀ i, (i < (ClusterList.MergeClosest 2 .SINGLELINK sixPointsStart).2.ClusterDistances_.Nrows ∧
        (ClusterList.MergeClosest 2 .SINGLELINK sixPointsStart).2.ClusterDistances_.IgnoringRow i
          = false) ↔
      ∃ c ∈ (ClusterList.MergeClosest 2 .SINGLELINK sixPointsStart).2.clusters_, c.Num = i) ∧
    ((ClusterList.MergeClosest 2 .SINGLELINK sixPointsStart).2.clusters_.map
      ClusterNode.Num).Pairwise (fun a b => a < b) ∧
    (∀ C1 C2 dmin,
      (ClusterList.MergeClosest 2 .SINGLELINK sixPointsStart).2.ClusterDistances_.FindMin =
        some (C1, C2, dmin) →
      C1 < C2 ∧
      (∃ C1_it C2_it n1 n2,
        ClusterList.findNum (ClusterList.MergeClosest 2 .SINGLELINK sixPointsStart).2.clusters_
          0 C1 = some C1_it ∧
        ClusterList.findNum (ClusterList.MergeClosest 2 .SINGLELINK sixPointsStart).2.clusters_
          C1_it C2 = some C2_it ∧ C1_it < C2_it ∧
        (ClusterList.MergeClosest 2 .SINGLELINK sixPointsStart).2.clusters_.get? C1_it = some n1 ∧
        n1.Num = C1 ∧
        (ClusterList.MergeClosest 2 .SINGLELINK sixPointsStart).2.clusters_.get? C2_it = some n2 ∧
        n2.Num = C2) ∧
      ∀ epsilon, dmin ≤ epsilon →
        (ClusterList.MergeClosest epsilon .SINGLELINK
          (ClusterList.MergeClosest 2 .SINGLELINK sixPointsStart).2).1 = 0) :=
  C19_lookups_never_fail .SINGLELINK sixPoints rfl _
    (ClusterList.Reachable.step 2 sixPointsStart _ ClusterList.Reachable.init
      (Prod.ext (by decide!) rfl))

/-! ## Exactness of the cluster distances -/

namespace ClusterList

variable {γ : Type}

theorem GetElement_comm (m : ClusterMatrix) (i j : Nat) :
    m.GetElement i j = m.GetElement j i := by
  unfold ClusterMatrix.GetElement
  by_cases h : i = j
  · subst h; rfl
  · have h' : ¬ j = i := fun e => h e.symm
    rw [if_neg h, if_neg h']
    rcases Nat.lt_or_gt_of_ne h with hlt | hgt
    · rw [if_pos hlt, if_neg (by omega)]
    · rw [if_neg (by omega), if_pos hgt]

/-- Reading after writing: the written unordered pair holds the value, every
other pair is as before. -/
theorem GetElement_SetElement (m : ClusterMatrix) (i j : Nat) (v : ℚ) (a b : Nat) :
    (m.SetElement i j v).GetElement a b =
      if i ≠ j ∧ ((a = i ∧ b = j) ∨ (a = j ∧ b = i)) then v else m.GetElement a b := by
  unfold ClusterMatrix.SetElement
  by_cases hij : i = j
  · simp [hij]
  · rw [if_neg hij]
    unfold ClusterMatrix.GetElement
    simp only
    by_cases hab : a = b
    · subst hab
      have : ¬ (i ≠ j ∧ ((a = i ∧ a = j) ∨ (a = j ∧ a = i))) := by
        rintro ⟨_, ⟨h1, h2⟩ | ⟨h1, h2⟩⟩ <;> omega
      simp [this]
    · rw [if_neg hab, if_neg hab]
      by_cases hlt : a < b
      · rw [if_pos hlt, if_pos hlt]
        by_cases hc : a = min i j ∧ b = max i j
        · rw [if_pos hc, if_pos]
          refine ⟨hij, ?_⟩
          obtain ⟨h1, h2⟩ := hc
          rcases Nat.lt_or_gt_of_ne hij with h | h
          · left; rw [h1, h2]; exact ⟨Nat.min_eq_left (by omega), Nat.max_eq_right (by omega)⟩
          · right; rw [h1, h2]; exact ⟨Nat.min_eq_right (by omega), Nat.max_eq_left (by omega)⟩
        · rw [if_neg hc, if_neg]
          rintro ⟨_, ⟨h1, h2⟩ | ⟨h1, h2⟩⟩
          · apply hc
            subst h1 h2
            exact ⟨(Nat.min_eq_left (by omega)).symm, (Nat.max_eq_right (by omega)).symm⟩
          · apply hc
            subst h1 h2
            exact ⟨(Nat.min_eq_right (by omega)).symm, (Nat.max_eq_left (by omega)).symm⟩
      · rw [if_neg hlt, if_neg hlt]
        have hba : b < a := by omega
        by_cases hc : b = min i j ∧ a = max i j
        · rw [if_pos hc, if_pos]
          refine ⟨hij, ?_⟩
          obtain ⟨h1, h2⟩ := hc
          rcases Nat.lt_or_gt_of_ne hij with h | h
          · right; rw [h1, h2]; exact ⟨Nat.max_eq_right (by omega), Nat.min_eq_left (by omega)⟩
          · left; rw [h1, h2]; exact ⟨Nat.max_eq_left (by omega), Nat.min_eq_right (by omega)⟩
        · rw [if_neg hc, if_neg]
          rintro ⟨_, ⟨h1, h2⟩ | ⟨h1, h2⟩⟩
          · apply hc
            subst h1 h2
            exact ⟨(Nat.min_eq_right (by omega)).symm, (Nat.max_eq_left (by omega)).symm⟩
          · apply hc
            subst h1 h2
            exact ⟨(Nat.min_eq_left (by omega)).symm, (Nat.max_eq_right (by omega)).symm⟩

/-- A loop of writes into row `c` leaves every entry outside row and column
`c` as it was. -/
theorem foldl_SetElement_other {α : Type} (L : List α) (skip : α → Prop) [DecidablePred skip]
    (c : Nat) (key : α → Nat) (val : α → ℚ) (cd : ClusterMatrix) (i j : Nat)
    (hi : i ≠ c) (hj : j ≠ c) :
    (L.foldl (fun cd x => if skip x then cd else cd.SetElement c (key x) (val x)) cd).GetElement
      i j = cd.GetElement i j := by
  induction L generalizing cd with
  | nil => rfl
  | cons x L ih =>
    rw [List.foldl_cons, ih]
    split_ifs
    · rfl
    · rw [GetElement_SetElement, if_neg]
      rintro ⟨_, ⟨h1, _⟩ | ⟨_, h2⟩⟩
      · exact hi h1
      · exact hj h2

/-- A loop of writes into row `c` leaves the entry `(c, t)` as it was when no
write is keyed `t`. -/
theorem foldl_SetElement_miss {α : Type} (L : List α) (skip : α → Prop) [DecidablePred skip]
    (c : Nat) (key : α → Nat) (val : α → ℚ) (cd : ClusterMatrix) (t : Nat) (htc : t ≠ c)
    (hmiss : ∀ x ∈ L, ¬ skip x → key x ≠ t) :
    (L.foldl (fun cd x => if skip x then cd else cd.SetElement c (key x) (val x)) cd).GetElement
      c t = cd.GetElement c t := by
  induction L generalizing cd with
  | nil => rfl
  | cons x L ih =>
    rw [List.foldl_cons, ih _ (fun y hy => hmiss y (List.mem_cons_of_mem _ hy))]
    split_ifs with hs
    · rfl
    · rw [GetElement_SetElement, if_neg]
      rintro ⟨_, ⟨_, h2⟩ | ⟨_, h2⟩⟩
      · exact hmiss x (List.mem_cons_self _ _) hs h2.symm
      · exact htc h2

/-- A loop of writes into row `c` leaves in the entry `(c, key x)` the value
written for `x`, when all writes with that key write the same value. -/
theorem foldl_SetElement_hit {α : Type} (L : List α) (skip : α → Prop) [DecidablePred skip]
    (c : Nat) (key : α → Nat) (val : α → ℚ) (cd : ClusterMatrix) (x : α) (hx : x ∈ L)
    (hs : ¬ skip x) (hkc : key x ≠ c)
    (huniq : ∀ y ∈ L, ¬ skip y → key y = key x → val y = val x) :
    (L.foldl (fun cd x => if skip x then cd else cd.SetElement c (key x) (val x)) cd).GetElement
      c (key x) = val x := by
  induction L generalizing cd x with
  | nil => exact absurd hx (List.not_mem_nil _)
  | cons a L ih =>
    rw [List.foldl_cons]
    by_cases hex : ∃ y ∈ L, ¬ skip y ∧ key y = key x
    · obtain ⟨y, hy, hsy, hky⟩ := hex
      have hval : val y = val x := huniq y (List.mem_cons_of_mem _ hy) hsy hky
      have := ih (if skip a then cd else cd.SetElement c (key a) (val a)) y hy hsy
        (by rw [hky]; exact hkc)
        (fun z hz hsz hkz => by
          rw [huniq z (List.mem_cons_of_mem _ hz) hsz (by rw [hkz, hky]), hval])
      rw [hky, hval] at this
      exact this
    · have hmiss : ∀ y ∈ L, ¬ skip y → key y ≠ key x := by
        intro y hy hsy hky
        exact hex ⟨y, hy, hsy, hky⟩
      rw [foldl_SetElement_miss L skip c key val _ (key x) hkc hmiss]
      rcases List.mem_cons.1 hx with rfl | hxL
      · rw [if_neg hs, GetElement_SetElement, if_pos]
        exact ⟨fun h => hkc h.symm, Or.inl ⟨rfl, rfl⟩⟩
      · exact absurd ⟨x, hxL, hs, rfl⟩ hex

end ClusterList

namespace ClusterList

variable {γ : Type}

/-- With ascending numbers, clusters at different positions have different
numbers. -/
theorem nums_inj {l : List (ClusterNode γ)}
    (hs : (l.map ClusterNode.Num).Pairwise (fun a b => a < b)) {p q : Nat}
    {X Y : ClusterNode γ} (hp : l[p]? = some X) (hq : l[q]? = some Y) (h : X.Num = Y.Num) :
    p = q := by
  rw [List.pairwise_map, List.pairwise_iff_getElem] at hs
  obtain ⟨hpl, hpx⟩ := List.getElem?_eq_some_iff.1 hp
  obtain ⟨hql, hqy⟩ := List.getElem?_eq_some_iff.1 hq
  rcases Nat.lt_trichotomy p q with hlt | heq | hgt
  · have := hs p q hpl hql hlt
    rw [hpx, hqy] at this
    omega
  · exact heq
  · have := hs q p hql hpl hgt
    rw [hpx, hqy] at this
    omega

/-- What a recomputation for the cluster `C1` at position `p` leaves in the
cluster matrix: in row `C1` the linkage values towards the other clusters,
elsewhere what was there. -/
theorem calcDist_entries (linkage : LINKAGETYPE) (st : ClusterList γ) (p : Nat)
    (C1 : ClusterNode γ) (hC1 : st.clusters_[p]? = some C1)
    (hs : (st.clusters_.map ClusterNode.Num).Pairwise (fun a b => a < b)) :
    (∀ X ∈ st.clusters_, X.Num ≠ C1.Num →
      (calcDist linkage st p).ClusterDistances_.GetElement C1.Num X.Num =
        linkDistFrames linkage st.FrameDistances_ C1.frameList_ X.frameList_) ∧
    (∀ i j, i ≠ C1.Num → j ≠ C1.Num →
      (calcDist linkage st p).ClusterDistances_.GetElement i j =
        st.ClusterDistances_.GetElement i j) := by
  unfold calcDist
  rw [List.get?_eq_getElem?, hC1]
  simp only
  constructor
  · intro X hX hne
    obtain ⟨q, hq⟩ := List.getElem?_of_mem hX
    have hmem : (q, X) ∈ st.clusters_.enum := List.mk_mem_enum_iff_getElem?.2 hq
    have hqp : ¬ q = p := by
      intro h
      rw [h, hC1] at hq
      simp only [Option.some.injEq] at hq
      exact hne (by rw [hq])
    exact foldl_SetElement_hit st.clusters_.enum (fun C2 => C2.fst = p) C1.Num
      (fun C2 => C2.snd.Num)
      (fun C2 => linkDistFrames linkage st.FrameDistances_ C1.frameList_ C2.snd.frameList_)
      st.ClusterDistances_ (q, X) hmem hqp hne
      (fun y hy _ hky => by
        obtain ⟨y1, y2⟩ := y
        have hy' := List.mem_enum_iff_getElem?.1 hy
        have := nums_inj hs hy' hq hky
        simp only at this hy'
        rw [this, hq] at hy'
        simp only [Option.some.injEq] at hy'
        subst hy'
        rfl)
  · intro i j hi hj
    exact foldl_SetElement_other st.clusters_.enum (fun C2 => C2.fst = p) C1.Num
      (fun C2 => C2.snd.Num)
      (fun C2 => linkDistFrames linkage st.FrameDistances_ C1.frameList_ C2.snd.frameList_)
      st.ClusterDistances_ i j hi hj

/-- The frame distances between two member lists are the same values in
whichever order the lists are taken. -/
theorem pairDists_perm (g : Nat → Nat → ℚ) (A B : List Nat) :
    (A.flatMap fun a => B.map fun b => g a b).Perm (B.flatMap fun b => A.map fun a => g a b) := by
  induction A with
  | nil =>
    have : (B.flatMap fun _ : Nat => ([] : List ℚ)) = [] := by
      induction B with
      | nil => rfl
      | cons b B ih => rw [List.flatMap_cons, ih]; rfl
    simp only [List.flatMap_nil, List.map_nil, this]
    exact List.Perm.refl _
  | cons a A ih =>
    rw [List.flatMap_cons]
    have hsplit : (B.flatMap fun b => (a :: A).map fun a => g a b).Perm
        ((B.map fun b => g a b) ++ (B.flatMap fun b => A.map fun a => g a b)) := by
      clear ih
      induction B with
      | nil => exact List.Perm.refl _
      | cons b B ihB =>
        simp only [List.flatMap_cons, List.map_cons, List.cons_append]
        refine List.Perm.cons _ ?_
        refine (List.Perm.append_left _ ihB).trans ?_
        rw [← List.append_assoc, ← List.append_assoc]
        exact List.Perm.append_right _ List.perm_append_comm
    exact (List.Perm.append_left _ ih).trans hsplit.symm

end ClusterList

namespace ClusterList

variable {γ : Type}

/-- The result of the minimum loop is its start value or one of the values it
has met. -/
theorem minFold_mem (ds : List ℚ) (init : ℚ) :
    ds.foldl (fun m d => if d < m then d else m) init = init ∨
    ds.foldl (fun m d => if d < m then d else m) init ∈ ds := by
  induction ds generalizing init with
  | nil => exact Or.inl rfl
  | cons a ds ih =>
    rw [List.foldl_cons]
    rcases ih (if a < init then a else init) with h | h
    · rw [h]
      split_ifs
      · exact Or.inr (List.mem_cons_self _ _)
      · exact Or.inl rfl
    · exact Or.inr (List.mem_cons_of_mem _ h)

/-- The result of the maximum loop is its start value or one of the values it
has met. -/
theorem maxFold_mem (ds : List ℚ) (init : ℚ) :
    ds.foldl (fun m d => if d > m then d else m) init = init ∨
    ds.foldl (fun m d => if d > m then d else m) init ∈ ds := by
  induction ds generalizing init with
  | nil => exact Or.inl rfl
  | cons a ds ih =>
    rw [List.foldl_cons]
    rcases ih (if a > init then a else init) with h | h
    · rw [h]
      split_ifs
      · exact Or.inr (List.mem_cons_self _ _)
      · exact Or.inl rfl
    · exact Or.inr (List.mem_cons_of_mem _ h)

theorem mem_pairDists (g : Nat → Nat → ℚ) (c1 c2 : List Nat) (d : ℚ) :
    d ∈ (c1.flatMap fun f1 => c2.map fun f2 => g f1 f2) ↔ ∃ a ∈ c1, ∃ b ∈ c2, d = g a b := by
  simp only [List.mem_flatMap, List.mem_map]
  constructor
  · rintro ⟨a, ha, b, hb, h⟩
    exact ⟨a, ha, b, hb, h.symm⟩
  · rintro ⟨a, ha, b, hb, h⟩
    exact ⟨a, ha, b, hb, h.symm⟩

theorem sum_pairDists (g : Nat → Nat → ℚ) (c1 c2 : List Nat) :
    (c1.flatMap fun f1 => c2.map fun f2 => g f1 f2).sum =
      (c1.map fun a => (c2.map fun b => g a b).sum).sum := by
  induction c1 with
  | nil => rfl
  | cons a c1 ih => rw [List.flatMap_cons, List.sum_append, ih, List.map_cons, List.sum_cons]

/-- The frame distances met with `B` in the outer loop are those met with `A`
in the outer loop, in another order. -/
theorem pairDists_swap (fd : ClusterMatrix) (A B : List Nat) :
    (A.flatMap fun a => B.map fun b => fd.GetElement a b).Perm
      (B.flatMap fun b => A.map fun a => fd.GetElement b a) := by
  have h := pairDists_perm fd.GetElement A B
  have e : (B.flatMap fun b => A.map fun a => fd.GetElement a b) =
      (B.flatMap fun b => A.map fun a => fd.GetElement b a) := by
    congr 1
    funext b
    congr 1
    funext a
    exact GetElement_comm fd a b
  rw [e] at h
  exact h

/-- The single-link and the complete-link value do not depend on the order in
which the two member lists are given. -/
theorem linkDistFrames_comm (linkage : LINKAGETYPE) (hl : linkage ≠ .AVERAGELINK)
    (fd : ClusterMatrix) (A B : List Nat) :
    linkDistFrames linkage fd A B = linkDistFrames linkage fd B A := by
  have hperm := pairDists_swap fd A B
  cases linkage
  · show minDistFrames fd A B = minDistFrames fd B A
    unfold minDistFrames
    rw [nested_foldl_eq (fun m d => if d < m then d else m) fd.GetElement A B DBL_MAX,
      nested_foldl_eq (fun m d => if d < m then d else m) fd.GetElement B A DBL_MAX]
    refine List.Perm.foldl_eq' hperm ?_ DBL_MAX
    intro x _ y _ z
    split_ifs <;> linarith
  · exact absurd rfl hl
  · show maxDistFrames fd A B = maxDistFrames fd B A
    unfold maxDistFrames
    rw [nested_foldl_eq (fun m d => if d > m then d else m) fd.GetElement A B (-1),
      nested_foldl_eq (fun m d => if d > m then d else m) fd.GetElement B A (-1)]
    refine List.Perm.foldl_eq' hperm ?_ (-1)
    intro x _ y _ z
    split_ifs <;> linarith

/-- The mean of the pairwise distances is the sum of the distances met by the
double loop over their number. -/
theorem meanDistFrames_eq (fd : ClusterMatrix) (A B : List Nat) :
    meanDistFrames fd A B =
      (A.flatMap fun a => B.map fun b => fd.GetElement a b).sum /
        (((A.flatMap fun a => B.map fun b => fd.GetElement a b).length : Nat) : ℚ) := by
  unfold meanDistFrames
  rw [sum_pairDists, length_pairDists]

/-- The mean of the pairwise distances does not depend on the order in which
the two member lists are given. -/
theorem meanDistFrames_comm (fd : ClusterMatrix) (A B : List Nat) :
    meanDistFrames fd A B = meanDistFrames fd B A := by
  rw [meanDistFrames_eq, meanDistFrames_eq, (pairDists_swap fd A B).sum_eq,
    (pairDists_swap fd A B).length_eq]

/-- The mean lies between the values of the minimum loop and of the maximum
loop. -/
theorem meanDistFrames_between (fd : ClusterMatrix) (A B : List Nat)
    (hA : A ≠ []) (hB : B ≠ []) :
    minDistFrames fd A B ≤ meanDistFrames fd A B ∧
    meanDistFrames fd A B ≤ maxDistFrames fd A B := by
  have hne := pairDists_ne_nil fd.GetElement A B hA hB
  have hmin := minFold_le (A.flatMap fun f1 => B.map fun f2 => fd.GetElement f1 f2) DBL_MAX
  have hmax := le_maxFold (A.flatMap fun f1 => B.map fun f2 => fd.GetElement f1 f2) (-1)
  have e1 : minDistFrames fd A B =
      (A.flatMap fun f1 => B.map fun f2 => fd.GetElement f1 f2).foldl
        (fun m d => if d < m then d else m) DBL_MAX :=
    nested_foldl_eq (fun m d => if d < m then d else m) fd.GetElement A B DBL_MAX
  have e2 : maxDistFrames fd A B =
      (A.flatMap fun f1 => B.map fun f2 => fd.GetElement f1 f2).foldl
        (fun m d => if d > m then d else m) (-1) :=
    nested_foldl_eq (fun m d => if d > m then d else m) fd.GetElement A B (-1)
  rw [e1, e2, meanDistFrames_eq]
  generalize (A.flatMap fun f1 => B.map fun f2 => fd.GetElement f1 f2) = ds at *
  have hlen : (0 : ℚ) < (ds.length : ℚ) := by
    have : 0 < ds.length := List.length_pos.2 hne
    exact_mod_cast this
  constructor
  · rw [le_div_iff₀ hlen]
    have := List.card_nsmul_le_sum ds _ (fun d hd => hmin.2 d hd)
    rw [nsmul_eq_mul] at this
    linarith
  · rw [div_le_iff₀ hlen]
    have := List.sum_le_card_nsmul ds _ (fun d hd => hmax.2 d hd)
    rw [nsmul_eq_mul] at this
    linarith

theorem pow2_neg53 : pow2 (-53) = 1 / 2 ^ 53 := by
  rw [pow2_eq_zpow, zpow_neg, one_div, zpow_ofNat]

theorem pow2_neg1022 : pow2 (-1022) = 1 / 2 ^ 1022 := by
  rw [pow2_eq_zpow, zpow_neg, one_div, zpow_ofNat]

/-- The value that `calcAvgDist` stores for two non-empty member lists with at
most `2^53` pairs of frames at distances in `[0, DBL_MAX]`, when it is not the
infinity, differs from the mean of the pairwise distances by at most the
rounding bound. -/
theorem avgDistFrames_err (fd : ClusterMatrix) (A B : List Nat) (hA : A ≠ []) (hB : B ≠ [])
    (hfd : ∀ a ∈ A, ∀ b ∈ B, 0 ≤ fd.GetElement a b ∧ fd.GetElement a b ≤ DBL_MAX)
    (hN : A.length * B.length ≤ 2 ^ 53) (hfin : avgDistFrames fd A B ≠ DBL_INF) :
    |avgDistFrames fd A B - meanDistFrames fd A B| ≤
      avgErrorBound (A.length * B.length) (meanDistFrames fd A B) := by
  have hne := pairDists_ne_nil fd.GetElement A B hA hB
  have hrange : ∀ d ∈ (A.flatMap fun a => B.map fun b => fd.GetElement a b),
      0 ≤ d ∧ d ≤ DBL_MAX := by
    intro d hd
    obtain ⟨a, ha, b, hb, e⟩ := (mem_pairDists fd.GetElement A B d).1 hd
    rw [e]
    exact hfd a ha b hb
  have hcount := sumDistFrames_count fd A B hN
  have hsum : (sumDistFrames fd A B).1 =
      (A.flatMap fun a => B.map fun b => fd.GetElement a b).foldl dadd 0 := by
    rw [sumDistFrames_eq]
  have hlen := length_pairDists fd.GetElement A B
  unfold avgDistFrames at hfin ⊢
  rw [hcount, hsum] at hfin ⊢
  rw [meanDistFrames_eq, hlen]
  unfold avgErrorBound
  rw [← hlen] at hfin ⊢
  generalize (A.flatMap fun a => B.map fun b => fd.GetElement a b) = ds at *
  have hlenpos : 0 < ds.length := List.length_pos.2 hne
  have hNq : (1 : ℚ) ≤ ((ds.length : Nat) : ℚ) := by exact_mod_cast hlenpos
  have hNle : ((ds.length : Nat) : ℚ) ≤ DBL_MAX := by
    have h1 : ((ds.length : Nat) : ℚ) ≤ 2 ^ 53 := by
      rw [hlen]
      exact_mod_cast hN
    have h2 : (2 : ℚ) ^ 53 < DBL_MAX := by norm_num [DBL_MAX]
    linarith
  have hs0 : 0 ≤ ds.foldl dadd 0 := sumFold_nonneg ds (fun x hx => (hrange x hx).1) 0 (le_refl _)
  have hS0 : 0 ≤ ds.sum := List.sum_nonneg (fun x hx => (hrange x hx).1)
  obtain ⟨hsI, hq⟩ := ddiv_finite _ _ hs0 (by linarith) hNle hfin
  have hserr := sumFold_err ds hrange hsI
  rw [hq, ← pow2_neg53, ← pow2_neg1022]
  have hu := le_of_lt (pow2_pos (-53))
  have hh := le_of_lt (pow2_pos (-1022))
  have hc : 0 ≤ (1 + pow2 (-53)) ^ ds.length - 1 := by
    have : 1 ≤ (1 + pow2 (-53)) ^ ds.length := one_le_pow₀ (by linarith)
    linarith
  have herr := roundDouble_err (ds.foldl dadd 0 / ((ds.length : Nat) : ℚ))
  have e1075 : pow2 (-1075) = pow2 (-53) * pow2 (-1022) := by
    rw [← pow2_add]
    congr 1
  rw [e1075] at herr
  have hNpos : (0 : ℚ) < ((ds.length : Nat) : ℚ) := by linarith
  have hdiv : |ds.foldl dadd 0 / ((ds.length : Nat) : ℚ) - ds.sum / ((ds.length : Nat) : ℚ)| ≤
      ((1 + pow2 (-53)) ^ ds.length - 1) * (ds.sum / ((ds.length : Nat) : ℚ) + pow2 (-1022)) := by
    rw [← sub_div, abs_div, abs_of_pos hNpos, div_le_iff₀ hNpos]
    refine le_trans hserr ?_
    have h1 : ds.sum + pow2 (-1022) ≤
        (ds.sum / ((ds.length : Nat) : ℚ) + pow2 (-1022)) * ((ds.length : Nat) : ℚ) := by
      rw [add_mul, div_mul_cancel₀ _ hNpos.ne.symm]
      nlinarith
    rw [mul_assoc]
    exact mul_le_mul_of_nonneg_left h1 hc
  have hstep := acc_step (pow2 (-53)) (pow2 (-1022)) ((1 + pow2 (-53)) ^ ds.length - 1)
    (ds.foldl dadd 0 / ((ds.length : Nat) : ℚ)) (ds.sum / ((ds.length : Nat) : ℚ)) 0
    (roundDouble (ds.foldl dadd 0 / ((ds.length : Nat) : ℚ))) hu hc
    (div_nonneg hs0 hNpos.le) (le_refl _) hdiv (by rw [add_zero]; exact herr)
  have e : (1 + pow2 (-53)) * ((1 + pow2 (-53)) ^ ds.length - 1 + 1) - 1 =
      (1 + pow2 (-53)) ^ (ds.length + 1) - 1 := by
    rw [pow_succ]
    ring
  rw [e, add_zero] at hstep
  exact hstep

/-- The value stored by the recomputation of the single or the complete
linkage is the linkage value in the words of the spec, for non-empty member
lists whose frame distances are non-negative and at most `DBL_MAX`. -/
theorem linkDistFrames_isLinkValue (linkage : LINKAGETYPE) (hl : linkage ≠ .AVERAGELINK)
    (fd : ClusterMatrix) (A B : List Nat) (hA : A ≠ []) (hB : B ≠ [])
    (hfd : ∀ a ∈ A, ∀ b ∈ B, 0 ≤ fd.GetElement a b ∧ fd.GetElement a b ≤ DBL_MAX) :
    IsLinkValue linkage fd A B (linkDistFrames linkage fd A B) := by
  have hne := pairDists_ne_nil fd.GetElement A B hA hB
  obtain ⟨d0, hd0⟩ := List.exists_mem_of_ne_nil _ hne
  have hrange : ∀ d ∈ (A.flatMap fun a => B.map fun b => fd.GetElement a b),
      0 ≤ d ∧ d ≤ DBL_MAX := by
    intro d hd
    obtain ⟨a, ha, b, hb, e⟩ := (mem_pairDists fd.GetElement A B d).1 hd
    rw [e]
    exact hfd a ha b hb
  cases linkage
  · show (∃ a ∈ A, ∃ b ∈ B, minDistFrames fd A B = fd.GetElement a b) ∧
      ∀ a ∈ A, ∀ b ∈ B, minDistFrames fd A B ≤ fd.GetElement a b
    unfold minDistFrames
    rw [nested_foldl_eq (fun m d => if d < m then d else m) fd.GetElement A B DBL_MAX]
    have hle := minFold_le (A.flatMap fun a => B.map fun b => fd.GetElement a b) DBL_MAX
    have hmem := minFold_mem (A.flatMap fun a => B.map fun b => fd.GetElement a b) DBL_MAX
    constructor
    · apply (mem_pairDists fd.GetElement A B _).1
      rcases hmem with h | h
      · have h1 := hle.2 d0 hd0
        have h2 := (hrange d0 hd0).2
        have : d0 = DBL_MAX := by rw [h] at h1; exact le_antisymm h2 h1
        rw [h, ← this]
        exact hd0
      · exact h
    · intro a ha b hb
      exact hle.2 _ ((mem_pairDists fd.GetElement A B _).2 ⟨a, ha, b, hb, rfl⟩)
  · exact absurd rfl hl
  · show (∃ a ∈ A, ∃ b ∈ B, maxDistFrames fd A B = fd.GetElement a b) ∧
      ∀ a ∈ A, ∀ b ∈ B, fd.GetElement a b ≤ maxDistFrames fd A B
    unfold maxDistFrames
    rw [nested_foldl_eq (fun m d => if d > m then d else m) fd.GetElement A B (-1)]
    have hle := le_maxFold (A.flatMap fun a => B.map fun b => fd.GetElement a b) (-1)
    have hmem := maxFold_mem (A.flatMap fun a => B.map fun b => fd.GetElement a b) (-1)
    constructor
    · apply (mem_pairDists fd.GetElement A B _).1
      rcases hmem with h | h
      · have h1 := hle.2 d0 hd0
        have h2 := (hrange d0 hd0).1
        rw [h] at h1
        linarith
      · exact h
    · intro a ha b hb
      exact hle.2 _ ((mem_pairDists fd.GetElement A B _).2 ⟨a, ha, b, hb, rfl⟩)

end ClusterList

namespace ClusterList

variable {γ : Type}

/-- With ascending numbers, two clusters of the list with the same number are
the same cluster. -/
theorem eq_of_num_eq {l : List (ClusterNode γ)}
    (hs : (l.map ClusterNode.Num).Pairwise (fun a b => a < b)) {X Y : ClusterNode γ}
    (hX : X ∈ l) (hY : Y ∈ l) (h : X.Num = Y.Num) : X = Y := by
  obtain ⟨p, hp⟩ := List.getElem?_of_mem hX
  obtain ⟨q, hq⟩ := List.getElem?_of_mem hY
  have := nums_inj hs hp hq h
  rw [this, hq] at hp
  exact (Option.some.inj hp).symm

/-- After the recomputation for the cluster `C1`, every entry between `C1` and
another cluster is the linkage value of the two member lists with the members
of `C1` in the outer loop, in either index order; the entries between other
clusters are as before. -/
theorem calcDist_exact (linkage : LINKAGETYPE) (st : ClusterList γ) (p : Nat)
    (C1 : ClusterNode γ) (hC1 : st.clusters_[p]? = some C1)
    (hs : (st.clusters_.map ClusterNode.Num).Pairwise (fun a b => a < b)) :
    (∀ a ∈ st.clusters_, ∀ b ∈ st.clusters_, a.Num ≠ b.Num →
      (a.Num = C1.Num ∨ b.Num = C1.Num) →
      (calcDist linkage st p).ClusterDistances_.GetElement a.Num b.Num =
          linkDistFrames linkage st.FrameDistances_ a.frameList_ b.frameList_ ∨
      (calcDist linkage st p).ClusterDistances_.GetElement a.Num b.Num =
          linkDistFrames linkage st.FrameDistances_ b.frameList_ a.frameList_) ∧
    (∀ i j, i ≠ C1.Num → j ≠ C1.Num →
      (calcDist linkage st p).ClusterDistances_.GetElement i j =
        st.ClusterDistances_.GetElement i j) := by
  obtain ⟨h1, h2⟩ := calcDist_entries linkage st p C1 hC1 hs
  refine ⟨?_, h2⟩
  intro a ha b hb hne hor
  have hC1mem : C1 ∈ st.clusters_ := List.getElem?_mem hC1
  rcases hor with h | h
  · have : a = C1 := eq_of_num_eq hs ha hC1mem h
    subst this
    exact Or.inl (h1 b hb (fun e => hne e.symm))
  · have : b = C1 := eq_of_num_eq hs hb hC1mem h
    subst this
    rw [GetElement_comm]
    exact Or.inr (h1 a ha hne)

/-- Without a cluster at the position there is nothing to recompute. -/
theorem calcDist_none (linkage : LINKAGETYPE) (st : ClusterList γ) (p : Nat)
    (h : st.clusters_[p]? = none) : calcDist linkage st p = st := by
  unfold calcDist
  rw [List.get?_eq_getElem?, h]

/-- The loop of `InitializeClusterDistances` over the first `n` positions
leaves exact entries in the rows of the clusters at these positions. -/
theorem initDistances_exact (linkage : LINKAGETYPE) (cl : ClusterList γ)
    (hs : (cl.clusters_.map ClusterNode.Num).Pairwise (fun a b => a < b)) (n : Nat) :
    ∀ a ∈ cl.clusters_, ∀ b ∈ cl.clusters_, a.Num ≠ b.Num →
      (∃ p, p < n ∧ cl.clusters_[p]? = some a) →
      ((List.range n).foldl (fun st C1_it => calcDist linkage st C1_it)
            cl).ClusterDistances_.GetElement a.Num b.Num =
          linkDistFrames linkage cl.FrameDistances_ a.frameList_ b.frameList_ ∨
      ((List.range n).foldl (fun st C1_it => calcDist linkage st C1_it)
            cl).ClusterDistances_.GetElement a.Num b.Num =
          linkDistFrames linkage cl.FrameDistances_ b.frameList_ a.frameList_ := by
  induction n with
  | zero =>
    rintro a _ b _ _ ⟨p, hp, _⟩
    omega
  | succ n ih =>
    rintro a ha b hb hne ⟨p, hp, hpa⟩
    rw [List.range_succ, List.foldl_append, List.foldl_cons, List.foldl_nil]
    obtain ⟨k1, k2, _, _, _⟩ := initDistances_fold linkage (List.range n) cl
    cases hn : cl.clusters_[n]? with
    | none =>
      have hsame : calcDist linkage
          ((List.range n).foldl (fun st C1_it => calcDist linkage st C1_it) cl) n =
          (List.range n).foldl (fun st C1_it => calcDist linkage st C1_it) cl := by
        exact calcDist_none linkage _ n (by rw [k1]; exact hn)
      rw [hsame]
      have hpn : p < n := by
        rcases Nat.lt_or_ge p n with h | h
        · exact h
        · have : p = n := by omega
          rw [this, hn] at hpa
          cases hpa
      exact ih a ha b hb hne ⟨p, hpn, hpa⟩
    | some C1 =>
      have hex := calcDist_exact linkage
        ((List.range n).foldl (fun st C1_it => calcDist linkage st C1_it) cl) n C1
        (by rw [k1]; exact hn) (by rw [k1]; exact hs)
      rw [k1, k2] at hex
      by_cases hor : a.Num = C1.Num ∨ b.Num = C1.Num
      · exact hex.1 a ha b hb hne hor
      · have ha1 : a.Num ≠ C1.Num := fun e => hor (Or.inl e)
        have hb1 : b.Num ≠ C1.Num := fun e => hor (Or.inr e)
        rw [hex.2 a.Num b.Num ha1 hb1]
        have hpn : p < n := by
          rcases Nat.lt_or_ge p n with h | h
          · exact h
          · have : p = n := by omega
            rw [this, hn] at hpa
            exact absurd (congrArg ClusterNode.Num (Option.some.inj hpa)).symm ha1
        exact ih a ha b hb hne ⟨p, hpn, hpa⟩

/-- After `InitializeClusterDistances` every entry between two clusters is the
linkage value of their member lists. -/
theorem InitializeClusterDistances_exact (linkage : LINKAGETYPE) (cl : ClusterList γ)
    (hs : (cl.clusters_.map ClusterNode.Num).Pairwise (fun a b => a < b)) :
    ExactDistances linkage (InitializeClusterDistances linkage cl) := by
  obtain ⟨k1, k2, _, _, _⟩ := InitializeClusterDistances_keeps linkage cl
  intro a ha b hb hne
  rw [k1] at ha hb
  rw [k2]
  obtain ⟨p, hp⟩ := List.getElem?_of_mem ha
  have hpl : p < cl.clusters_.length := (List.getElem?_eq_some_iff.1 hp).1
  unfold InitializeClusterDistances
  cases linkage
  · exact initDistances_exact .SINGLELINK
      { cl with ClusterDistances_ := (ClusterMatrix.Setup cl.clusters_.length).SetupIgnore }
      hs cl.clusters_.length a ha b hb hne ⟨p, hpl, hp⟩
  · exact initDistances_exact .AVERAGELINK
      { cl with ClusterDistances_ := (ClusterMatrix.Setup cl.clusters_.length).SetupIgnore }
      hs cl.clusters_.length a ha b hb hne ⟨p, hpl, hp⟩
  · exact initDistances_exact .COMPLETELINK
      { cl with ClusterDistances_ := (ClusterMatrix.Setup cl.clusters_.length).SetupIgnore }
      hs cl.clusters_.length a ha b hb hne ⟨p, hpl, hp⟩

/-- A successful `MergeClosest` keeps the entries exact: the row of the merged
cluster is recomputed from the frame distances, the entries between the other
clusters are not touched. -/
theorem exact_step (epsilon : ℚ) (linkage : LINKAGETYPE) {st st' : ClusterList γ}
    (hwf : WellFormed st) (hex : ExactDistances linkage st)
    (hstep : MergeClosest epsilon linkage st = (0, st')) : ExactDistances linkage st' := by
  have hwf' := (wellFormed_step epsilon linkage hwf hstep).1
  obtain ⟨C1, C2, d, hfind, hle⟩ := MergeClosest_zero_inv epsilon linkage st st' hstep
  obtain ⟨A, B, C, n1, n2, hdec, h1, h2, hlt, hA, hB, hC, hres⟩ :=
    MergeClosest_success epsilon linkage hwf hfind hle
  rw [hres] at hstep
  simp only [Prod.mk.injEq, true_and] at hstep
  subst h1 h2
  have hs' := hwf'.nums_sorted
  rw [← hstep] at hs' ⊢
  obtain ⟨k1, k2, _, _, _⟩ := calcDist_keeps linkage
    { st with clusters_ := A ++ n1.MergeFrames n2 :: (B ++ C),
              ClusterDistances_ := st.ClusterDistances_.Ignore n2.Num } A.length
  rw [k1] at hs'
  have hC1 : (A ++ n1.MergeFrames n2 :: (B ++ C))[A.length]? = some (n1.MergeFrames n2) := by
    rw [List.getElem?_append_right (Nat.le_refl _)]
    simp
  obtain ⟨e1, e2⟩ := calcDist_exact linkage
    { st with clusters_ := A ++ n1.MergeFrames n2 :: (B ++ C),
              ClusterDistances_ := st.ClusterDistances_.Ignore n2.Num } A.length
    (n1.MergeFrames n2) hC1 hs'
  intro a ha b hb hne
  rw [k1] at ha hb
  rw [k2]
  by_cases hor : a.Num = (n1.MergeFrames n2).Num ∨ b.Num = (n1.MergeFrames n2).Num
  · exact e1 a ha b hb hne hor
  · have ha1 : a.Num ≠ (n1.MergeFrames n2).Num := fun e => hor (Or.inl e)
    have hb1 : b.Num ≠ (n1.MergeFrames n2).Num := fun e => hor (Or.inr e)
    rw [e2 a.Num b.Num ha1 hb1]
    have hold : ∀ x ∈ A ++ n1.MergeFrames n2 :: (B ++ C), x.Num ≠ (n1.MergeFrames n2).Num →
        x ∈ st.clusters_ := by
      intro x hx hxn
      rw [hdec]
      simp only [List.mem_append, List.mem_cons] at hx ⊢
      rcases hx with h | h | h | h
      · exact Or.inl h
      · exact absurd (congrArg ClusterNode.Num h) hxn
      · exact Or.inr (Or.inr (Or.inl h))
      · exact Or.inr (Or.inr (Or.inr (Or.inr h)))
    exact hex a (hold a ha ha1) b (hold b hb hb1) hne

/-- In every state of the merge phase the entries of the cluster matrix
between live clusters are the linkage values of the member lists. -/
theorem exact_of_reachable (linkage : LINKAGETYPE) (cl0 : ClusterList γ)
    (h0 : cl0.clusters_ = []) (st : ClusterList γ) (hr : Reachable linkage cl0 st) :
    ExactDistances linkage st := by
  induction hr with
  | init =>
    obtain ⟨_, _, b3, _⟩ := buildInitial_spec cl0 h0
    refine InitializeClusterDistances_exact linkage (buildInitial cl0) ?_
    rw [b3]
    exact List.pairwise_lt_range _
  | step epsilon st st' hr hstep ih =>
    exact exact_step epsilon linkage (wellFormed_of_reachable linkage cl0 h0 st hr) ih hstep

/-- The value that `calcAvgDist` stores depends on which of the two member
lists is in the outer loop: for the members `{0,1}` and `{2,3}` of the uneven
matrix it is `0.17500000000000002` with `{0,1}` outside and `0.175` with
`{2,3}` outside. -/
theorem avgDistFrames_order :
    avgDistFrames unevenMatrix [0, 1] [2, 3] = 6305039478318695 / 36028797018963968 ∧
    avgDistFrames unevenMatrix [2, 3] [0, 1] = 3152519739159347 / 18014398509481984 ∧
    avgDistFrames unevenMatrix [0, 1] [2, 3] ≠ avgDistFrames unevenMatrix [2, 3] [0, 1] :=
  ⟨by decide!, by decide!, by decide!⟩

/-- Under the single and the complete linkage the order of the two member
lists does not matter: every entry between two live clusters is the linkage
value of their member lists. -/
theorem exact_entry (linkage : LINKAGETYPE) (hl : linkage ≠ .AVERAGELINK) {st : ClusterList γ}
    (hex : ExactDistances linkage st) :
    ∀ a ∈ st.clusters_, ∀ b ∈ st.clusters_, a.Num ≠ b.Num →
      st.ClusterDistances_.GetElement a.Num b.Num =
        linkDistFrames linkage st.FrameDistances_ a.frameList_ b.frameList_ := by
  intro a ha b hb hne
  rcases hex a ha b hb hne with h | h
  · exact h
  · rw [h]
    exact linkDistFrames_comm linkage hl st.FrameDistances_ b.frameList_ a.frameList_

end ClusterList

/-- C2, as stated, fails: `calcAvgDist` accumulates and divides in double, and
the rounded average can leave the interval between the minimum and the
maximum. With one frame in `A` and three frames in `B`, all pairs at the
distance `0.1` (the double `3602879701896397 / 2^55`), `calcMaxDist` gives
`0.1` and `calcAvgDist` gives `0.10000000000000002`
(`7205759403792795 / 2^56`), above the maximum; with all pairs at the distance
`0.7` (the double `3152519739159347 / 2^52`), `calcMinDist` gives `0.7` and
`calcAvgDist` gives `0.6999999999999998` (`6305039478318693 / 2^53`), below
the minimum. -/
theorem C2_average_outside_counterexample :
    (∀ i j, 0 ≤ (flatMatrix 4 tenth).elements_ i j) ∧
    ClusterList.maxDistFrames (flatMatrix 4 tenth) [0] [1, 2, 3] = tenth ∧
    ClusterList.avgDistFrames (flatMatrix 4 tenth) [0] [1, 2, 3] =
      7205759403792795 / 72057594037927936 ∧
    ¬ (ClusterList.avgDistFrames (flatMatrix 4 tenth) [0] [1, 2, 3] ≤
        ClusterList.maxDistFrames (flatMatrix 4 tenth) [0] [1, 2, 3]) ∧
    (∀ i j, 0 ≤ (flatMatrix 4 sevenTenths).elements_ i j) ∧
    ClusterList.minDistFrames (flatMatrix 4 sevenTenths) [0] [1, 2, 3] = sevenTenths ∧
    ClusterList.avgDistFrames (flatMatrix 4 sevenTenths) [0] [1, 2, 3] =
      6305039478318693 / 9007199254740992 ∧
    ¬ (ClusterList.minDistFrames (flatMatrix 4 sevenTenths) [0] [1, 2, 3] ≤
        ClusterList.avgDistFrames (flatMatrix 4 sevenTenths) [0] [1, 2, 3]) :=
  ⟨fun _ _ => (by decide! : (0 : ℚ) ≤ tenth), by decide!, by decide!, by decide!,
    fun _ _ => (by decide! : (0 : ℚ) ≤ sevenTenths), by decide!, by decide!, by decide!⟩

/-- C2, amended. For non-empty member sets `A` and `B` with at most `2^53`
pairs and a frame matrix whose entries between them are distances held in a
double (non-negative, at most `DBL_MAX`): the value computed by `calcMinDist`
is at most the mean of the pairwise distances, which is at most the value
computed by `calcMaxDist`; the value computed by `calcAvgDist` is that mean
accumulated and divided in double and, unless it overflows to the infinity,
differs from the mean by at most
`E = ((1 + 2^-53)^(N+1) - 1) * (mean + 2^-1022)`, `N` the number of pairs; so
single-link `- E ≤` average-link `≤` complete-link `+ E`. -/
theorem C2_single_le_average_le_complete_rounded (fd : ClusterMatrix) (A B : List Nat)
    (hA : A ≠ []) (hB : B ≠ [])
    (hfd : ∀ a ∈ A, ∀ b ∈ B, 0 ≤ fd.GetElement a b ∧ fd.GetElement a b ≤ DBL_MAX)
    (hN : A.length * B.length ≤ 2 ^ 53)
    (hfin : ClusterList.avgDistFrames fd A B ≠ DBL_INF) :
    ClusterList.minDistFrames fd A B ≤ ClusterList.meanDistFrames fd A B ∧
    ClusterList.meanDistFrames fd A B ≤ ClusterList.maxDistFrames fd A B ∧
    |ClusterList.avgDistFrames fd A B - ClusterList.meanDistFrames fd A B| ≤
      ClusterList.avgErrorBound (A.length * B.length) (ClusterList.meanDistFrames fd A B) ∧
    ClusterList.minDistFrames fd A B -
        ClusterList.avgErrorBound (A.length * B.length) (ClusterList.meanDistFrames fd A B) ≤
      ClusterList.avgDistFrames fd A B ∧
    ClusterList.avgDistFrames fd A B ≤
      ClusterList.maxDistFrames fd A B +
        ClusterList.avgErrorBound (A.length * B.length) (ClusterList.meanDistFrames fd A B) := by
  obtain ⟨h1, h2⟩ := ClusterList.meanDistFrames_between fd A B hA hB
  have h3 := ClusterList.avgDistFrames_err fd A B hA hB hfd hN hfin
  obtain ⟨h4, h5⟩ := abs_le.1 h3
  exact ⟨h1, h2, h3, by linarith, by linarith⟩

/-- C2, amended, at one frame against three frames, all pairs at the distance
`0.1`. -/
theorem C2_single_le_average_le_complete_rounded_witness :
    ClusterList.minDistFrames (flatMatrix 4 tenth) [0] [1, 2, 3] ≤
      ClusterList.meanDistFrames (flatMatrix 4 tenth) [0] [1, 2, 3] ∧
    ClusterList.meanDistFrames (flatMatrix 4 tenth) [0] [1, 2, 3] ≤
      ClusterList.maxDistFrames (flatMatrix 4 tenth) [0] [1, 2, 3] ∧
    |ClusterList.avgDistFrames (flatMatrix 4 tenth) [0] [1, 2, 3] -
        ClusterList.meanDistFrames (flatMatrix 4 tenth) [0] [1, 2, 3]| ≤
      ClusterList.avgErrorBound ([0].length * [1, 2, 3].length)
        (ClusterList.meanDistFrames (flatMatrix 4 tenth) [0] [1, 2, 3]) ∧
    ClusterList.minDistFrames (flatMatrix 4 tenth) [0] [1, 2, 3] -
        ClusterList.avgErrorBound ([0].length * [1, 2, 3].length)
          (ClusterList.meanDistFrames (flatMatrix 4 tenth) [0] [1, 2, 3]) ≤
      ClusterList.avgDistFrames (flatMatrix 4 tenth) [0] [1, 2, 3] ∧
    ClusterList.avgDistFrames (flatMatrix 4 tenth) [0] [1, 2, 3] ≤
      ClusterList.maxDistFrames (flatMatrix 4 tenth) [0] [1, 2, 3] +
        ClusterList.avgErrorBound ([0].length * [1, 2, 3].length)
          (ClusterList.meanDistFrames (flatMatrix 4 tenth) [0] [1, 2, 3]) :=
  C2_single_le_average_le_complete_rounded (flatMatrix 4 tenth) [0] [1, 2, 3]
    (by simp) (by simp) (by decide!) (by decide) (by decide!)

/-- The four frames at the distance `0.1` under average linkage with
`epsilon = 0.1`: two calls of `MergeClosest` succeed. -/
theorem fourTenths_reachable :
    ClusterList.Reachable .AVERAGELINK fourTenths fourTenthsMergedTwice := by
  have e1 : (ClusterList.MergeClosest tenth .AVERAGELINK fourTenthsStart).1 = 0 := by decide!
  have e2 : (ClusterList.MergeClosest tenth .AVERAGELINK fourTenthsMerged).1 = 0 := by decide!
  have h1 : ClusterList.MergeClosest tenth .AVERAGELINK fourTenthsStart =
      (0, fourTenthsMerged) :=
    Prod.mk.eta.symm.trans (congrArg (fun r => (r, fourTenthsMerged)) e1)
  have h2 : ClusterList.MergeClosest tenth .AVERAGELINK fourTenthsMerged =
      (0, fourTenthsMergedTwice) :=
    Prod.mk.eta.symm.trans (congrArg (fun r => (r, fourTenthsMergedTwice)) e2)
  exact ClusterList.Reachable.step tenth fourTenthsMerged _
    (ClusterList.Reachable.step tenth fourTenthsStart _ ClusterList.Reachable.init h1) h2

/-- C17, as stated, fails for the average linkage: the entry is the mean
accumulated and divided in double, not the mean. Four frames, any two at the
distance `0.1` (the double), average linkage, `epsilon = 0.1`: after two
successful calls of `MergeClosest` the live clusters are `{0,1,2}` (number
`0`) and `{3}` (number `3`); the mean of the three pairwise distances is
`0.1`, the entry at `(0,3)` is `0.10000000000000002`
(`7205759403792795 / 2^56`). It exceeds `epsilon`, so `ClusterHierAgglo`
returns these two clusters. -/
theorem C17_average_entry_counterexample :
    (∀ i ∈ ClusterList.nonIgnoredFrames fourTenths.FrameDistances_,
      ∀ j ∈ ClusterList.nonIgnoredFrames fourTenths.FrameDistances_,
        0 ≤ fourTenths.FrameDistances_.GetElement i j ∧
        fourTenths.FrameDistances_.GetElement i j ≤ DBL_MAX) ∧
    ClusterList.Reachable .AVERAGELINK fourTenths fourTenthsMergedTwice ∧
    (fourTenthsMergedTwice.clusters_.map fun c => (c.Num, c.frameList_)) =
      [(0, [0, 1, 2]), (3, [3])] ∧
    ClusterList.meanDistFrames fourTenthsMergedTwice.FrameDistances_ [0, 1, 2] [3] = tenth ∧
    fourTenthsMergedTwice.ClusterDistances_.GetElement 0 3 =
      7205759403792795 / 72057594037927936 ∧
    ¬ ClusterList.IsLinkValue .AVERAGELINK fourTenthsMergedTwice.FrameDistances_ [0, 1, 2] [3]
        (fourTenthsMergedTwice.ClusterDistances_.GetElement 0 3) ∧
    memberLists (ClusterList.ClusterHierAgglo 5 tenth 0 .AVERAGELINK fourTenths) =
      some (0, [[0, 1, 2], [3]]) :=
  ⟨by decide!,
    fourTenths_reachable,
    by decide!, by decide!, by decide!,
    (by
      show ¬ (fourTenthsMergedTwice.ClusterDistances_.GetElement 0 3 =
        ClusterList.meanDistFrames fourTenthsMergedTwice.FrameDistances_ [0, 1, 2] [3])
      decide!),
    by decide!⟩

/-- C17, amended. After `InitializeClusterDistances` and after every
successful `MergeClosest` (every state reachable from the initial build), for
every pair of distinct live clusters `A` and `B` the numbers differ and the
entry of the cluster matrix at `(A.Num, B.Num)` is the value that the
recomputation of the active linkage computes from the frame matrix over the
member lists, with the members of one of the two clusters in the outer loop.
For single-link that value is the minimum of the frame distances over all
pairs `(a in A, b in B)`, for complete-link the maximum. For average-link it
is the mean accumulated and divided in double: with at most `2^53` pairs and
unless it overflows to the infinity, it differs from the mean of the pairwise
distances by at most `((1 + 2^-53)^(N+1) - 1) * (mean + 2^-1022)`, `N` the
number of pairs. The frame distances between non-ignored frames are taken to
be distances held in a double: non-negative and at most `DBL_MAX`. -/
theorem C17_cluster_distances_rounded {γ : Type} (linkage : LINKAGETYPE) (cl0 : ClusterList γ)
    (h0 : cl0.clusters_ = [])
    (hfd : ∀ i ∈ ClusterList.nonIgnoredFrames cl0.FrameDistances_,
      ∀ j ∈ ClusterList.nonIgnoredFrames cl0.FrameDistances_,
        0 ≤ cl0.FrameDistances_.GetElement i j ∧ cl0.FrameDistances_.GetElement i j ≤ DBL_MAX)
    (st : ClusterList γ) (hr : ClusterList.Reachable linkage cl0 st) :
    ∀ A ∈ st.clusters_, ∀ B ∈ st.clusters_, A ≠ B →
      A.Num ≠ B.Num ∧
      (st.ClusterDistances_.GetElement A.Num B.Num =
          ClusterList.linkDistFrames linkage st.FrameDistances_ A.frameList_ B.frameList_ ∨
        st.ClusterDistances_.GetElement A.Num B.Num =
          ClusterList.linkDistFrames linkage st.FrameDistances_ B.frameList_ A.frameList_) ∧
      (linkage ≠ .AVERAGELINK →
        ClusterList.IsLinkValue linkage st.FrameDistances_ A.frameList_ B.frameList_
          (st.ClusterDistances_.GetElement A.Num B.Num)) ∧
      (linkage = .AVERAGELINK →
        A.frameList_.length * B.frameList_.length ≤ 2 ^ 53 →
        st.ClusterDistances_.GetElement A.Num B.Num ≠ DBL_INF →
        |st.ClusterDistances_.GetElement A.Num B.Num -
            ClusterList.meanDistFrames st.FrameDistances_ A.frameList_ B.frameList_| ≤
          ClusterList.avgErrorBound (A.frameList_.length * B.frameList_.length)
            (ClusterList.meanDistFrames st.FrameDistances_ A.frameList_ B.frameList_)) := by
  intro A hA B hB hAB
  have hwf := ClusterList.wellFormed_of_reachable linkage cl0 h0 st hr
  obtain ⟨hsame, hne, hcov⟩ := ClusterList.partition_of_reachable linkage cl0 h0 st hr
  have hex := ClusterList.exact_of_reachable linkage cl0 h0 st hr
  have hnum : A.Num ≠ B.Num := fun e => hAB (ClusterList.eq_of_num_eq hwf.nums_sorted hA hB e)
  have hAB' : ∀ a ∈ A.frameList_, ∀ b ∈ B.frameList_,
      0 ≤ st.FrameDistances_.GetElement a b ∧ st.FrameDistances_.GetElement a b ≤ DBL_MAX := by
    intro a ha b hb
    rw [hsame]
    exact hfd a ((hcov a).1 ⟨A, hA, ha⟩) b ((hcov b).1 ⟨B, hB, hb⟩)
  have hBA' : ∀ b ∈ B.frameList_, ∀ a ∈ A.frameList_,
      0 ≤ st.FrameDistances_.GetElement b a ∧ st.FrameDistances_.GetElement b a ≤ DBL_MAX := by
    intro b hb a ha
    rw [ClusterList.GetElement_comm]
    exact hAB' a ha b hb
  refine ⟨hnum, hex A hA B hB hnum, ?_, ?_⟩
  · intro hl
    rw [ClusterList.exact_entry linkage hl hex A hA B hB hnum]
    exact ClusterList.linkDistFrames_isLinkValue linkage hl st.FrameDistances_ A.frameList_
      B.frameList_ (hne A hA) (hne B hB) hAB'
  · intro hl hN hfin
    subst hl
    rcases hex A hA B hB hnum with h | h
    · rw [h] at hfin ⊢
      exact ClusterList.avgDistFrames_err st.FrameDistances_ A.frameList_ B.frameList_
        (hne A hA) (hne B hB) hAB' hN hfin
    · rw [h] at hfin ⊢
      rw [ClusterList.meanDistFrames_comm st.FrameDistances_ A.frameList_ B.frameList_,
        Nat.mul_comm A.frameList_.length B.frameList_.length]
      exact ClusterList.avgDistFrames_err st.FrameDistances_ B.frameList_ A.frameList_
        (hne B hB) (hne A hA) hBA' (by rw [Nat.mul_comm]; exact hN) hfin

/-- C17, amended, at the four frames at the distance `0.1` after the second
merge under average linkage with `epsilon = 0.1`, for the merged cluster
`{0,1,2}` (position `0`) and the cluster `{3}` (position `1`): the entry is
within the rounding bound of the mean. -/
theorem C17_cluster_distances_rounded_witness :
    (fourTenthsMergedTwiceAt 0).Num ≠ (fourTenthsMergedTwiceAt 1).Num ∧
    |fourTenthsMergedTwice.ClusterDistances_.GetElement (fourTenthsMergedTwiceAt 0).Num
          (fourTenthsMergedTwiceAt 1).Num -
        ClusterList.meanDistFrames fourTenthsMergedTwice.FrameDistances_
          (fourTenthsMergedTwiceAt 0).frameList_ (fourTenthsMergedTwiceAt 1).frameList_| ≤
      ClusterList.avgErrorBound
        ((fourTenthsMergedTwiceAt 0).frameList_.length *
          (fourTenthsMergedTwiceAt 1).frameList_.length)
        (ClusterList.meanDistFrames fourTenthsMergedTwice.FrameDistances_
          (fourTenthsMergedTwiceAt 0).frameList_ (fourTenthsMergedTwiceAt 1).frameList_) :=
  have h := C17_cluster_distances_rounded .AVERAGELINK fourTenths rfl (by decide!)
    fourTenthsMergedTwice
    fourTenths_reachable
    (fourTenthsMergedTwiceAt 0)
    (by unfold fourTenthsMergedTwiceAt
        rw [List.getD_eq_getElem _ _ (by decide!)]
        exact List.getElem_mem _)
    (fourTenthsMergedTwiceAt 1)
    (by unfold fourTenthsMergedTwiceAt
        rw [List.getD_eq_getElem _ _ (by decide!)]
        exact List.getElem_mem _)
    (fun h => absurd (congrArg ClusterNode.Num h) (by decide!))
  ⟨h.1, h.2.2.2 rfl (by decide!) (by decide!)⟩

/-! ## Density peaks -/

namespace Cluster_DPeaks

/-- A point without neighbour stops `AssignClusterNum` at once: nothing is
assigned and `cnum` is as it was. -/
theorem AssignClusterNum_sentinel (fuel : Nat) (Points_ : List Cpoint) (idx : Nat) (cnum : Int)
    (p : Cpoint) (h : Points_.get? idx = some p) (hn : p.NearestIdx = -1) :
    AssignClusterNum (fuel + 1) Points_ idx cnum = some (Points_, cnum) := by
  unfold AssignClusterNum
  rw [h]
  simp only [hn, if_true]

theorem propagate_fold_sentinel (fuel : Nat) (Points_ : List Cpoint)
    (hn : ∀ p ∈ Points_, p.NearestIdx = -1) (cnum : Int) (L : List Nat)
    (hL : ∀ i ∈ L, i < Points_.length) :
    L.foldlM (fun (acc : List Cpoint × Int) idx =>
      match acc.1.get? idx with
      | none => none
      | some p =>
        if p.Cnum = -1 then AssignClusterNum (fuel + 1) acc.1 idx acc.2 else some acc)
      (Points_, cnum) = some (Points_, cnum) := by
  induction L with
  | nil => rfl
  | cons i L ih =>
    have hi : i < Points_.length := hL i (List.mem_cons_self _ _)
    have hget : Points_.get? i = some (Points_.get ⟨i, hi⟩) := List.get?_eq_get hi
    rw [List.foldlM_cons]
    simp only [hget]
    have hstep : (if (Points_.get ⟨i, hi⟩).Cnum = -1 then
        AssignClusterNum (fuel + 1) Points_ i cnum else some (Points_, cnum)) =
        some (Points_, cnum) := by
      split_ifs
      · exact AssignClusterNum_sentinel fuel Points_ i cnum _ hget
          (hn _ (List.get_mem _ _ _))
      · rfl
    rw [hstep]
    exact ih (fun j hj => hL j (List.mem_cons_of_mem _ hj))

/-- When no point has a neighbour of higher density the propagation loop
leaves every point as it was. -/
theorem propagate_all_sentinel (fuel : Nat) (Points_ : List Cpoint)
    (hn : ∀ p ∈ Points_, p.NearestIdx = -1) :
    propagate (fuel + 1) Points_ = some (Points_, -1) :=
  propagate_fold_sentinel fuel Points_ hn (-1) (List.range Points_.length)
    (fun _ hi => List.mem_range.1 hi)

/-- The center selection on the ten equidistant frames with `epsilon = 1`
flags no point. -/
theorem selectCenters_tenEquidistant :
    selectCenters (neighbourPhase 1 tenEquidistant) =
      some (0, neighbourPhase 1 tenEquidistant) := by
  decide!

theorem neighbourPhase_tenEquidistant :
    ∀ p ∈ neighbourPhase 1 tenEquidistant,
      p.Density = 0 ∧ p.NearestIdx = -1 ∧ p.Cnum = -1 := by
  decide!

end Cluster_DPeaks

/-- C14. The center selection of `Cluster_DPeaks::Cluster` does not always flag
a point of maximum density. On ten frames that are pairwise at the distance
`5`, with `epsilon = 1`, every point has density `0` and no neighbour of
higher density (`NearestIdx = -1`), and the selection flags no point: every
cluster id is still `-1` and `nclusters = 0`. On the ten frames on a line at
`0,10,...,70,71,72` with `epsilon = 3/2`, frame `8` is the only point of
maximum density (`2`), it is the last point of the sorted array with
`NearestIdx = -1`, and again no point is flagged. -/
theorem C14_maximum_density_point_not_selected :
    (Cluster_DPeaks.initialPoints tenEquidistant).length = 10 ∧
    (∀ p ∈ Cluster_DPeaks.neighbourPhase 1 tenEquidistant,
      p.Density = 0 ∧ p.NearestIdx = -1) ∧
    (Cluster_DPeaks.selectCenters (Cluster_DPeaks.neighbourPhase 1 tenEquidistant)).map
        (fun r => (r.1, r.2.map Cpoint.Cnum)) =
      some (0, [-1, -1, -1, -1, -1, -1, -1, -1, -1, -1]) ∧
    (Cluster_DPeaks.neighbourPhase (3 / 2) tenOnLine).map
        (fun p => (p.Fnum, p.Density, p.NearestIdx)) =
      [(0, 0, 7), (1, 0, 7), (2, 0, 7), (3, 0, 7), (4, 0, 7), (5, 0, 7), (6, 0, 7),
        (7, 1, 9), (9, 1, 9), (8, 2, -1)] ∧
    (Cluster_DPeaks.selectCenters (Cluster_DPeaks.neighbourPhase (3 / 2) tenOnLine)).map
        (fun r => (r.1, r.2.map Cpoint.Cnum)) =
      some (0, [-1, -1, -1, -1, -1, -1, -1, -1, -1, -1]) := by
  refine ⟨by decide!, by decide!, by decide!, by decide!, by decide!⟩

/-- C15. The propagation loop of `Cluster_DPeaks::Cluster` can leave points
unassigned. On ten frames that are pairwise at the distance `5`, with
`epsilon = 1`, `Cluster` reaches the end of the propagation loop (whatever the
bound on the recursion, from `1` on) with return code `0`, `nclusters = 0` and
all ten points at the cluster id `-1`, so that the grouping by cluster id
indexes no valid cluster. On the ten frames on a line at `0,10,...,70,71,72`
with `epsilon = 3/2` the outcome is the same. -/
theorem C15_points_left_unassigned :
    (∀ fuel, ∃ Points_, Cluster_DPeaks.Cluster (fuel + 1) 1 tenEquidistant =
        some (0, 0, Points_) ∧ Points_.length = 10 ∧ (∀ p ∈ Points_, p.Cnum = -1) ∧
      Cluster_DPeaks.TempClusters 0 Points_ = none) ∧
    (Cluster_DPeaks.Cluster 10 (3 / 2) tenOnLine).map
        (fun r => (r.1, r.2.1, r.2.2.map Cpoint.Cnum,
          (Cluster_DPeaks.TempClusters r.2.1 r.2.2).isSome)) =
      some (0, 0, [-1, -1, -1, -1, -1, -1, -1, -1, -1, -1], false) := by
  refine ⟨?_, by decide!⟩
  intro fuel
  refine ⟨Cluster_DPeaks.neighbourPhase 1 tenEquidistant, ?_, by decide!,
    fun p hp => (Cluster_DPeaks.neighbourPhase_tenEquidistant p hp).2.2, by decide!⟩
  unfold Cluster_DPeaks.Cluster
  rw [if_neg (by decide!), Cluster_DPeaks.selectCenters_tenEquidistant]
  simp only
  rw [Cluster_DPeaks.propagate_all_sentinel fuel _
    (fun p hp => (Cluster_DPeaks.neighbourPhase_tenEquidistant p hp).2.1)]

/-! ## Density phase -/

namespace Cluster_DPeaks

theorem initialPoints_fold (fd : ClusterMatrix) (L : List Nat) (acc : List Cpoint) :
    L.foldl (fun Points_ frame =>
      if !fd.IgnoringRow frame then Points_ ++ [Cpoint.new frame] else Points_) acc =
      acc ++ (L.filter fun f => !fd.IgnoringRow f).map Cpoint.new := by
  induction L generalizing acc with
  | nil => simp
  | cons a L ih =>
    rw [List.foldl_cons, ih, List.filter_cons]
    by_cases h : (!fd.IgnoringRow a) = true
    · simp [h]
    · simp [h]

/-- The points of the first loop are the non-ignored frames, in ascending
frame order, each without density, neighbour or cluster id. -/
theorem initialPoints_eq (fd : ClusterMatrix) :
    initialPoints fd = (ClusterList.nonIgnoredFrames fd).map Cpoint.new := by
  unfold initialPoints ClusterList.nonIgnoredFrames
  rw [initialPoints_fold]
  rfl

theorem nonIgnoredFrames_nodup (fd : ClusterMatrix) :
    (ClusterList.nonIgnoredFrames fd).Nodup := by
  unfold ClusterList.nonIgnoredFrames
  exact (List.nodup_range _).filter _

/-- A counting loop is the length of a filter. -/
theorem countFold_eq {α : Type} (L : List α) (c : α → Bool) (init : Int) :
    L.foldl (fun density x => if c x = true then density + 1 else density) init =
      init + ((L.filter c).length : Int) := by
  induction L generalizing init with
  | nil => simp
  | cons a L ih =>
    rw [List.foldl_cons, ih, List.filter_cons]
    by_cases h : c a = true
    · simp only [h, if_true, List.length_cons, Nat.cast_add, Nat.cast_one]
      ring
    · simp only [h, if_false]
      simp

/-- The inner loop of the density phase counts the points at other positions
whose frame is closer than `epsilon`. -/
theorem countDensity_eq (epsilon : ℚ) (fd : ClusterMatrix) (Points_ : List Cpoint)
    (point0 : Nat × Cpoint) :
    countDensity epsilon fd Points_ point0 =
      ((Points_.enum.filter fun point1 =>
        decide (point0.fst ≠ point1.fst) &&
          decide (fd.GetFdist point0.snd.Fnum point1.snd.Fnum < epsilon)).length : Int) := by
  unfold countDensity
  have h := countFold_eq Points_.enum (fun point1 =>
    decide (point0.fst ≠ point1.fst) &&
      decide (fd.GetFdist point0.snd.Fnum point1.snd.Fnum < epsilon)) 0
  rw [zero_add] at h
  rw [← h]
  congr 1
  funext density point1
  by_cases h1 : point0.fst = point1.fst
  · simp [h1]
  · by_cases h2 : fd.GetFdist point0.snd.Fnum point1.snd.Fnum < epsilon
    · simp [h1, h2]
    · simp [h1, h2]

theorem setDensities_map_Fnum (epsilon : ℚ) (fd : ClusterMatrix) (Points_ : List Cpoint) :
    (setDensities epsilon fd Points_).map Cpoint.Fnum = Points_.map Cpoint.Fnum := by
  unfold setDensities
  rw [List.map_map]
  have : (Cpoint.Fnum ∘ fun point0 : Nat × Cpoint =>
      point0.snd.SetDensity (countDensity epsilon fd Points_ point0)) =
      Cpoint.Fnum ∘ Prod.snd := by
    funext x
    rfl
  rw [this, ← List.map_map, ClusterList.enum_map_snd_eq]

/-- With pairwise different frames, the density that the density phase gives
to a point is the number of other frames of the array that are closer than
`epsilon` to its frame. -/
theorem setDensities_density (epsilon : ℚ) (fd : ClusterMatrix) (Points_ : List Cpoint)
    (hnd : (Points_.map Cpoint.Fnum).Nodup) :
    ∀ p ∈ setDensities epsilon fd Points_,
      p.Density = (((Points_.map Cpoint.Fnum).filter fun g =>
        decide (g ≠ p.Fnum) && decide (fd.GetFdist p.Fnum g < epsilon)).length : Int) := by
  intro p hp
  unfold setDensities at hp
  obtain ⟨point0, h0, rfl⟩ := List.mem_map.1 hp
  have hget := List.mem_enum_iff_getElem?.1 h0
  show countDensity epsilon fd Points_ point0 =
    (((Points_.map Cpoint.Fnum).filter fun g =>
      decide (g ≠ point0.snd.Fnum) && decide (fd.GetFdist point0.snd.Fnum g < epsilon)).length : Int)
  rw [countDensity_eq]
  have hcongr : (Points_.enum.filter fun point1 =>
      decide (point0.fst ≠ point1.fst) &&
        decide (fd.GetFdist point0.snd.Fnum point1.snd.Fnum < epsilon)) =
      (Points_.enum.filter fun point1 =>
        decide (point1.snd.Fnum ≠ point0.snd.Fnum) &&
          decide (fd.GetFdist point0.snd.Fnum point1.snd.Fnum < epsilon)) := by
    apply List.filter_congr
    intro point1 h1
    have hget1 := List.mem_enum_iff_getElem?.1 h1
    have hiff : point0.fst = point1.fst ↔ point1.snd.Fnum = point0.snd.Fnum := by
      constructor
      · intro e
        rw [e, hget1] at hget
        rw [Option.some.inj hget]
      · intro e
        have hl0 := (List.getElem?_eq_some_iff.1 hget).1
        have hl1 := (List.getElem?_eq_some_iff.1 hget1).1
        have e0 : (Points_.map Cpoint.Fnum)[point0.fst]? = some point0.snd.Fnum := by
          rw [List.getElem?_map, hget]; rfl
        have e1 : (Points_.map Cpoint.Fnum)[point1.fst]? = some point0.snd.Fnum := by
          rw [List.getElem?_map, hget1, ← e]; rfl
        have hl0' : point0.fst < (Points_.map Cpoint.Fnum).length := by
          rw [List.length_map]; exact hl0
        have hl1' : point1.fst < (Points_.map Cpoint.Fnum).length := by
          rw [List.length_map]; exact hl1
        rw [List.getElem?_eq_getElem hl0'] at e0
        rw [List.getElem?_eq_getElem hl1'] at e1
        exact (List.Nodup.getElem_inj_iff hnd).1 ((Option.some.inj e0).trans (Option.some.inj e1).symm)
    by_cases hc : point0.fst = point1.fst
    · have := hiff.1 hc
      simp [hc, this]
    · have : ¬ point1.snd.Fnum = point0.snd.Fnum := fun e => hc (hiff.2 e)
      simp [hc, this]
  rw [hcongr]
  congr 1
  have hmap : (Points_.enum.filter fun point1 =>
      decide (point1.snd.Fnum ≠ point0.snd.Fnum) &&
        decide (fd.GetFdist point0.snd.Fnum point1.snd.Fnum < epsilon)).map
        (fun point1 => point1.snd.Fnum) =
      ((Points_.map Cpoint.Fnum).filter fun g =>
        decide (g ≠ point0.snd.Fnum) && decide (fd.GetFdist point0.snd.Fnum g < epsilon)) := by
    have e : (Points_.map Cpoint.Fnum) = Points_.enum.map (fun point1 => point1.snd.Fnum) := by
      conv_lhs => rw [← ClusterList.enum_map_snd_eq Points_]
      rw [List.map_map]
      rfl
    rw [e, List.filter_map]
    rfl
  rw [← hmap, List.length_map]

end Cluster_DPeaks

/-- C21. After the density phase of `Cluster_DPeaks::Cluster` the frames of the
points are exactly the non-ignored frames of the frame matrix in ascending
frame order, and the density of every point is the number of other non-ignored
frames whose frame-level distance to its frame is strictly less than `epsilon`:
neither the frame itself nor a frame at the distance `epsilon` (or more) is
counted. -/
theorem C21_density_phase (epsilon : ℚ) (fd : ClusterMatrix) :
    (Cluster_DPeaks.setDensities epsilon fd (Cluster_DPeaks.initialPoints fd)).map Cpoint.Fnum =
      (List.range fd.Nframes).filter (fun f => !fd.IgnoringRow f) ∧
    ((Cluster_DPeaks.setDensities epsilon fd (Cluster_DPeaks.initialPoints fd)).map
      Cpoint.Fnum).Pairwise (fun a b => a < b) ∧
    (∀ p ∈ Cluster_DPeaks.setDensities epsilon fd (Cluster_DPeaks.initialPoints fd),
      p.Density = Cluster_DPeaks.specDensity epsilon fd p.Fnum) ∧
    (∀ f g, fd.GetFdist f g = epsilon →
      g ∉ (ClusterList.nonIgnoredFrames fd).filter fun g =>
        decide (g ≠ f) && decide (fd.GetFdist f g < epsilon)) ∧
    (∀ f, f ∉ (ClusterList.nonIgnoredFrames fd).filter fun g =>
        decide (g ≠ f) && decide (fd.GetFdist f g < epsilon)) := by
  have hF : (Cluster_DPeaks.initialPoints fd).map Cpoint.Fnum =
      ClusterList.nonIgnoredFrames fd := by
    rw [Cluster_DPeaks.initialPoints_eq, List.map_map]
    exact List.map_id _
  refine ⟨?_, ?_, ?_, ?_, ?_⟩
  · rw [Cluster_DPeaks.setDensities_map_Fnum, hF]
    rfl
  · rw [Cluster_DPeaks.setDensities_map_Fnum, hF]
    unfold ClusterList.nonIgnoredFrames
    exact (List.pairwise_lt_range _).filter _
  · intro p hp
    have h := Cluster_DPeaks.setDensities_density epsilon fd (Cluster_DPeaks.initialPoints fd)
      (by rw [hF]; exact Cluster_DPeaks.nonIgnoredFrames_nodup fd) p hp
    rw [hF] at h
    exact h
  · intro f g hfg hmem
    have := (List.mem_filter.1 hmem).2
    simp only [Bool.and_eq_true, decide_eq_true_eq] at this
    rw [hfg] at this
    exact lt_irrefl _ this.2
  · intro f hmem
    have := (List.mem_filter.1 hmem).2
    simp only [Bool.and_eq_true, decide_eq_true_eq] at this
    exact this.1 rfl

/-! ## Neighbour phase -/

namespace Cluster_DPeaks

theorem nearestScan_eq (fd : ClusterMatrix) (Points_ : List Cpoint) (idx0 : Nat)
    (point0 : Cpoint) :
    nearestScan fd Points_ idx0 point0 =
      Points_.enum.foldl (nearestStep fd idx0 point0) (-1, -1, -1) := rfl

theorem nearestStep_self (fd : ClusterMatrix) (idx0 : Nat) (point0 : Cpoint)
    (acc : ℚ × ℚ × Int) (p : Nat × Cpoint) (h : idx0 = p.fst) :
    nearestStep fd idx0 point0 acc p = acc := by
  unfold nearestStep
  rw [if_neg (not_not.2 h)]

theorem nearestStep_lower (fd : ClusterMatrix) (idx0 : Nat) (point0 : Cpoint)
    (acc : ℚ × ℚ × Int) (p : Nat × Cpoint) (h : idx0 ≠ p.fst)
    (hd : ¬ p.snd.Density > point0.Density) :
    nearestStep fd idx0 point0 acc p =
      (acc.1, max acc.2.1 (fd.GetFdist point0.Fnum p.snd.Fnum), acc.2.2) := by
  unfold nearestStep
  rw [if_pos h, if_neg hd]

theorem nearestStep_first (fd : ClusterMatrix) (idx0 : Nat) (point0 : Cpoint)
    (acc : ℚ × ℚ × Int) (p : Nat × Cpoint) (h : idx0 ≠ p.fst)
    (hd : p.snd.Density > point0.Density) (hneg : acc.1 < 0) :
    nearestStep fd idx0 point0 acc p =
      (fd.GetFdist point0.Fnum p.snd.Fnum,
        max acc.2.1 (fd.GetFdist point0.Fnum p.snd.Fnum), (p.fst : Int)) := by
  unfold nearestStep
  rw [if_pos h, if_pos hd, if_pos hneg]

theorem nearestStep_closer (fd : ClusterMatrix) (idx0 : Nat) (point0 : Cpoint)
    (acc : ℚ × ℚ × Int) (p : Nat × Cpoint) (h : idx0 ≠ p.fst)
    (hd : p.snd.Density > point0.Density) (hneg : ¬ acc.1 < 0)
    (hlt : fd.GetFdist point0.Fnum p.snd.Fnum < acc.1) :
    nearestStep fd idx0 point0 acc p =
      (fd.GetFdist point0.Fnum p.snd.Fnum,
        max acc.2.1 (fd.GetFdist point0.Fnum p.snd.Fnum), (p.fst : Int)) := by
  unfold nearestStep
  rw [if_pos h, if_pos hd, if_neg hneg, if_pos hlt]

theorem nearestStep_keep (fd : ClusterMatrix) (idx0 : Nat) (point0 : Cpoint)
    (acc : ℚ × ℚ × Int) (p : Nat × Cpoint) (h : idx0 ≠ p.fst)
    (hd : p.snd.Density > point0.Density) (hneg : ¬ acc.1 < 0)
    (hlt : ¬ fd.GetFdist point0.Fnum p.snd.Fnum < acc.1) :
    nearestStep fd idx0 point0 acc p =
      (acc.1, max acc.2.1 (fd.GetFdist point0.Fnum p.snd.Fnum), acc.2.2) := by
  unfold nearestStep
  rw [if_pos h, if_pos hd, if_neg hneg, if_neg hlt]

/-- The inner loop of the neighbour phase over indexed points with ascending
indices and non-negative frame distances computes what the spec describes. -/
theorem nearestScan_inv (fd : ClusterMatrix) (idx0 : Nat) (point0 : Cpoint)
    (L : List (Nat × Cpoint)) (hpw : L.Pairwise (fun a b => a.fst < b.fst))
    (hnn : ∀ x ∈ L, 0 ≤ fd.GetFdist point0.Fnum x.snd.Fnum) :
    IsNearestResult fd idx0 point0 L (L.foldl (nearestStep fd idx0 point0) (-1, -1, -1)) := by
  induction L using List.reverseRecOn with
  | nil =>
    refine ⟨Or.inl ⟨rfl, rfl, by simp⟩, Or.inl ⟨rfl, by simp⟩, by simp⟩
  | append_singleton L p ih =>
    rw [List.pairwise_append] at hpw
    obtain ⟨hpwL, _, hlt⟩ := hpw
    have hltp : ∀ x ∈ L, x.fst < p.fst := fun x hx => hlt x hx p (List.mem_singleton_self _)
    have hnnp : 0 ≤ fd.GetFdist point0.Fnum p.snd.Fnum :=
      hnn p (List.mem_append_right _ (List.mem_singleton_self _))
    obtain ⟨hmin, hmaxw, hmaxb⟩ := ih hpwL (fun x hx => hnn x (List.mem_append_left _ hx))
    rw [List.foldl_append, List.foldl_cons, List.foldl_nil]
    generalize L.foldl (nearestStep fd idx0 point0) (-1, -1, -1) = acc at hmin hmaxw hmaxb ⊢
    by_cases hi : idx0 = p.fst
    · -- the point itself: nothing changes
      rw [nearestStep_self fd idx0 point0 acc p hi]
      refine ⟨?_, ?_, ?_⟩
      · rcases hmin with ⟨h1, h2, h3⟩ | ⟨x, hx, hxi, hxd, hxv, hxn, hxm⟩
        · refine Or.inl ⟨h1, h2, ?_⟩
          intro y hy hyi
          rcases List.mem_append.1 hy with hy | hy
          · exact h3 y hy hyi
          · rw [List.mem_singleton.1 hy] at hyi
            exact absurd hi hyi
        · refine Or.inr ⟨x, List.mem_append_left _ hx, hxi, hxd, hxv, hxn, ?_⟩
          intro y hy hyi hyd
          rcases List.mem_append.1 hy with hy | hy
          · exact hxm y hy hyi hyd
          · rw [List.mem_singleton.1 hy] at hyi
            exact absurd hi hyi
      · rcases hmaxw with ⟨h1, h2⟩ | ⟨x, hx, hxi, hxv⟩
        · refine Or.inl ⟨h1, ?_⟩
          intro y hy
          rcases List.mem_append.1 hy with hy | hy
          · exact h2 y hy
          · rw [List.mem_singleton.1 hy]
            exact hi
        · exact Or.inr ⟨x, List.mem_append_left _ hx, hxi, hxv⟩
      · intro y hy hyi
        rcases List.mem_append.1 hy with hy | hy
        · exact hmaxb y hy hyi
        · rw [List.mem_singleton.1 hy] at hyi
          exact absurd hi hyi
    · -- another point
      have hmaxle : -1 ≤ acc.2.1 := by
        rcases hmaxw with ⟨h1, _⟩ | ⟨x, hx, _, hxv⟩
        · rw [h1]
        · rw [hxv]
          have := hnn x (List.mem_append_left _ hx)
          linarith
      have hmaxpart :
          ((max acc.2.1 (fd.GetFdist point0.Fnum p.snd.Fnum) = -1 ∧
              ∀ x ∈ L ++ [p], idx0 = x.fst) ∨
            ∃ x ∈ L ++ [p], idx0 ≠ x.fst ∧
              max acc.2.1 (fd.GetFdist point0.Fnum p.snd.Fnum) =
                fd.GetFdist point0.Fnum x.snd.Fnum) ∧
          (∀ x ∈ L ++ [p], idx0 ≠ x.fst →
            fd.GetFdist point0.Fnum x.snd.Fnum ≤
              max acc.2.1 (fd.GetFdist point0.Fnum p.snd.Fnum)) := by
        constructor
        · right
          rcases le_total acc.2.1 (fd.GetFdist point0.Fnum p.snd.Fnum) with hle | hle
          · exact ⟨p, List.mem_append_right _ (List.mem_singleton_self _), hi, max_eq_right hle⟩
          · rcases hmaxw with ⟨h1, _⟩ | ⟨x, hx, hxi, hxv⟩
            · rw [h1] at hle
              exact absurd hle (by linarith)
            · exact ⟨x, List.mem_append_left _ hx, hxi, by rw [max_eq_left hle, hxv]⟩
        · intro y hy hyi
          rcases List.mem_append.1 hy with hy | hy
          · exact le_trans (hmaxb y hy hyi) (le_max_left _ _)
          · rw [List.mem_singleton.1 hy]
            exact le_max_right _ _
      by_cases hd : p.snd.Density > point0.Density
      · rcases hmin with ⟨h1, h2, h3⟩ | ⟨x, hx, hxi, hxd, hxv, hxn, hxm⟩
        · -- first point of greater density
          have hneg : acc.1 < 0 := by rw [h1]; norm_num
          rw [nearestStep_first fd idx0 point0 acc p hi hd hneg]
          refine ⟨Or.inr ⟨p, List.mem_append_right _ (List.mem_singleton_self _), hi, hd, rfl, rfl,
            ?_⟩, hmaxpart.1, hmaxpart.2⟩
          intro y hy hyi hyd
          rcases List.mem_append.1 hy with hy | hy
          · exact absurd hyd (h3 y hy hyi)
          · rw [List.mem_singleton.1 hy]
            exact ⟨le_refl _, fun _ => le_refl _⟩
        · have hnneg : ¬ acc.1 < 0 := by
            rw [hxv]
            exact not_lt.2 (hnn x (List.mem_append_left _ hx))
          by_cases hlt2 : fd.GetFdist point0.Fnum p.snd.Fnum < acc.1
          · rw [nearestStep_closer fd idx0 point0 acc p hi hd hnneg hlt2]
            refine ⟨Or.inr ⟨p, List.mem_append_right _ (List.mem_singleton_self _), hi, hd, rfl,
              rfl, ?_⟩, hmaxpart.1, hmaxpart.2⟩
            intro y hy hyi hyd
            rcases List.mem_append.1 hy with hy | hy
            · have := (hxm y hy hyi hyd).1
              rw [← hxv] at this
              constructor
              · linarith
              · intro e
                rw [e] at this
                linarith
            · rw [List.mem_singleton.1 hy]
              exact ⟨le_refl _, fun _ => le_refl _⟩
          · rw [nearestStep_keep fd idx0 point0 acc p hi hd hnneg hlt2]
            refine ⟨Or.inr ⟨x, List.mem_append_left _ hx, hxi, hxd, hxv, hxn, ?_⟩,
              hmaxpart.1, hmaxpart.2⟩
            intro y hy hyi hyd
            rcases List.mem_append.1 hy with hy | hy
            · exact hxm y hy hyi hyd
            · rw [List.mem_singleton.1 hy]
              rw [hxv] at hlt2
              exact ⟨not_lt.1 hlt2, fun _ => le_of_lt (hltp x hx)⟩
      · rw [nearestStep_lower fd idx0 point0 acc p hi hd]
        refine ⟨?_, hmaxpart.1, hmaxpart.2⟩
        rcases hmin with ⟨h1, h2, h3⟩ | ⟨x, hx, hxi, hxd, hxv, hxn, hxm⟩
        · refine Or.inl ⟨h1, h2, ?_⟩
          intro y hy hyi
          rcases List.mem_append.1 hy with hy | hy
          · exact h3 y hy hyi
          · rw [List.mem_singleton.1 hy]
            exact hd
        · refine Or.inr ⟨x, List.mem_append_left _ hx, hxi, hxd, hxv, hxn, ?_⟩
          intro y hy hyi hyd
          rcases List.mem_append.1 hy with hy | hy
          · exact hxm y hy hyi hyd
          · rw [List.mem_singleton.1 hy] at hyd
            exact absurd hyd hd

end Cluster_DPeaks

namespace Cluster_DPeaks

theorem enum_pairwise_fst {α : Type} (l : List α) :
    l.enum.Pairwise (fun a b => a.fst < b.fst) := by
  have h := List.pairwise_lt_range l.length
  rw [← List.enum_map_fst l, List.pairwise_map] at h
  exact h

/-- The point that the neighbour phase leaves at index `i`. -/
theorem setNearest_getElem? (fd : ClusterMatrix) (Points_ : List Cpoint) (i : Nat) (p : Cpoint)
    (hp : Points_[i]? = some p) :
    (setNearest fd Points_)[i]? =
      some ((if (nearestScan fd Points_ i p).1 < 0 then
          p.SetDist (nearestScan fd Points_ i p).2.1
        else p.SetDist (nearestScan fd Points_ i p).1).SetNearestIdx
        (nearestScan fd Points_ i p).2.2) := by
  unfold setNearest
  rw [List.getElem?_map, List.getElem?_enum, hp]
  rfl

end Cluster_DPeaks

/-- C22. For every point `p` at an index `i` of the array handed to the
neighbour phase (the density-sorted array in `Cluster`), frame distances
between the points being non-negative: frame, density and cluster id of the
point stay as they are; if some other point has strictly greater density, the
stored distance is the minimum frame distance from `p` to a point of strictly
greater density and `NearestIdx` is the lowest index of a point attaining that
minimum; otherwise `NearestIdx` is `-1` and the stored distance is the maximum
frame distance from `p` to any other point (`-1` when there is no other
point). -/
theorem C22_neighbour_phase (fd : ClusterMatrix) (Points_ : List Cpoint)
    (hnn : ∀ x ∈ Points_, ∀ y ∈ Points_, 0 ≤ fd.GetFdist x.Fnum y.Fnum)
    (i : Nat) (p : Cpoint) (hp : Points_[i]? = some p) :
    ∃ r, (Cluster_DPeaks.setNearest fd Points_)[i]? = some r ∧
      r.Fnum = p.Fnum ∧ r.Density = p.Density ∧ r.Cnum = p.Cnum ∧
      ((∃ k s, Points_[k]? = some s ∧ k ≠ i ∧ p.Density < s.Density) →
        ∃ j q, Points_[j]? = some q ∧ j ≠ i ∧ p.Density < q.Density ∧
          r.NearestIdx = (j : Int) ∧ r.Dist = fd.GetFdist p.Fnum q.Fnum ∧
          ∀ k s, Points_[k]? = some s → k ≠ i → p.Density < s.Density →
            r.Dist ≤ fd.GetFdist p.Fnum s.Fnum ∧
            (fd.GetFdist p.Fnum s.Fnum = r.Dist → j ≤ k)) ∧
      ((¬ ∃ k s, Points_[k]? = some s ∧ k ≠ i ∧ p.Density < s.Density) →
        r.NearestIdx = -1 ∧
        (∀ k s, Points_[k]? = some s → k ≠ i → fd.GetFdist p.Fnum s.Fnum ≤ r.Dist) ∧
        ((∃ k s, Points_[k]? = some s ∧ k ≠ i ∧ r.Dist = fd.GetFdist p.Fnum s.Fnum) ∨
          (r.Dist = -1 ∧ ∀ k s, Points_[k]? = some s → k = i))) := by
  have hpm : p ∈ Points_ := List.getElem?_mem hp
  have hinv := Cluster_DPeaks.nearestScan_inv fd i p Points_.enum
    (Cluster_DPeaks.enum_pairwise_fst Points_)
    (fun x hx => hnn p hpm x.snd (List.getElem?_mem (List.mem_enum_iff_getElem?.1 hx)))
  rw [← Cluster_DPeaks.nearestScan_eq] at hinv
  refine ⟨_, Cluster_DPeaks.setNearest_getElem? fd Points_ i p hp, ?_, ?_, ?_, ?_, ?_⟩
  · split_ifs <;> rfl
  · split_ifs <;> rfl
  · split_ifs <;> rfl
  · rintro ⟨k, s, hk, hki, hks⟩
    obtain ⟨hmin, _, _⟩ := hinv
    rcases hmin with ⟨_, _, h3⟩ | ⟨x, hx, hxi, hxd, hxv, hxn, hxm⟩
    · exact absurd hks (h3 (k, s) (List.mk_mem_enum_iff_getElem?.2 hk) (fun e => hki e.symm))
    · have hxget := List.mem_enum_iff_getElem?.1 hx
      have hnneg : ¬ (Cluster_DPeaks.nearestScan fd Points_ i p).1 < 0 := by
        rw [hxv]
        exact not_lt.2 (hnn p hpm x.snd (List.getElem?_mem hxget))
      refine ⟨x.fst, x.snd, hxget, fun e => hxi e.symm, hxd, ?_, ?_, ?_⟩
      · rw [if_neg hnneg]
        exact hxn
      · rw [if_neg hnneg]
        exact hxv
      · intro k' s' hk' hki' hks'
        rw [if_neg hnneg]
        have := hxm (k', s') (List.mk_mem_enum_iff_getElem?.2 hk') (fun e => hki' e.symm) hks'
        show (Cluster_DPeaks.nearestScan fd Points_ i p).1 ≤ _ ∧
          (_ = (Cluster_DPeaks.nearestScan fd Points_ i p).1 → _)
        rw [hxv]
        exact this
  · intro hno
    obtain ⟨hmin, hmaxw, hmaxb⟩ := hinv
    rcases hmin with ⟨h1, h2, _⟩ | ⟨x, hx, hxi, hxd, _, _, _⟩
    · have hneg : (Cluster_DPeaks.nearestScan fd Points_ i p).1 < 0 := by rw [h1]; norm_num
      rw [if_pos hneg]
      refine ⟨h2, ?_, ?_⟩
      · intro k s hk hki
        exact hmaxb (k, s) (List.mk_mem_enum_iff_getElem?.2 hk) (fun e => hki e.symm)
      · rcases hmaxw with ⟨hm1, hm2⟩ | ⟨x, hx, hxi, hxv⟩
        · refine Or.inr ⟨hm1, ?_⟩
          intro k s hk
          exact (hm2 (k, s) (List.mk_mem_enum_iff_getElem?.2 hk)).symm
        · exact Or.inl ⟨x.fst, x.snd, List.mem_enum_iff_getElem?.1 hx, fun e => hxi e.symm, hxv⟩
    · exact absurd ⟨x.fst, x.snd, List.mem_enum_iff_getElem?.1 hx, fun e => hxi e.symm, hxd⟩ hno

/-- C22 at the first point (frame `0`, density `0`) of the sorted points of
`tenOnLine` with `epsilon = 3/2`. -/
theorem C22_neighbour_phase_witness :
    ∃ r : Cpoint, (Cluster_DPeaks.setNearest tenOnLine tenOnLineSorted)[0]? = some r ∧
      r.Fnum = (Cpoint.new 0).Fnum ∧ r.Density = (Cpoint.new 0).Density ∧
      r.Cnum = (Cpoint.new 0).Cnum ∧
      ((∃ (k : Nat) (s : Cpoint), tenOnLineSorted[k]? = some s ∧ k ≠ 0 ∧ (Cpoint.new 0).Density < s.Density) →
        ∃ (j : Nat) (q : Cpoint), tenOnLineSorted[j]? = some q ∧ j ≠ 0 ∧ (Cpoint.new 0).Density < q.Density ∧
          r.NearestIdx = (j : Int) ∧ r.Dist = tenOnLine.GetFdist (Cpoint.new 0).Fnum q.Fnum ∧
          ∀ (k : Nat) (s : Cpoint), tenOnLineSorted[k]? = some s → k ≠ 0 → (Cpoint.new 0).Density < s.Density →
            r.Dist ≤ tenOnLine.GetFdist (Cpoint.new 0).Fnum s.Fnum ∧
            (tenOnLine.GetFdist (Cpoint.new 0).Fnum s.Fnum = r.Dist → j ≤ k)) ∧
      ((¬ ∃ (k : Nat) (s : Cpoint), tenOnLineSorted[k]? = some s ∧ k ≠ 0 ∧ (Cpoint.new 0).Density < s.Density) →
        r.NearestIdx = -1 ∧
        (∀ (k : Nat) (s : Cpoint), tenOnLineSorted[k]? = some s → k ≠ 0 →
          tenOnLine.GetFdist (Cpoint.new 0).Fnum s.Fnum ≤ r.Dist) ∧
        ((∃ (k : Nat) (s : Cpoint), tenOnLineSorted[k]? = some s ∧ k ≠ 0 ∧
            r.Dist = tenOnLine.GetFdist (Cpoint.new 0).Fnum s.Fnum) ∨
          (r.Dist = (-1 : ℚ) ∧ ∀ (k : Nat) (s : Cpoint), tenOnLineSorted[k]? = some s → k = 0))) :=
  C22_neighbour_phase tenOnLine tenOnLineSorted (by decide!) 0 (Cpoint.new 0) (by decide!)

/-! ## Running average -/

namespace Cluster_DPeaks

theorem runningAverage_eq (Points_ : List Cpoint) :
    runningAverage Points_ =
      ((List.range (ra_size Points_ - 1)).foldl (raStep Points_)
        (windowSums Points_,
          (DataSet_Mesh.mk []).AddXY ((windowSums Points_).1 / (window_size Points_ : ℚ))
            ((windowSums Points_).2 / (window_size Points_ : ℚ)))).2 := rfl

theorem windowSums_fold (L : List Cpoint) (s : ℚ × ℚ) :
    L.foldl (fun s p => (s.1 + (p.Density : ℚ), s.2 + p.Dist)) s =
      (s.1 + (L.map fun p => (p.Density : ℚ)).sum, s.2 + (L.map fun p => p.Dist).sum) := by
  induction L generalizing s with
  | nil => simp
  | cons a L ih =>
    rw [List.foldl_cons, ih]
    simp only [List.map_cons, List.sum_cons]
    ext <;> simp <;> ring

/-- The sums over the first window. -/
theorem windowSums_eq (Points_ : List Cpoint) :
    windowSums Points_ = naiveWindowSums Points_ 0 := by
  unfold windowSums naiveWindowSums
  rw [windowSums_fold, List.drop_zero]
  simp

/-- Sliding a window by one: the entering element is added, the leaving one
subtracted. -/
theorem window_slide (f : Cpoint → ℚ) (L : List Cpoint) (d : Cpoint) (n w : Nat)
    (h : n + w < L.length) :
    (((L.drop (n + 1)).take w).map f).sum =
      f (L.getD (n + w) d) - f (L.getD n d) + (((L.drop n).take w).map f).sum := by
  have hn : n < L.length := by omega
  have e1 : (L.drop n).take (w + 1) = L.getD n d :: (L.drop (n + 1)).take w := by
    rw [List.drop_eq_getElem_cons hn, List.take_succ_cons, List.getD_eq_getElem _ _ hn]
  have e2 : (L.drop n).take (w + 1) = (L.drop n).take w ++ [L.getD (n + w) d] := by
    rw [List.take_succ, List.getElem?_drop, List.getD_eq_getElem _ _ h,
      List.getElem?_eq_getElem h]
    rfl
  have e3 := congrArg (fun l => (l.map f).sum) (e1.symm.trans e2)
  simp only [List.map_cons, List.sum_cons, List.map_append, List.sum_append, List.map_nil,
    List.sum_nil, add_zero] at e3
  linarith

/-- After `n` passes of the loop the sums are those of the window at `n` and
the running average holds the naive window means of the windows `0..n`. -/
theorem runningAverage_fold (Points_ : List Cpoint) (n : Nat)
    (hn : n + window_size Points_ ≤ Points_.length) :
    (List.range n).foldl (raStep Points_)
      (windowSums Points_,
        (DataSet_Mesh.mk []).AddXY ((windowSums Points_).1 / (window_size Points_ : ℚ))
          ((windowSums Points_).2 / (window_size Points_ : ℚ))) =
      (naiveWindowSums Points_ n,
        DataSet_Mesh.mk ((List.range (n + 1)).map (naiveWindowMean Points_))) := by
  induction n with
  | zero =>
    rw [List.range_zero, List.foldl_nil, windowSums_eq]
    rfl
  | succ n ih =>
    rw [List.range_succ, List.foldl_append, List.foldl_cons, List.foldl_nil, ih (by omega)]
    have hlt : n + window_size Points_ < Points_.length := by omega
    have hx := window_slide (fun p => (p.Density : ℚ)) Points_ (Cpoint.new 0) n
      (window_size Points_) hlt
    have hy := window_slide (fun p => p.Dist) Points_ (Cpoint.new 0) n
      (window_size Points_) hlt
    have hsum : naiveWindowSums Points_ (n + 1) =
        (((Points_.getD (n + 1 + window_size Points_ - 1) (Cpoint.new 0)).Density : ℚ)
            - ((Points_.getD (n + 1 - 1) (Cpoint.new 0)).Density : ℚ)
            + (naiveWindowSums Points_ n).1,
          (Points_.getD (n + 1 + window_size Points_ - 1) (Cpoint.new 0)).Dist
            - (Points_.getD (n + 1 - 1) (Cpoint.new 0)).Dist
            + (naiveWindowSums Points_ n).2) := by
      rw [show n + 1 + window_size Points_ - 1 = n + window_size Points_ by omega,
        show n + 1 - 1 = n by omega]
      unfold naiveWindowSums
      rw [hx, hy]
    have h1 := congrArg Prod.fst hsum
    have h2 := congrArg Prod.snd hsum
    simp only at h1 h2
    unfold raStep
    simp only [DataSet_Mesh.AddXY]
    rw [← h1, ← h2, List.range_succ (n + 1), List.map_append]
    rfl

end Cluster_DPeaks

/-- C29. For `N` points and a window `w = N/10 ≥ 1`, the running average of
`Cluster_DPeaks::Cluster` has exactly `N - w + 1` entries, and for every
`i ≤ N - w` the entry `i` that the incremental update produces (add the
entering point, subtract the leaving point) is the naive window mean: the sum
of the densities of `Points[i..i+w-1]` over `w` and the sum of their distances
over `w`, in exact arithmetic. -/
theorem C29_running_average_is_window_mean (Points_ : List Cpoint)
    (_hw : 1 ≤ Cluster_DPeaks.window_size Points_) :
    Cluster_DPeaks.window_size Points_ = Points_.length / 10 ∧
    (Cluster_DPeaks.runningAverage Points_).Size =
      Points_.length - Cluster_DPeaks.window_size Points_ + 1 ∧
    ∀ i, i ≤ Points_.length - Cluster_DPeaks.window_size Points_ →
      (Cluster_DPeaks.runningAverage Points_).mesh_[i]? =
        some (Cluster_DPeaks.naiveWindowMean Points_ i) ∧
      (Cluster_DPeaks.runningAverage Points_).X i =
        some ((((Points_.drop i).take (Cluster_DPeaks.window_size Points_)).map
          fun p => (p.Density : ℚ)).sum / (Cluster_DPeaks.window_size Points_ : ℚ)) ∧
      (Cluster_DPeaks.runningAverage Points_).Y i =
        some ((((Points_.drop i).take (Cluster_DPeaks.window_size Points_)).map
          fun p => p.Dist).sum / (Cluster_DPeaks.window_size Points_ : ℚ)) := by
  have hwle : Cluster_DPeaks.window_size Points_ ≤ Points_.length := by
    unfold Cluster_DPeaks.window_size
    exact Nat.div_le_self _ _
  have hfold := Cluster_DPeaks.runningAverage_fold Points_
    (Points_.length - Cluster_DPeaks.window_size Points_) (by omega)
  have hra : Cluster_DPeaks.runningAverage Points_ =
      DataSet_Mesh.mk ((List.range (Points_.length - Cluster_DPeaks.window_size Points_ + 1)).map
        (Cluster_DPeaks.naiveWindowMean Points_)) := by
    rw [Cluster_DPeaks.runningAverage_eq]
    have hsz : Cluster_DPeaks.ra_size Points_ - 1 =
        Points_.length - Cluster_DPeaks.window_size Points_ := by
      unfold Cluster_DPeaks.ra_size
      omega
    rw [hsz, hfold]
  refine ⟨rfl, ?_, ?_⟩
  · rw [hra]
    simp [DataSet_Mesh.Size]
  · intro i hi
    have hget : (Cluster_DPeaks.runningAverage Points_).mesh_[i]? =
        some (Cluster_DPeaks.naiveWindowMean Points_ i) := by
      rw [hra]
      simp only
      rw [List.getElem?_map, List.getElem?_range (by omega)]
      rfl
    refine ⟨hget, ?_, ?_⟩
    · unfold DataSet_Mesh.X
      rw [List.get?_eq_getElem?, hget]
      rfl
    · unfold DataSet_Mesh.Y
      rw [List.get?_eq_getElem?, hget]
      rfl

/-- C29 at the twenty points of `staircase` with `epsilon = 2` (window
`2`). -/
theorem C29_running_average_witness :
    Cluster_DPeaks.window_size (Cluster_DPeaks.neighbourPhase 2 staircase) =
      (Cluster_DPeaks.neighbourPhase 2 staircase).length / 10 ∧
    (Cluster_DPeaks.runningAverage (Cluster_DPeaks.neighbourPhase 2 staircase)).Size =
      (Cluster_DPeaks.neighbourPhase 2 staircase).length -
        Cluster_DPeaks.window_size (Cluster_DPeaks.neighbourPhase 2 staircase) + 1 ∧
    ∀ i, i ≤ (Cluster_DPeaks.neighbourPhase 2 staircase).length -
        Cluster_DPeaks.window_size (Cluster_DPeaks.neighbourPhase 2 staircase) →
      (Cluster_DPeaks.runningAverage (Cluster_DPeaks.neighbourPhase 2 staircase)).mesh_[i]? =
        some (Cluster_DPeaks.naiveWindowMean (Cluster_DPeaks.neighbourPhase 2 staircase) i) ∧
      (Cluster_DPeaks.runningAverage (Cluster_DPeaks.neighbourPhase 2 staircase)).X i =
        some (((((Cluster_DPeaks.neighbourPhase 2 staircase).drop i).take
          (Cluster_DPeaks.window_size (Cluster_DPeaks.neighbourPhase 2 staircase))).map
            fun p => (p.Density : ℚ)).sum /
          (Cluster_DPeaks.window_size (Cluster_DPeaks.neighbourPhase 2 staircase) : ℚ)) ∧
      (Cluster_DPeaks.runningAverage (Cluster_DPeaks.neighbourPhase 2 staircase)).Y i =
        some (((((Cluster_DPeaks.neighbourPhase 2 staircase).drop i).take
          (Cluster_DPeaks.window_size (Cluster_DPeaks.neighbourPhase 2 staircase))).map
            fun p => p.Dist).sum /
          (Cluster_DPeaks.window_size (Cluster_DPeaks.neighbourPhase 2 staircase) : ℚ)) :=
  C29_running_average_is_window_mean (Cluster_DPeaks.neighbourPhase 2 staircase) (by decide!)

/-! ## Center selection -/

/-- C23. The window of the running average is `N/10` and no minimum is
enforced: it is at least `1` exactly when there are at least ten points. With
the two frames of `twoFrames` (`epsilon = 2`) the check on the number of
points passes (there are two points), the window is `0`, the divisor
`dwindow` of the running average is `0`, and the running average is computed
all the same (with three entries). -/
theorem C23_window_size_can_be_zero :
    (∀ Points_ : List Cpoint,
      1 ≤ Cluster_DPeaks.window_size Points_ ↔ 10 ≤ Points_.length) ∧
    ¬ (Cluster_DPeaks.initialPoints twoFrames).length < 2 ∧
    (Cluster_DPeaks.neighbourPhase 2 twoFrames).length = 2 ∧
    Cluster_DPeaks.window_size (Cluster_DPeaks.neighbourPhase 2 twoFrames) = 0 ∧
    ((Cluster_DPeaks.window_size (Cluster_DPeaks.neighbourPhase 2 twoFrames) : Nat) : ℚ) = 0 ∧
    (Cluster_DPeaks.runningAverage (Cluster_DPeaks.neighbourPhase 2 twoFrames)).Size = 3 := by
  refine ⟨?_, by decide!, by decide!, by decide!, by decide!, by decide!⟩
  intro Points_
  unfold Cluster_DPeaks.window_size
  omega

/-- C24. The position used for the residual of a point need not be a position
of closest density. On `tenOnLine` with `epsilon = 3/2` the running-average
densities are `0,0,0,0,0,0,0,1,1,2` and every point is given the position `0`:
the walk stops where the next position is not strictly closer. For the last
point (density `2`) the loop is at position `0` when its turn comes, the walk
leaves it there, and the density at position `0` differs by `2` from the
density of the point while the density at position `9` is that of the
point. -/
theorem C24_position_not_closest :
    (Cluster_DPeaks.runningAverage (Cluster_DPeaks.neighbourPhase (3 / 2) tenOnLine)).mesh_.map
        Prod.fst = [0, 0, 0, 0, 0, 0, 0, 1, 1, 2] ∧
    (Cluster_DPeaks.neighbourPhase (3 / 2) tenOnLine).map Cpoint.Density =
      [0, 0, 0, 0, 0, 0, 0, 1, 1, 2] ∧
    Cluster_DPeaks.raPositions (Cluster_DPeaks.neighbourPhase (3 / 2) tenOnLine) =
      some [0, 0, 0, 0, 0, 0, 0, 0, 0, 0] ∧
    (((Cluster_DPeaks.neighbourPhase (3 / 2) tenOnLine).take 9).foldlM
        (Cluster_DPeaks.selectStep
          (Cluster_DPeaks.runningAverage (Cluster_DPeaks.neighbourPhase (3 / 2) tenOnLine)) 9)
        (0, 0, [])).map (fun r => r.1) = some 0 ∧
    Cluster_DPeaks.walk
        (Cluster_DPeaks.runningAverage (Cluster_DPeaks.neighbourPhase (3 / 2) tenOnLine))
        2 (9 - 0) 0 = some 0 ∧
    (Cluster_DPeaks.runningAverage (Cluster_DPeaks.neighbourPhase (3 / 2) tenOnLine)).X 0 =
      some 0 ∧
    (Cluster_DPeaks.runningAverage (Cluster_DPeaks.neighbourPhase (3 / 2) tenOnLine)).X 9 =
      some 2 ∧
    |(2 : ℚ) - 2| < |(2 : ℚ) - 0| := by
  refine ⟨by decide!, by decide!, by decide!, by decide!, by decide!, by decide!, by decide!,
    by decide!⟩

/-! ## Propagation -/

/-- C25. After the propagation loop a point that was not selected as a center
can carry a cluster id that is not the id of its nearest neighbour of higher
density. On `twoGroups` with `epsilon = 5/2` the selection flags one point,
the last one of the sorted array (index `10`, id `0`). After the propagation
loop the points at the indices `5` and `6` (not selected, `NearestIdx = 9`)
have the id `0`, while the point at index `9` (`NearestIdx = -1`, not
selected) is unassigned (`-1`); the selected center has kept its id. The list
gives `(NearestIdx, Cnum)` for every point. -/
theorem C25_id_differs_from_neighbour :
    (Cluster_DPeaks.selectCenters (Cluster_DPeaks.neighbourPhase (5 / 2) twoGroups)).map
        (fun r => (r.1, r.2.map Cpoint.Cnum)) =
      some (1, [-1, -1, -1, -1, -1, -1, -1, -1, -1, -1, 0]) ∧
    (Cluster_DPeaks.Cluster 11 (5 / 2) twoGroups).map
        (fun r => (r.1, r.2.1, r.2.2.map fun p => (p.NearestIdx, p.Cnum))) =
      some (0, 1, [(1, -1), (5, -1), (6, -1), (7, 0), (8, 0), (9, 0), (9, 0), (10, 0), (10, 0),
        (-1, -1), (-1, 0)]) := by
  refine ⟨by decide!, by decide!⟩

/-- C27. A chain that ends at an unassigned point without neighbour does not
always leave its points unassigned. On `twoGroups` with `epsilon = 5/2`, in
the array left by the center selection the point at index `5` has
`NearestIdx = 9` and the point at index `9` is unassigned with
`NearestIdx = -1`. Called with `cnum = -1`, `AssignClusterNum` for index `5`
changes nothing; called with the `cnum = 0` left by an earlier call, it gives
the point the id `0` (the id of the center at index `10`, which is not on its
chain). In the propagation loop the indices `3` and `4` are resolved to `0`
first, and the indices `5` and `6` then receive `0`, while index `9` stays
unassigned. -/
theorem C27_sentinel_chain_gets_stale_id :
    twoGroupsSelected.map (fun p => (p.NearestIdx, p.Cnum)) =
      [(1, -1), (5, -1), (6, -1), (7, -1), (8, -1), (9, -1), (9, -1), (10, -1), (10, -1),
        (-1, -1), (-1, 0)] ∧
    Cluster_DPeaks.AssignClusterNum 11 twoGroupsSelected 5 (-1) = some (twoGroupsSelected, -1) ∧
    Cluster_DPeaks.AssignClusterNum 11 twoGroupsSelected 5 0 =
      some (Cluster_DPeaks.setClusterAt twoGroupsSelected 5 0, 0) ∧
    ((Cluster_DPeaks.setClusterAt twoGroupsSelected 5 0).map Cpoint.Cnum) =
      [-1, -1, -1, -1, -1, 0, -1, -1, -1, -1, 0] ∧
    (Cluster_DPeaks.propagate 11 twoGroupsSelected).map
        (fun r => (r.1.map Cpoint.Cnum, r.2)) =
      some ([-1, -1, -1, 0, 0, 0, 0, 0, 0, -1, 0], 0) := by
  refine ⟨by decide!, by decide!, by decide!, by decide!, by decide!⟩

/-! ## Reads of the running average -/

namespace Cluster_DPeaks

theorem X_isSome (runavg : DataSet_Mesh) (i : Nat) (h : i < runavg.Size) :
    ∃ x, runavg.X i = some x := by
  unfold DataSet_Mesh.X
  unfold DataSet_Mesh.Size at h
  rw [List.get?_eq_getElem?, List.getElem?_eq_getElem h]
  exact ⟨_, rfl⟩

theorem Y_isSome (runavg : DataSet_Mesh) (i : Nat) (h : i < runavg.Size) :
    ∃ y, runavg.Y i = some y := by
  unfold DataSet_Mesh.Y
  unfold DataSet_Mesh.Size at h
  rw [List.get?_eq_getElem?, List.getElem?_eq_getElem h]
  exact ⟨_, rfl⟩

/-- When `ra_end` is an index of the running average the walk stays inside
it. -/
theorem walk_some (runavg : DataSet_Mesh) (dens : ℚ) (ra_end : Nat) (hsz : ra_end < runavg.Size)
    (left : Nat) :
    ∀ pos, pos + left = ra_end →
      ∃ pos', walk runavg dens left pos = some pos' ∧ pos ≤ pos' ∧ pos' ≤ ra_end := by
  induction left with
  | zero =>
    intro pos h
    exact ⟨pos, rfl, le_refl _, by omega⟩
  | succ left ih =>
    intro pos h
    obtain ⟨x0, hx0⟩ := X_isSome runavg pos (by omega)
    obtain ⟨x1, hx1⟩ := X_isSome runavg (pos + 1) (by omega)
    unfold walk
    rw [hx0, hx1]
    simp only
    split_ifs
    · obtain ⟨pos', h1, h2, h3⟩ := ih (pos + 1) (by omega)
      exact ⟨pos', h1, by omega, h3⟩
    · exact ⟨pos, rfl, le_refl _, by omega⟩

theorem selectStep_some (runavg : DataSet_Mesh) (ra_end : Nat) (hsz : ra_end < runavg.Size)
    (acc : Nat × Int × List Cpoint) (point : Cpoint) (hacc : acc.1 ≤ ra_end) :
    ∃ r, selectStep runavg ra_end acc point = some r ∧ r.1 ≤ ra_end := by
  obtain ⟨pos, hw, _, hle⟩ := walk_some runavg (point.Density : ℚ) ra_end hsz
    (ra_end - acc.1) acc.1 (by omega)
  obtain ⟨y, hy⟩ := Y_isSome runavg pos (by omega)
  unfold selectStep
  rw [hw]
  simp only
  rw [hy]
  simp only
  split_ifs
  · exact ⟨_, rfl, hle⟩
  · exact ⟨_, rfl, hle⟩

theorem selectFold_some (runavg : DataSet_Mesh) (ra_end : Nat) (hsz : ra_end < runavg.Size)
    (L : List Cpoint) :
    ∀ acc : Nat × Int × List Cpoint, acc.1 ≤ ra_end →
      ∃ r, L.foldlM (selectStep runavg ra_end) acc = some r := by
  induction L with
  | nil => intro acc _; exact ⟨acc, rfl⟩
  | cons p L ih =>
    intro acc hacc
    obtain ⟨r, hr, hle⟩ := selectStep_some runavg ra_end hsz acc p hacc
    rw [List.foldlM_cons, hr]
    exact ih r hle

/-- The running average has `ra_size` entries. -/
theorem runningAverage_Size (Points_ : List Cpoint) :
    (runningAverage Points_).Size = ra_size Points_ := by
  have hwle : window_size Points_ ≤ Points_.length := by
    unfold window_size
    exact Nat.div_le_self _ _
  have hfold := runningAverage_fold Points_ (Points_.length - window_size Points_) (by omega)
  have hsz : ra_size Points_ - 1 = Points_.length - window_size Points_ := by
    unfold ra_size
    omega
  rw [runningAverage_eq, hsz, hfold]
  unfold ra_size
  simp [DataSet_Mesh.Size]

/-- With fewer than twenty points every read of the center selection is inside
the running average: the selection returns. -/
theorem selectCenters_some (Points_ : List Cpoint) (h : Points_.length < 20) :
    ∃ r, selectCenters Points_ = some r := by
  have hsz : Points_.length - 1 < (runningAverage Points_).Size := by
    rw [runningAverage_Size]
    unfold ra_size window_size
    omega
  obtain ⟨r, hr⟩ := selectFold_some (runningAverage Points_) (Points_.length - 1) hsz Points_
    (0, 0, []) (Nat.zero_le _)
  unfold selectCenters
  rw [hr]
  exact ⟨_, rfl⟩

end Cluster_DPeaks

/-- C30. The reads of the running average in the center selection are bounded
by `ra_end = N - 1`, not by the number of entries `ra_size = N - window_size
+ 1`. With fewer than twenty points (window at most `1`) every read is inside
the running average and the selection returns. On the twenty points of
`staircase` with `epsilon = 2` the window is `2`, the running average has
`19` entries (indices `0..18`), the loop is at position `16` after the first
eighteen points, and for the next point (density `9`) the walk goes on to
position `18` and there, `ra_end = 19` not being reached, reads `X(19)`:
a read outside the running average. -/
theorem C30_read_outside_running_average :
    (∀ Points_ : List Cpoint, Points_.length < 20 →
      ∃ r, Cluster_DPeaks.selectCenters Points_ = some r) ∧
    (Cluster_DPeaks.neighbourPhase 2 staircase).length = 20 ∧
    Cluster_DPeaks.window_size (Cluster_DPeaks.neighbourPhase 2 staircase) = 2 ∧
    Cluster_DPeaks.ra_size (Cluster_DPeaks.neighbourPhase 2 staircase) = 19 ∧
    (Cluster_DPeaks.runningAverage (Cluster_DPeaks.neighbourPhase 2 staircase)).Size = 19 ∧
    (((Cluster_DPeaks.neighbourPhase 2 staircase).take 18).foldlM
        (Cluster_DPeaks.selectStep
          (Cluster_DPeaks.runningAverage (Cluster_DPeaks.neighbourPhase 2 staircase)) 19)
        (0, 0, [])).map (fun r => r.1) = some 16 ∧
    ((Cluster_DPeaks.neighbourPhase 2 staircase).map Cpoint.Density).getD 18 0 = 9 ∧
    Cluster_DPeaks.walk
        (Cluster_DPeaks.runningAverage (Cluster_DPeaks.neighbourPhase 2 staircase))
        9 2 16 = some 18 ∧
    (Cluster_DPeaks.runningAverage (Cluster_DPeaks.neighbourPhase 2 staircase)).X 18 = some 9 ∧
    (Cluster_DPeaks.runningAverage (Cluster_DPeaks.neighbourPhase 2 staircase)).X 19 = none ∧
    Cluster_DPeaks.walk
        (Cluster_DPeaks.runningAverage (Cluster_DPeaks.neighbourPhase 2 staircase))
        9 (19 - 16) 16 = none ∧
    Cluster_DPeaks.selectCenters (Cluster_DPeaks.neighbourPhase 2 staircase) = none ∧
    Cluster_DPeaks.Cluster 20 2 staircase = none := by
  refine ⟨Cluster_DPeaks.selectCenters_some, by decide!, by decide!, by decide!, by decide!,
    by decide!, by decide!, by decide!, by decide!, by decide!, by decide!, by decide!,
    by decide!⟩

/-! ## Termination of the propagation -/

namespace Cluster_DPeaks

/-- The index kept by the inner loop of the neighbour phase is `-1` or the
index of another point of strictly greater density, whatever the
distances. -/
theorem nearestScan_idx (fd : ClusterMatrix) (idx0 : Nat) (point0 : Cpoint)
    (L : List (Nat × Cpoint)) :
    (L.foldl (nearestStep fd idx0 point0) (-1, -1, -1)).2.2 = -1 ∨
    ∃ x ∈ L, idx0 ≠ x.fst ∧ point0.Density < x.snd.Density ∧
      (L.foldl (nearestStep fd idx0 point0) (-1, -1, -1)).2.2 = (x.fst : Int) := by
  induction L using List.reverseRecOn with
  | nil => exact Or.inl rfl
  | append_singleton L p ih =>
    rw [List.foldl_append, List.foldl_cons, List.foldl_nil]
    generalize L.foldl (nearestStep fd idx0 point0) (-1, -1, -1) = acc at ih ⊢
    have hkeep : (acc.2.2 = -1 ∨ ∃ x ∈ L, idx0 ≠ x.fst ∧ point0.Density < x.snd.Density ∧
        acc.2.2 = (x.fst : Int)) →
        (acc.2.2 = -1 ∨ ∃ x ∈ L ++ [p], idx0 ≠ x.fst ∧ point0.Density < x.snd.Density ∧
        acc.2.2 = (x.fst : Int)) := by
      rintro (h | ⟨x, hx, h1, h2, h3⟩)
      · exact Or.inl h
      · exact Or.inr ⟨x, List.mem_append_left _ hx, h1, h2, h3⟩
    have hnew : idx0 ≠ p.fst → p.snd.Density > point0.Density →
        ∃ x ∈ L ++ [p], idx0 ≠ x.fst ∧ point0.Density < x.snd.Density ∧
          ((p.fst : Nat) : Int) = (x.fst : Int) :=
      fun h1 h2 => ⟨p, List.mem_append_right _ (List.mem_singleton_self _), h1, h2, rfl⟩
    by_cases hi : idx0 = p.fst
    · rw [nearestStep_self fd idx0 point0 acc p hi]
      exact hkeep ih
    · by_cases hd : p.snd.Density > point0.Density
      · by_cases hneg : acc.1 < 0
        · rw [nearestStep_first fd idx0 point0 acc p hi hd hneg]
          exact Or.inr (hnew hi hd)
        · by_cases hlt : fd.GetFdist point0.Fnum p.snd.Fnum < acc.1
          · rw [nearestStep_closer fd idx0 point0 acc p hi hd hneg hlt]
            exact Or.inr (hnew hi hd)
          · rw [nearestStep_keep fd idx0 point0 acc p hi hd hneg hlt]
            exact hkeep ih
      · rw [nearestStep_lower fd idx0 point0 acc p hi hd]
        exact hkeep ih

/-- The neighbour phase produces an array in which following `NearestIdx`
strictly increases density. -/
theorem setNearest_chainIncreases (fd : ClusterMatrix) (Points_ : List Cpoint) :
    ChainIncreases (setNearest fd Points_) := by
  intro idx r hr
  have hlen : idx < Points_.length := by
    have := (List.getElem?_eq_some_iff.1 hr).1
    unfold setNearest at this
    simpa using this
  have hp : Points_[idx]? = some Points_[idx] := List.getElem?_eq_getElem hlen
  rw [setNearest_getElem? fd Points_ idx _ hp] at hr
  have hr' := Option.some.inj hr
  have hnidx : r.NearestIdx = (nearestScan fd Points_ idx Points_[idx]).2.2 := by
    rw [← hr']
    rfl
  have hdens : r.Density = Points_[idx].Density := by
    rw [← hr']
    split_ifs <;> rfl
  rcases nearestScan_idx fd idx Points_[idx] Points_.enum with h | ⟨x, hx, _, hxd, hxn⟩
  · left
    rw [hnidx, nearestScan_eq]
    exact h
  · right
    have hxget := List.mem_enum_iff_getElem?.1 hx
    obtain ⟨q, hq, _, hqd, _⟩ : ∃ q, (setNearest fd Points_)[x.fst]? = some q ∧ True ∧
        q.Density = x.snd.Density ∧ True := by
      refine ⟨_, setNearest_getElem? fd Points_ x.fst x.snd hxget, trivial, ?_, trivial⟩
      split_ifs <;> rfl
    refine ⟨x.fst, q, ?_, hq, ?_⟩
    · rw [hnidx, nearestScan_eq]
      exact hxn
    · rw [hdens, hqd]
      exact hxd

theorem countP_split {α : Type} (f g : α → Bool) (hfg : ∀ x, g x = true → f x = true)
    (L : List α) :
    L.countP g + L.countP (fun x => f x && !g x) = L.countP f := by
  induction L with
  | nil => rfl
  | cons a L ih =>
    rw [List.countP_cons, List.countP_cons, List.countP_cons, ← ih]
    cases hg : g a
    · cases hf : f a
      · simp
      · simp
        omega
    · have := hfg a hg
      simp [this]
      omega

/-- A step along the chain lowers the rank. -/
theorem chainRank_lt (Points_ : List Cpoint) (p q : Cpoint) (hq : q ∈ Points_)
    (h : p.Density < q.Density) : chainRank Points_ q < chainRank Points_ p := by
  unfold chainRank
  have hs := countP_split (fun x : Cpoint => decide (p.Density < x.Density))
    (fun x : Cpoint => decide (q.Density < x.Density))
    (fun x hx => by
      simp only [decide_eq_true_eq] at hx ⊢
      exact lt_trans h hx) Points_
  have hpos : 0 < Points_.countP (fun x : Cpoint =>
      decide (p.Density < x.Density) && !decide (q.Density < x.Density)) := by
    rw [List.countP_pos_iff]
    exact ⟨q, hq, by simp [h]⟩
  omega

theorem chainRank_lt_length (Points_ : List Cpoint) (p : Cpoint) (hp : p ∈ Points_) :
    chainRank Points_ p < Points_.length := by
  unfold chainRank
  have hs := countP_split (fun _ : Cpoint => true)
    (fun x : Cpoint => decide (p.Density < x.Density)) (fun _ _ => rfl) Points_
  have hpos : 0 < Points_.countP (fun x : Cpoint =>
      true && !decide (p.Density < x.Density)) := by
    rw [List.countP_pos_iff]
    exact ⟨p, hp, by simp⟩
  have hall : Points_.countP (fun _ : Cpoint => true) = Points_.length := by
    rw [List.countP_eq_length]
    intro _ _
    rfl
  omega

/-- With a depth bound above the rank of the starting point,
`AssignClusterNum` returns. -/
theorem AssignClusterNum_some (Points_ : List Cpoint) (hch : ChainIncreases Points_)
    (fuel : Nat) :
    ∀ (idx : Nat) (p : Cpoint) (cnum : Int), Points_[idx]? = some p →
      chainRank Points_ p < fuel →
      ∃ r, AssignClusterNum fuel Points_ idx cnum = some r := by
  induction fuel with
  | zero => intro idx p cnum _ h; omega
  | succ fuel ih =>
    intro idx p cnum hp hrank
    unfold AssignClusterNum
    rw [List.get?_eq_getElem?, hp]
    simp only
    rcases hch idx p hp with h | ⟨j, q, hj, hq, hd⟩
    · rw [if_pos h]
      exact ⟨_, rfl⟩
    · have h1 : ¬ p.NearestIdx = -1 := by rw [hj]; omega
      have h2 : ¬ p.NearestIdx < 0 := by rw [hj]; omega
      rw [if_neg h1, if_neg h2, hj, Int.toNat_ofNat, List.get?_eq_getElem?, hq]
      simp only
      by_cases hc : q.Cnum ≠ -1
      · rw [if_pos hc]
        simp only
        split_ifs
        · exact ⟨_, rfl⟩
        · exact ⟨_, rfl⟩
      · rw [if_neg hc]
        have hlt := chainRank_lt Points_ p q (List.getElem?_mem hq) hd
        obtain ⟨r, hr⟩ := ih j q cnum hq (by omega)
        rw [hr]
        simp only
        split_ifs
        · exact ⟨_, rfl⟩
        · exact ⟨_, rfl⟩

end Cluster_DPeaks

namespace Cluster_DPeaks

theorem map_set_same {α β : Type} (f : α → β) (l : List α) (i : Nat) (a p : α)
    (hp : l[i]? = some p) (hf : f a = f p) : (l.set i a).map f = l.map f := by
  apply List.ext_getElem?
  intro n
  rw [List.getElem?_map, List.getElem?_map, List.getElem?_set]
  by_cases h : i = n
  · subst h
    have hlt := (List.getElem?_eq_some_iff.1 hp).1
    rw [if_pos rfl, if_pos hlt, hp]
    simp [hf]
  · rw [if_neg h]

/-- Setting a cluster id changes neither density nor `NearestIdx`. -/
theorem setClusterAt_key (Points_ : List Cpoint) (idx : Nat) (cnum : Int) :
    (setClusterAt Points_ idx cnum).map chainKey = Points_.map chainKey := by
  unfold setClusterAt
  cases h : Points_.get? idx with
  | none => rfl
  | some p =>
    rw [List.get?_eq_getElem?] at h
    exact map_set_same chainKey Points_ idx (p.SetCluster cnum) p h rfl

/-- The chain property only depends on densities and `NearestIdx`. -/
theorem chainIncreases_of_key (P R : List Cpoint) (hkey : R.map chainKey = P.map chainKey)
    (hP : ChainIncreases P) : ChainIncreases R := by
  have hget : ∀ (i : Nat) (r : Cpoint), R[i]? = some r →
      ∃ p, P[i]? = some p ∧ chainKey p = chainKey r := by
    intro i r hr
    have h1 : (R.map chainKey)[i]? = some (chainKey r) := by
      rw [List.getElem?_map, hr]; rfl
    rw [hkey, List.getElem?_map] at h1
    cases hp : P[i]? with
    | none => rw [hp] at h1; cases h1
    | some p =>
      rw [hp] at h1
      exact ⟨p, rfl, Option.some.inj h1⟩
  have hget' : ∀ (i : Nat) (p : Cpoint), P[i]? = some p →
      ∃ r, R[i]? = some r ∧ chainKey r = chainKey p := by
    intro i p hp
    have h1 : (P.map chainKey)[i]? = some (chainKey p) := by
      rw [List.getElem?_map, hp]; rfl
    rw [← hkey, List.getElem?_map] at h1
    cases hr : R[i]? with
    | none => rw [hr] at h1; cases h1
    | some r =>
      rw [hr] at h1
      exact ⟨r, rfl, Option.some.inj h1⟩
  intro idx r hr
  obtain ⟨p, hp, hk⟩ := hget idx r hr
  have hd : p.Density = r.Density := congrArg Prod.fst hk
  have hn : p.NearestIdx = r.NearestIdx := congrArg Prod.snd hk
  rcases hP idx p hp with h | ⟨j, q, hj, hq, hlt⟩
  · exact Or.inl (hn ▸ h)
  · obtain ⟨q', hq', hk'⟩ := hget' j q hq
    have hd' : q'.Density = q.Density := congrArg Prod.fst hk'
    exact Or.inr ⟨j, q', hn ▸ hj, hq', by rw [← hd, hd']; exact hlt⟩

/-- `AssignClusterNum` changes cluster ids only. -/
theorem AssignClusterNum_key (Points_ : List Cpoint) (fuel : Nat) :
    ∀ (idx : Nat) (cnum : Int) (r : List Cpoint × Int),
      AssignClusterNum fuel Points_ idx cnum = some r →
      r.1.map chainKey = Points_.map chainKey := by
  induction fuel with
  | zero =>
    intro idx cnum r h
    unfold AssignClusterNum at h
    cases h
  | succ fuel ih =>
    intro idx cnum r h
    unfold AssignClusterNum at h
    cases hp : Points_.get? idx with
    | none => rw [hp] at h; cases h
    | some p =>
      rw [hp] at h
      simp only at h
      split_ifs at h with h1 h2
      · rw [← Option.some.inj h]
      · cases hq : Points_.get? p.NearestIdx.toNat with
        | none => rw [hq] at h; cases h
        | some q =>
          rw [hq] at h
          simp only at h
          by_cases hc : q.Cnum ≠ -1
          · rw [if_pos hc] at h
            simp only at h
            split_ifs at h
            · rw [← Option.some.inj h]
            · rw [← Option.some.inj h]
              exact setClusterAt_key _ _ _
          · rw [if_neg hc] at h
            cases hrec : AssignClusterNum fuel Points_ p.NearestIdx.toNat cnum with
            | none => rw [hrec] at h; cases h
            | some r' =>
              rw [hrec] at h
              simp only at h
              have hk := ih _ _ _ hrec
              split_ifs at h
              · rw [← Option.some.inj h]
                exact hk
              · rw [← Option.some.inj h]
                exact (setClusterAt_key _ _ _).trans hk

/-- With a depth bound of at least the number of points the propagation loop
returns. -/
theorem propagate_fold_some (P : List Cpoint) (hP : ChainIncreases P) (fuel : Nat)
    (hfuel : P.length ≤ fuel) (L : List Nat) (hL : ∀ i ∈ L, i < P.length) :
    ∀ acc : List Cpoint × Int, acc.1.map chainKey = P.map chainKey →
      ∃ r, L.foldlM (fun (acc : List Cpoint × Int) idx =>
        match acc.1.get? idx with
        | none => none
        | some p => if p.Cnum = -1 then AssignClusterNum fuel acc.1 idx acc.2 else some acc)
        acc = some r ∧ r.1.map chainKey = P.map chainKey := by
  induction L with
  | nil => intro acc hacc; exact ⟨acc, rfl, hacc⟩
  | cons i L ih =>
    intro acc hacc
    rw [List.foldlM_cons]
    have hlen : acc.1.length = P.length := by
      have := congrArg List.length hacc
      simpa using this
    have hi : i < acc.1.length := by
      rw [hlen]
      exact hL i (List.mem_cons_self _ _)
    have hget : acc.1[i]? = some acc.1[i] := List.getElem?_eq_getElem hi
    rw [List.get?_eq_getElem?, hget]
    simp only
    have hL' : ∀ j ∈ L, j < P.length := fun j hj => hL j (List.mem_cons_of_mem _ hj)
    by_cases hc : acc.1[i].Cnum = -1
    · rw [if_pos hc]
      have hch := chainIncreases_of_key P acc.1 hacc hP
      obtain ⟨r, hr⟩ := AssignClusterNum_some acc.1 hch fuel i acc.1[i] acc.2 hget
        (by
          have := chainRank_lt_length acc.1 acc.1[i] (List.getElem_mem _)
          omega)
      rw [hr]
      exact ih hL' r ((AssignClusterNum_key acc.1 fuel i acc.2 r hr).trans hacc)
    · rw [if_neg hc]
      exact ih hL' acc hacc

/-- In an array in which following `NearestIdx` strictly increases density,
the propagation loop returns when the depth bound is at least the number of
points. -/
theorem propagate_some (P : List Cpoint) (hP : ChainIncreases P) (fuel : Nat)
    (hfuel : P.length ≤ fuel) :
    ∃ r, propagate fuel P = some r ∧ r.1.map chainKey = P.map chainKey :=
  propagate_fold_some P hP fuel hfuel (List.range P.length)
    (fun _ hi => List.mem_range.1 hi) (P, -1) rfl

/-- Along the chain the density strictly increases. -/
theorem chain_density_lt (P : List Cpoint) (hP : ChainIncreases P) (i j : Nat)
    (h : Relation.TransGen (chainNext P) i j) :
    ∃ p q, P[i]? = some p ∧ P[j]? = some q ∧ p.Density < q.Density := by
  induction h with
  | single hstep =>
    obtain ⟨p, hp, hn⟩ := hstep
    rcases hP i p hp with h1 | ⟨k, q, hk, hq, hlt⟩
    · rw [hn] at h1
      omega
    · have : k = _ := Int.ofNat.inj (hk.symm.trans hn)
      subst this
      exact ⟨p, q, hp, hq, hlt⟩
  | tail _ hstep ih =>
    obtain ⟨p, q, hp, hq, hlt⟩ := ih
    obtain ⟨q', hq', hn⟩ := hstep
    rw [hq] at hq'
    have := Option.some.inj hq'
    subst this
    rcases hP _ q hq with h1 | ⟨k, r, hk, hr, hlt'⟩
    · rw [hn] at h1
      omega
    · have : k = _ := Int.ofNat.inj (hk.symm.trans hn)
      subst this
      exact ⟨p, r, hp, hr, lt_trans hlt hlt'⟩

end Cluster_DPeaks

/-- C26. For every point array produced by the neighbour phase, and every
array that differs from it in cluster ids only (as the arrays of the center
selection and of the propagation do): following `NearestIdx` strictly
increases density at each step; no chain comes back to an index it has left;
`AssignClusterNum` returns for every starting index and every `cnum` when the
depth of the recursion is bounded by the number of points (or more), changing
cluster ids only; and so does the whole propagation loop. -/
theorem C26_chain_acyclic_and_propagation_terminates (fd : ClusterMatrix)
    (Points_ : List Cpoint) :
    Cluster_DPeaks.ChainIncreases (Cluster_DPeaks.setNearest fd Points_) ∧
    ∀ R : List Cpoint,
      R.map Cluster_DPeaks.chainKey =
        (Cluster_DPeaks.setNearest fd Points_).map Cluster_DPeaks.chainKey →
      Cluster_DPeaks.ChainIncreases R ∧
      (∀ i, ¬ Relation.TransGen (Cluster_DPeaks.chainNext R) i i) ∧
      (∀ (fuel idx : Nat) (cnum : Int), R.length ≤ fuel → idx < R.length →
        ∃ r, Cluster_DPeaks.AssignClusterNum fuel R idx cnum = some r ∧
          r.1.map Cluster_DPeaks.chainKey = R.map Cluster_DPeaks.chainKey) ∧
      (∀ fuel, R.length ≤ fuel →
        ∃ r, Cluster_DPeaks.propagate fuel R = some r ∧
          r.1.map Cluster_DPeaks.chainKey = R.map Cluster_DPeaks.chainKey) := by
  have h0 := Cluster_DPeaks.setNearest_chainIncreases fd Points_
  refine ⟨h0, ?_⟩
  intro R hR
  have hch := Cluster_DPeaks.chainIncreases_of_key _ R hR h0
  refine ⟨hch, ?_, ?_, ?_⟩
  · intro i h
    obtain ⟨p, q, hp, hq, hlt⟩ := Cluster_DPeaks.chain_density_lt R hch i i h
    rw [hp] at hq
    rw [Option.some.inj hq] at hlt
    exact lt_irrefl _ hlt
  · intro fuel idx cnum hfuel hidx
    have hget : R[idx]? = some R[idx] := List.getElem?_eq_getElem hidx
    obtain ⟨r, hr⟩ := Cluster_DPeaks.AssignClusterNum_some R hch fuel idx R[idx] cnum hget
      (by
        have := Cluster_DPeaks.chainRank_lt_length R R[idx] (List.getElem_mem _)
        omega)
    exact ⟨r, hr, Cluster_DPeaks.AssignClusterNum_key R fuel idx cnum r hr⟩
  · intro fuel hfuel
    exact Cluster_DPeaks.propagate_some R hch fuel hfuel

/-- C26 at the points of `twoGroups` with `epsilon = 5/2` as the center
selection leaves them: the propagation loop returns with a depth bound of
`11`, the number of points. -/
theorem C26_propagation_terminates_witness :
    ∃ r, Cluster_DPeaks.propagate 11 twoGroupsSelected = some r ∧
      r.1.map Cluster_DPeaks.chainKey = twoGroupsSelected.map Cluster_DPeaks.chainKey :=
  ((C26_chain_acyclic_and_propagation_terminates twoGroups
      (Cluster_DPeaks.sortPoints (Cluster_DPeaks.setDensities (5 / 2) twoGroups
        (Cluster_DPeaks.initialPoints twoGroups)))).2 twoGroupsSelected
    (by decide!)).2.2.2 11 (by decide!)

/-! ## Single linkage and connected components -/

namespace ClusterList

variable {γ : Type}

/-- The value of `calcMinDist` is a lower bound of the frame distances between
the two member lists. -/
theorem minDistFrames_le (fd : ClusterMatrix) (A B : List Nat) :
    ∀ a ∈ A, ∀ b ∈ B, minDistFrames fd A B ≤ fd.GetElement a b := by
  intro a ha b hb
  unfold minDistFrames
  rw [nested_foldl_eq (fun m d => if d < m then d else m) fd.GetElement A B DBL_MAX]
  exact (minFold_le _ DBL_MAX).2 _ ((mem_pairDists fd.GetElement A B _).2 ⟨a, ha, b, hb, rfl⟩)

/-- The value of `calcMinDist` is one of the frame distances between the two
member lists, when these are not empty and no distance exceeds `DBL_MAX`. -/
theorem minDistFrames_attained (fd : ClusterMatrix) (A B : List Nat) (hA : A ≠ []) (hB : B ≠ [])
    (hmax : ∀ a ∈ A, ∀ b ∈ B, fd.GetElement a b ≤ DBL_MAX) :
    ∃ a ∈ A, ∃ b ∈ B, minDistFrames fd A B = fd.GetElement a b := by
  have hne := pairDists_ne_nil fd.GetElement A B hA hB
  obtain ⟨d0, hd0⟩ := List.exists_mem_of_ne_nil _ hne
  unfold minDistFrames
  rw [nested_foldl_eq (fun m d => if d < m then d else m) fd.GetElement A B DBL_MAX]
  apply (mem_pairDists fd.GetElement A B _).1
  rcases minFold_mem (A.flatMap fun a => B.map fun b => fd.GetElement a b) DBL_MAX with h | h
  · have h1 := (minFold_le (A.flatMap fun a => B.map fun b => fd.GetElement a b) DBL_MAX).2 d0 hd0
    obtain ⟨a, ha, b, hb, e⟩ := (mem_pairDists fd.GetElement A B d0).1 hd0
    have h2 : d0 ≤ DBL_MAX := by rw [e]; exact hmax a ha b hb
    have : d0 = DBL_MAX := by rw [h] at h1; exact le_antisymm h2 h1
    rw [h, ← this]
    exact hd0
  · exact h

/-- The clusters of the initial build are singletons. -/
theorem init_singletons (linkage : LINKAGETYPE) (cl0 : ClusterList γ) (h0 : cl0.clusters_ = []) :
    ∀ c ∈ (InitializeClusterDistances linkage (buildInitial cl0)).clusters_,
      ∃ g, c.frameList_ = [g] := by
  obtain ⟨k1, _, _, _, _⟩ := InitializeClusterDistances_keeps linkage (buildInitial cl0)
  obtain ⟨_, _, _, b4⟩ := buildInitial_spec cl0 h0
  intro c hc
  rw [k1] at hc
  have : c.frameList_ ∈ (buildInitial cl0).clusters_.map (fun c => c.frameList_) :=
    List.mem_map.2 ⟨c, hc, rfl⟩
  rw [b4] at this
  obtain ⟨g, _, hg⟩ := List.mem_map.1 this
  exact ⟨g, hg.symm⟩

theorem linked_symm (epsilon : ℚ) (fd : ClusterMatrix) (f g : Nat)
    (h : linked epsilon fd f g) : linked epsilon fd g f :=
  ⟨h.2.1, h.1, by rw [GetElement_comm]; exact h.2.2⟩

theorem connected_symm (epsilon : ℚ) (fd : ClusterMatrix) (f g : Nat)
    (h : connected epsilon fd f g) : connected epsilon fd g f := by
  unfold connected at h ⊢
  induction h with
  | refl => exact Relation.ReflTransGen.refl
  | tail _ hstep ih =>
    exact Relation.ReflTransGen.head (linked_symm epsilon fd _ _ hstep) ih

theorem connected_trans (epsilon : ℚ) (fd : ClusterMatrix) (f g h : Nat)
    (h1 : connected epsilon fd f g) (h2 : connected epsilon fd g h) : connected epsilon fd f h :=
  Relation.ReflTransGen.trans h1 h2

/-- When the closest pair of clusters is farther apart than `epsilon` under
single linkage, no two frames of different clusters are joined. -/
theorem separated_of_stuck (epsilon : ℚ) {st : ClusterList γ} (hwf : WellFormed st)
    (hex : ExactDistances .SINGLELINK st) {C1 C2 : Nat} {d : ℚ}
    (hfind : st.ClusterDistances_.FindMin = some (C1, C2, d)) (hd : epsilon < d) :
    ClustersSeparated epsilon st := by
  obtain ⟨hv, _, _, _, _, hmin⟩ := ClusterMatrix.FindMin_some _ _ _ _ hfind
  intro a ha b hb hne f hf g hg
  have hla := (hwf.live_iff a.Num).2 ⟨a, ha, rfl⟩
  have hlb := (hwf.live_iff b.Num).2 ⟨b, hb, rfl⟩
  have hentry : d ≤ st.ClusterDistances_.GetElement a.Num b.Num := by
    rw [hv]
    rcases Nat.lt_or_gt_of_ne hne with hlt | hgt
    · exact (hmin a.Num b.Num hlt hlb.1 hla.2 hlb.2).1
    · rw [GetElement_comm _ a.Num b.Num]
      exact (hmin b.Num a.Num hgt hla.1 hlb.2 hla.2).1
  have hexact : st.ClusterDistances_.GetElement a.Num b.Num =
      minDistFrames st.FrameDistances_ a.frameList_ b.frameList_ :=
    exact_entry .SINGLELINK (by decide) hex a ha b hb hne
  have hle := minDistFrames_le st.FrameDistances_ a.frameList_ b.frameList_ f hf g hg
  rw [hexact] at hentry
  exact lt_of_lt_of_le hd (le_trans hentry hle)

/-- A state with at most one cluster has no two different clusters. -/
theorem separated_of_single (epsilon : ℚ) {st : ClusterList γ} (h : st.Nclusters ≤ 1) :
    ClustersSeparated epsilon st := by
  intro a ha b hb hne
  unfold Nclusters at h
  exfalso
  apply hne
  cases hl : st.clusters_ with
  | nil => rw [hl] at ha; cases ha
  | cons x t =>
    cases t with
    | nil =>
      rw [hl] at ha hb
      rw [List.mem_singleton.1 ha, List.mem_singleton.1 hb]
    | cons y t => rw [hl] at h; simp at h

/-- A successful `MergeClosest` under single linkage keeps every cluster inside
one connected component: the two merged clusters are joined by the pair of
frames that attains their distance. -/
theorem connected_step (epsilon : ℚ) (cl0 : ClusterList γ) (h0 : cl0.clusters_ = [])
    (hmax : ∀ i ∈ nonIgnoredFrames cl0.FrameDistances_,
      ∀ j ∈ nonIgnoredFrames cl0.FrameDistances_, cl0.FrameDistances_.GetElement i j ≤ DBL_MAX)
    {st st' : ClusterList γ} (hr : Reachable .SINGLELINK cl0 st)
    (hconn : ClustersConnected epsilon st)
    (hstep : MergeClosest epsilon .SINGLELINK st = (0, st')) :
    ClustersConnected epsilon st' := by
  have hwf := wellFormed_of_reachable .SINGLELINK cl0 h0 st hr
  have hex := exact_of_reachable .SINGLELINK cl0 h0 st hr
  obtain ⟨hsame, hne, hcov⟩ := partition_of_reachable .SINGLELINK cl0 h0 st hr
  obtain ⟨C1, C2, d, hfind, hle⟩ := MergeClosest_zero_inv epsilon .SINGLELINK st st' hstep
  obtain ⟨hv, _, _, _, _, _⟩ := ClusterMatrix.FindMin_some _ _ _ _ hfind
  obtain ⟨A, B, C, n1, n2, hdec, h1, h2, hlt, hA, hB, hC, hres⟩ :=
    MergeClosest_success epsilon .SINGLELINK hwf hfind hle
  rw [hres] at hstep
  simp only [Prod.mk.injEq, true_and] at hstep
  subst h1 h2
  have hn1 : n1 ∈ st.clusters_ := by rw [hdec]; simp
  have hn2 : n2 ∈ st.clusters_ := by rw [hdec]; simp
  -- the pair of frames that attains the distance of the merged clusters
  have hnum : n1.Num ≠ n2.Num := by omega
  have hexact : st.ClusterDistances_.GetElement n1.Num n2.Num =
      minDistFrames st.FrameDistances_ n1.frameList_ n2.frameList_ :=
    exact_entry .SINGLELINK (by decide) hex n1 hn1 n2 hn2 hnum
  obtain ⟨a, ha, b, hb, hab⟩ := minDistFrames_attained st.FrameDistances_ n1.frameList_
    n2.frameList_ (hne n1 hn1) (hne n2 hn2) (by
      intro x hx y hy
      rw [hsame]
      exact hmax x ((hcov x).1 ⟨n1, hn1, hx⟩) y ((hcov y).1 ⟨n2, hn2, hy⟩))
  have hlink : connected epsilon st.FrameDistances_ a b := by
    refine Relation.ReflTransGen.single ⟨?_, ?_, ?_⟩
    · rw [hsame]; exact (hcov a).1 ⟨n1, hn1, ha⟩
    · rw [hsame]; exact (hcov b).1 ⟨n2, hn2, hb⟩
    · rw [← hab, ← hexact, ← hv]
      exact hle
  obtain ⟨k1, k2, _, _, _⟩ := calcDist_keeps LINKAGETYPE.SINGLELINK
    { st with clusters_ := A ++ n1.MergeFrames n2 :: (B ++ C),
              ClusterDistances_ := st.ClusterDistances_.Ignore n2.Num } A.length
  rw [← hstep]
  intro c hc f hf g hg
  rw [k1] at hc
  rw [k2]
  show connected epsilon st.FrameDistances_ f g
  simp only [List.mem_append, List.mem_cons] at hc
  have hold : ∀ x ∈ st.clusters_, f ∈ x.frameList_ → g ∈ x.frameList_ →
      connected epsilon st.FrameDistances_ f g := fun x hx hfx hgx => hconn x hx f hfx g hgx
  rcases hc with hcA | hcm | hcB | hcC
  · exact hold c (by rw [hdec]; simp [hcA]) hf hg
  · rw [hcm] at hf hg
    rw [mem_MergeFrames] at hf hg
    -- inside the merged cluster: through the joining pair when needed
    have c1 : ∀ x ∈ n1.frameList_, connected epsilon st.FrameDistances_ x a :=
      fun x hx => hconn n1 hn1 x hx a ha
    have c2 : ∀ y ∈ n2.frameList_, connected epsilon st.FrameDistances_ b y :=
      fun y hy => hconn n2 hn2 b hb y hy
    rcases hf with hf | hf <;> rcases hg with hg | hg
    · exact hconn n1 hn1 f hf g hg
    · exact connected_trans _ _ _ _ _ (c1 f hf) (connected_trans _ _ _ _ _ hlink (c2 g hg))
    · exact connected_symm _ _ _ _
        (connected_trans _ _ _ _ _ (c1 g hg) (connected_trans _ _ _ _ _ hlink (c2 f hf)))
    · exact hconn n2 hn2 f hf g hg
  · exact hold c (by rw [hdec]; simp [hcB]) hf hg
  · exact hold c (by rw [hdec]; simp [hcC]) hf hg

end ClusterList

namespace ClusterList

variable {γ : Type}

/-- The merge loop under single linkage without target count, from a state of
the merge phase whose clusters lie inside connected components: it returns,
and in the state it returns the clusters still lie inside components and no
two frames of different clusters are joined. -/
theorem singleLink_loop (epsilon : ℚ) (targetN : Int) (ht : targetN ≤ 0) (cl0 : ClusterList γ)
    (h0 : cl0.clusters_ = [])
    (hmax : ∀ i ∈ nonIgnoredFrames cl0.FrameDistances_,
      ∀ j ∈ nonIgnoredFrames cl0.FrameDistances_, cl0.FrameDistances_.GetElement i j ≤ DBL_MAX)
    (fuel : Nat) :
    ∀ st : ClusterList γ, Reachable .SINGLELINK cl0 st → ClustersConnected epsilon st →
      1 ≤ st.Nclusters → st.Nclusters ≤ fuel + 1 → 1 ≤ fuel →
      ∃ st', mergeLoop epsilon targetN .SINGLELINK fuel st = some st' ∧
        Reachable .SINGLELINK cl0 st' ∧ ClustersConnected epsilon st' ∧
        ClustersSeparated epsilon st' := by
  induction fuel with
  | zero => intro st _ _ _ _ h; omega
  | succ fuel ih =>
    intro st hr hconn h1 hfuel _
    have hwf := wellFormed_of_reachable .SINGLELINK cl0 h0 st hr
    have hex := exact_of_reachable .SINGLELINK cl0 h0 st hr
    unfold mergeLoop
    rcases MergeClosest_cases epsilon .SINGLELINK st with h | ⟨st1, h, _⟩
    · rw [h]
      refine ⟨st, by simp, hr, hconn, ?_⟩
      by_cases hN : 2 ≤ st.Nclusters
      · obtain ⟨C1, C2, d, hfind⟩ := FindMin_of_two hwf hN
        by_cases hd : d ≤ epsilon
        · obtain ⟨_, _, _, _, _, _, _, _, _, _, _, _, hres⟩ :=
            MergeClosest_success epsilon .SINGLELINK hwf hfind hd
          rw [hres] at h
          have := congrArg Prod.fst h
          simp at this
        · exact separated_of_stuck epsilon hwf hex hfind (not_le.1 hd)
      · exact separated_of_single epsilon (by omega)
    · obtain ⟨_, h2, hlen⟩ := wellFormed_step epsilon .SINGLELINK hwf h
      have hr1 : Reachable .SINGLELINK cl0 st1 := Reachable.step epsilon st st1 hr h
      have hconn1 := connected_step epsilon cl0 h0 hmax hr hconn h
      rw [h]
      have hnt : ¬ ((st1.Nclusters : Int) ≤ targetN) := by omega
      simp only [ne_eq, not_true_eq_false, if_false, hnt]
      by_cases hone : st1.Nclusters = 1
      · rw [if_pos hone]
        exact ⟨st1, rfl, hr1, hconn1, separated_of_single epsilon (by omega)⟩
      · rw [if_neg hone]
        exact ih st1 hr1 hconn1 (by omega) (by omega) (by omega)

/-- In a state whose clusters lie inside components and are separated, two
frames are in one cluster exactly when they are connected. -/
theorem sameCluster_iff_connected (epsilon : ℚ) (cl0 : ClusterList γ) (h0 : cl0.clusters_ = [])
    {st : ClusterList γ} (hr : Reachable .SINGLELINK cl0 st)
    (hconn : ClustersConnected epsilon st) (hsep : ClustersSeparated epsilon st)
    (f g : Nat) (hf : f ∈ nonIgnoredFrames cl0.FrameDistances_) :
    (∃ c ∈ st.clusters_, f ∈ c.frameList_ ∧ g ∈ c.frameList_) ↔
      connected epsilon cl0.FrameDistances_ f g := by
  have hwf := wellFormed_of_reachable .SINGLELINK cl0 h0 st hr
  obtain ⟨hsame, _, hcov⟩ := partition_of_reachable .SINGLELINK cl0 h0 st hr
  constructor
  · rintro ⟨c, hc, hfc, hgc⟩
    rw [← hsame]
    exact hconn c hc f hfc g hgc
  · intro h
    obtain ⟨c, hc, hfc⟩ := (hcov f).2 hf
    refine ⟨c, hc, hfc, ?_⟩
    unfold connected at h
    induction h with
    | refl => exact hfc
    | tail _ hstep ih =>
      rename_i x y _
      obtain ⟨_, hy, hd⟩ := hstep
      obtain ⟨b, hb, hyb⟩ := (hcov y).2 hy
      by_cases hnum : c.Num = b.Num
      · rw [eq_of_num_eq hwf.nums_sorted hc hb hnum]
        exact hyb
      · have := hsep c hc b hb hnum x ih y hyb
        rw [hsame] at this
        exact absurd hd (not_le.2 this)

end ClusterList

/-- C28. With single linkage, a frame matrix (symmetric by construction) with
`k ≥ 2` non-ignored frames whose distances are at most `DBL_MAX`, and no
target count in effect (`targetN ≤ 0`), `ClusterHierAgglo` returns (code `0`,
within `k - 1` iterations or any larger bound) and the clusters it returns are
exactly the connected components of the graph on the non-ignored frames that
joins two frames when their frame distance is at most `epsilon`: the member
lists are non-empty and pairwise disjoint, every non-ignored frame is in a
cluster, and two frames are in the same cluster exactly when a path of the
graph joins them. -/
theorem C28_single_linkage_connected_components {γ : Type} (fuel : Nat) (epsilon : ℚ)
    (targetN : Int) (cl0 : ClusterList γ) (h0 : cl0.clusters_ = [])
    (hk : 2 ≤ (ClusterList.nonIgnoredFrames cl0.FrameDistances_).length)
    (ht : targetN ≤ 0)
    (hmax : ∀ i ∈ ClusterList.nonIgnoredFrames cl0.FrameDistances_,
      ∀ j ∈ ClusterList.nonIgnoredFrames cl0.FrameDistances_,
        cl0.FrameDistances_.GetElement i j ≤ DBL_MAX)
    (hfuel : (ClusterList.nonIgnoredFrames cl0.FrameDistances_).length - 1 ≤ fuel) :
    ∃ st, ClusterList.ClusterHierAgglo fuel epsilon targetN .SINGLELINK cl0 = some (0, st) ∧
      (∀ c ∈ st.clusters_, c.frameList_ ≠ []) ∧
      st.clusters_.Pairwise (fun a b => ∀ f ∈ a.frameList_, f ∉ b.frameList_) ∧
      (∀ f, (∃ c ∈ st.clusters_, f ∈ c.frameList_) ↔
        f ∈ ClusterList.nonIgnoredFrames cl0.FrameDistances_) ∧
      ∀ f g, f ∈ ClusterList.nonIgnoredFrames cl0.FrameDistances_ →
        ((∃ c ∈ st.clusters_, f ∈ c.frameList_ ∧ g ∈ c.frameList_) ↔
          ClusterList.connected epsilon cl0.FrameDistances_ f g) := by
  have hN := ClusterList.Nclusters_init .SINGLELINK cl0 h0
  have hinit : ClusterList.ClustersConnected epsilon
      (ClusterList.InitializeClusterDistances .SINGLELINK (ClusterList.buildInitial cl0)) := by
    intro c hc f hf g hg
    obtain ⟨x, hx⟩ := ClusterList.init_singletons .SINGLELINK cl0 h0 c hc
    rw [hx] at hf hg
    rw [List.mem_singleton.1 hf, List.mem_singleton.1 hg]
    exact Relation.ReflTransGen.refl
  obtain ⟨st, hres, hr, hconn, hsep⟩ := ClusterList.singleLink_loop epsilon targetN ht cl0 h0 hmax
    fuel _ ClusterList.Reachable.init hinit (by rw [hN]; omega) (by rw [hN]; omega) (by omega)
  have hwf := ClusterList.wellFormed_of_reachable .SINGLELINK cl0 h0 st hr
  obtain ⟨_, hne, hcov⟩ := ClusterList.partition_of_reachable .SINGLELINK cl0 h0 st hr
  refine ⟨st, ?_, hne, hwf.frames_disjoint, hcov, ?_⟩
  · unfold ClusterList.ClusterHierAgglo
    rw [hres]
    rfl
  · intro f g hf
    exact ClusterList.sameCluster_iff_connected epsilon cl0 h0 hr hconn hsep f g hf

/-- C28 at the six points on a line with `epsilon = 2`, no target count and
five iterations. -/
theorem C28_connected_components_witness :
    ∃ st, ClusterList.ClusterHierAgglo 5 2 0 .SINGLELINK sixPoints = some (0, st) ∧
      (∀ c ∈ st.clusters_, c.frameList_ ≠ []) ∧
      st.clusters_.Pairwise (fun a b => ∀ f ∈ a.frameList_, f ∉ b.frameList_) ∧
      (∀ f, (∃ c ∈ st.clusters_, f ∈ c.frameList_) ↔
        f ∈ ClusterList.nonIgnoredFrames sixPoints.FrameDistances_) ∧
      ∀ f g, f ∈ ClusterList.nonIgnoredFrames sixPoints.FrameDistances_ →
        ((∃ c ∈ st.clusters_, f ∈ c.frameList_ ∧ g ∈ c.frameList_) ↔
          ClusterList.connected 2 sixPoints.FrameDistances_ f g) :=
  C28_single_linkage_connected_components 5 2 0 sixPoints rfl (by decide) (by decide)
    (by decide!) (by decide)


end Cpptraj
